import Mathlib

/-!
Verification of the container library of the numinousgames/tron engine
against its natural-language specification.

The definitions below are shallow embeddings of the C++ templates in
src/include/engine/containers (dynamic_array.h, fixed_array.h, list.h,
map.h, set.h), specialised to element type Nat.  Machine integers
(uint32) are modelled as Nat; wherever uint32 wrap-around can actually
occur on the executed paths it is modelled explicitly, and each such
place is noted next to the definition.  Buffers returned by the
allocator are uninitialised in C++; they are modelled as zero-filled
lists, and no theorem below inspects a slot before the code writes it.
-/

namespace Tron

/-- BIN_EMPTY sentinel, static_cast of -1 to uint32. -/
def U32_MAX : Nat := 4294967295

/-! ## DynamicArray (dynamic_array.h)

State of DynamicArray of Nat: the allocated buffer (length = capacity),
the index of the first element, the logical size and the capacity.
MIN_CAPACITY = 32. -/

structure DynArr (α : Type) where
  values : List α
  first : Nat
  size : Nat
  capacity : Nat
  deriving Repr, DecidableEq

namespace DynArr

variable {α : Type} [Inhabited α]

/-- wrap, dynamic_array.h lines 928-933: (first + index) AND (capacity - 1). -/
def wrap (s : DynArr α) (index : Nat) : Nat :=
  (s.first + index) &&& (s.capacity - 1)

/-- Read of operator[] (line 606): values at the wrapped index. -/
def get (s : DynArr α) (index : Nat) : α :=
  s.values.getD (s.wrap index) default

/-- Write through operator[] (line 614). -/
def setVal (s : DynArr α) (index : Nat) (v : α) : DynArr α :=
  { s with values := s.values.set (s.wrap index) v }

/-- shouldGrow, lines 935-940: size at or above capacity. -/
def shouldGrow (s : DynArr α) : Bool :=
  s.size ≥ s.capacity

/-- shouldShrink, lines 942-947: size at most capacity/4 and capacity above the floor. -/
def shouldShrink (s : DynArr α) : Bool :=
  s.size ≤ (s.capacity >>> 2) && s.capacity > 32

/-- resize, lines 883-902: allocate a new buffer, copy all size elements
from logical order of the old circular buffer into slots 0..size-1,
set first to 0 and release the old buffer.  The copy loop writes slot i
with oldValues[(oldFirst + i) % oldCapacity] for every i below size. -/
def resize (s : DynArr α) (newCapacity : Nat) : DynArr α :=
  { values := (List.range newCapacity).map
      (fun i => if i < s.size then s.values.getD ((s.first + i) % s.capacity) default else default)
    first := 0
    size := s.size
    capacity := newCapacity }

/-- grow, lines 866-874: double the capacity. -/
def grow (s : DynArr α) : DynArr α :=
  s.resize (s.capacity <<< 1)

/-- shrink, lines 876-881: halve the capacity. -/
def shrink (s : DynArr α) : DynArr α :=
  s.resize (s.capacity >>> 1)

/-- push, lines 633-644: grow when needed, then increment size and
write the value at logical index size-1. -/
def push (s : DynArr α) (v : α) : DynArr α :=
  let s1 := if s.shouldGrow then s.grow else s
  let s2 := { s1 with size := s1.size + 1 }
  s2.setVal (s2.size - 1) v

/-- pushFront, lines 659-671: grow when needed, step first back one slot
(wrapping to capacity-1), increment size, write at logical index 0. -/
def pushFront (s : DynArr α) (v : α) : DynArr α :=
  let s1 := if s.shouldGrow then s.grow else s
  let s2 := { s1 with
    first := if s1.first > 0 then s1.first - 1 else s1.capacity - 1
    size := s1.size + 1 }
  s2.setVal 0 v

/-- One step of the shiftForward loop (lines 904-914): with n+1 slots left
to shift the loop body copies logical start+n into logical start+n+1. -/
def shiftForwardAux : DynArr α → Nat → Nat → DynArr α
  | s, _, 0 => s
  | s, start, n + 1 => shiftForwardAux (s.setVal (start + n + 1) (s.get (start + n))) start n

/-- shiftForward, lines 904-914: shift items one slot toward the back,
from index size down to start+1. -/
def shiftForward (s : DynArr α) (start : Nat) : DynArr α :=
  shiftForwardAux s start (s.size - start)

/-- One step of the shiftBackward loop (lines 916-926). -/
def shiftBackwardAux : DynArr α → Nat → Nat → DynArr α
  | s, _, 0 => s
  | s, i, n + 1 => shiftBackwardAux (s.setVal i (s.get (i + 1))) (i + 1) n

/-- shiftBackward, lines 916-926: copy logical i+1 into logical i for
i from start to size-2. -/
def shiftBackward (s : DynArr α) (start : Nat) : DynArr α :=
  shiftBackwardAux s start (s.size - 1 - start)

/-- at, lines 620-631: throws when the index is at or past size,
otherwise reads through wrap.  The container is const in the source. -/
def atIdx (s : DynArr α) (index : Nat) : Except Unit α :=
  if index ≥ s.size then Except.error () else Except.ok (s.values.getD (s.wrap index) default)

/-- insertAt, lines 686-702: the out-of-range check throws before any
mutation; on the valid path grow if needed, shift, increment size, write.
The Bool records whether the runtime error was thrown. -/
def insertAt (s : DynArr α) (index : Nat) (v : α) : DynArr α × Bool :=
  if index > s.size then (s, true)
  else
    let s1 := if s.shouldGrow then s.grow else s
    let s2 := s1.shiftForward index
    let s3 := { s2 with size := s2.size + 1 }
    (s3.setVal index v, false)

/-- pop, lines 722-735: shrink if needed, read the last element, then
decrement size.  Precondition of the source assert: size positive. -/
def pop (s : DynArr α) : DynArr α × α :=
  let s1 := if s.shouldShrink then s.shrink else s
  ({ s1 with size := s1.size - 1 }, s1.get (s1.size - 1))

/-- popFront, lines 737-751: shrink if needed, read element 0, advance
first (without wrapping; wrap masks it on access), decrement size. -/
def popFront (s : DynArr α) : DynArr α × α :=
  let s1 := if s.shouldShrink then s.shrink else s
  ({ s1 with first := s1.first + 1, size := s1.size - 1 }, s1.get 0)

/-- removeAt, lines 753-773: the out-of-range check throws with the
container untouched; otherwise shrink if needed, read the element,
shift the tail back one slot and decrement size. -/
def removeAt (s : DynArr α) (index : Nat) : DynArr α × Option α :=
  if index ≥ s.size then (s, none)
  else
    let s1 := if s.shouldShrink then s.shrink else s
    let elem := s1.get index
    let s2 := s1.shiftBackward index
    ({ s2 with size := s2.size - 1 }, some elem)

/-- clear, lines 789-794. -/
def clear (s : DynArr α) : DynArr α :=
  { s with size := 0, first := 0 }

/-- Capacity loop of the capacity constructors (lines 421-447): start at
MIN_CAPACITY and double while below the request. -/
def growCap (cap target : Nat) : Nat :=
  if h : 0 < cap ∧ cap < target then growCap (cap * 2) target else cap
termination_by target - cap
decreasing_by
  omega

/-- DynamicArray(capacity) constructor, lines 421-433. -/
def mkCap (capacity : Nat) : DynArr α :=
  { values := List.replicate (growCap 32 capacity) default
    first := 0
    size := 0
    capacity := growCap 32 capacity }

/-- Default constructor, lines 403-410: capacity MIN_CAPACITY = 32. -/
def mkDefault : DynArr α :=
  { values := List.replicate 32 default, first := 0, size := 0, capacity := 32 }

/-- Fold push over a list of values. -/
def pushAll (s : DynArr α) (vs : List α) : DynArr α :=
  vs.foldl push s

/-- Simulation relation between a DynamicArray state and the list of
its logical contents, for states whose first index is 0 (the only kind
produced by constructors, push and removeAt: resizing resets first and
neither operation moves it). -/
def GoodDA (s : DynArr α) (vs : List α) : Prop :=
  s.first = 0 ∧ s.size = vs.length ∧ s.values.length = s.capacity ∧
  32 ≤ s.capacity ∧ (∃ k, s.capacity = 2 ^ k) ∧ vs.length ≤ s.capacity ∧
  ∀ i, i < vs.length → s.values.getD i default = vs.getD i default

/-- Structural invariant of every reachable DynamicArray state. -/
def Inv (s : DynArr Nat) : Prop :=
  32 ≤ s.capacity ∧ (∃ k, s.capacity = 2 ^ k) ∧ s.size ≤ s.capacity ∧
  s.values.length = s.capacity

end DynArr

/-! ## FixedArray (fixed_array.h)

State of FixedArray of Nat: contiguous buffer starting at slot 0,
logical size, capacity and the external-data flag of view mode. -/

structure FxArr where
  values : List Nat
  size : Nat
  capacity : Nat
  isDataExternal : Bool
  deriving Repr, DecidableEq

namespace FxArr

/-- at, fixed_array.h lines 606-616: throw when index at or past size,
else read slot index. -/
def atIdx (s : FxArr) (index : Nat) : Except Unit Nat :=
  if index ≥ s.size then Except.error () else Except.ok (s.values.getD index 0)

/-- One step of the shiftForward loop (lines 840-850). -/
def shiftForwardAux : FxArr → Nat → Nat → FxArr
  | s, _, 0 => s
  | s, start, n + 1 =>
    shiftForwardAux
      { s with values := s.values.set (start + n + 1) (s.values.getD (start + n) 0) } start n

/-- shiftForward, lines 840-850. -/
def shiftForward (s : FxArr) (start : Nat) : FxArr :=
  shiftForwardAux s start (s.size - start)

/-- insertAt, lines 654-667: the source asserts size below capacity
(unchecked precondition), then throws on index above size before any
mutation; otherwise shifts, increments size and writes slot index. -/
def insertAt (s : FxArr) (index v : Nat) : FxArr × Bool :=
  if index > s.size then (s, true)
  else
    let s1 := s.shiftForward index
    let s2 := { s1 with size := s1.size + 1 }
    ({ s2 with values := s2.values.set index v }, false)

/-- push, lines 618-632: write slot size and increment (precondition:
size below capacity). -/
def push (s : FxArr) (v : Nat) : FxArr :=
  { s with values := s.values.set s.size v, size := s.size + 1 }

/-- Default constructor, lines 473-499: owned zeroed buffer of
DEFAULT_CAPACITY = 32. -/
def mkDefault : FxArr :=
  { values := List.replicate 32 0, size := 0, capacity := 32, isDataExternal := false }

end FxArr

/-! ## List (list.h)

NodePoolList of Nat: a single node array holding two circular rings
(live ring and free ring) of doubly linked nodes. -/

/-- uint32 subtraction with wrap-around, used where the source can
underflow below zero. -/
def u32sub (a b : Nat) : Nat :=
  (a + 4294967296 - b % 4294967296) % 4294967296

structure LNode where
  next : Nat
  prev : Nat
  value : Nat
  deriving Repr, DecidableEq, Inhabited

structure LS where
  nodes : List LNode
  first : Nat
  count : Nat
  firstFree : Nat
  freeCount : Nat
  capacity : Nat
  deriving Repr, DecidableEq

namespace LS

/-- Read node storage at an array position. -/
def nodeAt (s : LS) (pos : Nat) : LNode :=
  s.nodes.getD pos default

/-- Overwrite one field-set of a node at an array position. -/
def setNode (s : LS) (pos : Nat) (f : LNode → LNode) : LS :=
  { s with nodes := s.nodes.set pos (f (s.nodeAt pos)) }

/-- Replace the node at an array position entirely. -/
def putNode (s : LS) (pos : Nat) (n : LNode) : LS :=
  { s with nodes := s.nodes.set pos n }

/-- Walk the live ring forward a given number of steps (list.h 1049-1052). -/
def walkNext (s : LS) : Nat → Nat → Nat
  | cur, 0 => cur
  | cur, n + 1 => s.walkNext (s.nodeAt cur).next n

/-- Walk the live ring backward a given number of steps (list.h 1056-1060). -/
def walkPrev (s : LS) : Nat → Nat → Nat
  | cur, 0 => cur
  | cur, n + 1 => s.walkPrev (s.nodeAt cur).prev n

/-- getNodePos, lines 1039-1063: walk forward from first when the index
is in the first half, else backward count-index steps. -/
def getNodePos (s : LS) (index : Nat) : Nat :=
  if index ≤ s.count / 2 then s.walkNext s.first index
  else s.walkPrev s.first (s.count - index)

/-- hasFree, lines 1079-1084. -/
def hasFree (s : LS) : Bool :=
  s.freeCount > 0

/-- shouldGrow, lines 1065-1070. -/
def shouldGrow (s : LS) : Bool :=
  s.count ≥ s.capacity

/-- shouldShrink, lines 1072-1077. -/
def shouldShrink (s : LS) : Bool :=
  s.count ≤ (s.capacity / 4) && s.capacity > 32

/-- Positions of the live ring in order: first, next of first, ... . -/
def ringPositions (s : LS) (start n : Nat) : List Nat :=
  (List.range n).map (fun i => s.walkNext start i)

/-- The writes of the resize copy (lines 1006-1021): slot 0 is written
first with links 1 / count-1, the interior loop writes slot i with
links i+1 / i-1, and slot count-1 is written LAST with links 0 /
count-2 (uint32 arithmetic), so at count = 1 the final write overwrites
slot 0 with next 0 and underflowed prev; the branch order below tests
i = count-1 first to keep that last write.  (At count = 1 the source
reads the value through one extra next step, which in a consistent
one-node ring is the same node.) -/
def resizeFill (s : LS) (size : Nat) : List LNode :=
  (List.range size).map (fun i =>
    if i = s.count - 1 then
      { next := 0, prev := u32sub s.count 2,
        value := (s.nodeAt (s.walkNext s.first i)).value }
    else if i = 0 then
      { next := 1, prev := u32sub s.count 1,
        value := (s.nodeAt (s.walkNext s.first 0)).value }
    else if i < s.count - 1 then
      { next := i + 1, prev := i - 1,
        value := (s.nodeAt (s.walkNext s.first i)).value }
    else default)

/-- resize, lines 998-1030: allocate a new array, copy the live nodes in
ring order into slots 0..count-1 relinked sequentially (slot 0 written
first with next 1, slot count-1 written last with next 0, overwriting
slot 0 when count = 1), reset first, firstFree and freeCount, release
the old array. -/
def resize (s : LS) (size : Nat) : LS :=
  { nodes := resizeFill s size
    first := 0
    count := s.count
    firstFree := 0
    freeCount := 0
    capacity := size }

/-- grow, lines 984-989. -/
def grow (s : LS) : LS :=
  s.resize (s.capacity <<< 1)

/-- shrink, lines 991-996. -/
def shrink (s : LS) : LS :=
  s.resize (s.capacity >>> 1)

/-- popFreeNodeAndGetPos, lines 900-919: take the head of the free ring;
if the free ring becomes empty just reset firstFree, otherwise unlink
the node from the ring and advance firstFree. -/
def popFreeNode (s : LS) : LS × Nat :=
  let pos := s.firstFree
  if s.freeCount - 1 ≤ 0 then
    ({ s with freeCount := s.freeCount - 1, firstFree := 0 }, pos)
  else
    let s1 := { s with freeCount := s.freeCount - 1 }
    let s2 := s1.setNode (s1.nodeAt pos).prev (fun n => { n with next := (s1.nodeAt pos).next })
    let s3 := s2.setNode (s2.nodeAt pos).next (fun n => { n with prev := (s2.nodeAt pos).prev })
    ({ s3 with firstFree := (s3.nodeAt pos).next }, pos)

/-- pushFree, lines 966-982.  When the free ring is empty the node is
self-linked and becomes firstFree.  Otherwise the source first writes
prev of the firstFree node, then reads that freshly written prev field
again to decide where to write next - so it sets next of the pushed
node to the node itself, never links its prev, and never updates
firstFree.  The embedding reproduces that exact read-after-write order. -/
def pushFree (s : LS) (index : Nat) : LS :=
  let s1 :=
    if ¬ s.hasFree then
      { (s.setNode index (fun n => { n with prev := index, next := index }))
        with firstFree := index }
    else
      let t1 := s.setNode s.firstFree (fun n => { n with prev := index })
      t1.setNode ((t1.nodeAt t1.firstFree).prev) (fun n => { n with next := index })
  { s1 with freeCount := s1.freeCount + 1 }

/-- insertAtPos, lines 921-964: grow when needed, obtain a slot from the
free ring or the next unused slot, link the node into the live ring at
the position, update first when inserting at the front, then store the
node and bump count. -/
def insertAtPos (s : LS) (index : Nat) (node : LNode) : LS :=
  let s0 := if s.shouldGrow then s.grow else s
  let pr := if s0.hasFree then s0.popFreeNode else (s0, s0.count)
  let s1 := pr.1
  let pos := pr.2
  let step :=
    if s1.count > 0 ∧ index = s1.count then
      let node1 := { node with prev := (s1.nodeAt s1.first).prev, next := s1.first }
      let t1 := s1.setNode ((s1.nodeAt s1.first).prev) (fun n => { n with next := pos })
      let t2 := t1.setNode t1.first (fun n => { n with prev := pos })
      (t2, node1)
    else if s1.count ≤ 0 then
      (s1, { node with prev := pos, next := pos })
    else
      let target := s1.getNodePos index
      let node1 := { node with next := target, prev := (s1.nodeAt target).prev }
      let t1 := s1.setNode node1.prev (fun n => { n with next := pos })
      let t2 := t1.setNode node1.next (fun n => { n with prev := pos })
      (t2, node1)
  let s2 := step.1
  let node2 := step.2
  let s3 := if index ≤ 0 then { s2 with first := pos } else s2
  let s4 := s3.putNode pos node2
  { s4 with count := s4.count + 1 }

/-- insertAt, lines 738-754: build a node holding the value (prev and
next uninitialised, modelled as 0) and insert it at the position. -/
def insertAt (s : LS) (index v : Nat) : LS :=
  s.insertAtPos index { next := 0, prev := 0, value := v }

/-- push, lines 710-722: insert at the end. -/
def push (s : LS) (v : Nat) : LS :=
  s.insertAt s.count v

/-- pushFront, lines 724-736: insert at the front. -/
def pushFront (s : LS) (v : Nat) : LS :=
  s.insertAt 0 v

/-- removeAt, lines 772-798: shrink when needed, locate the slot, repoint
first when removing the front node, unlink the node from the live ring
(each statement reading memory as it stands), push the slot onto the
free ring, decrement count and return the value. -/
def removeAt (s : LS) (index : Nat) : LS × Nat :=
  let s0 := if s.shouldShrink then s.shrink else s
  let pos := s0.getNodePos index
  let s1 := if s0.count > 0 ∧ s0.first = pos
            then { s0 with first := (s0.nodeAt pos).next } else s0
  let s2 := s1.setNode (s1.nodeAt pos).prev (fun n => { n with next := (s1.nodeAt pos).next })
  let s3 := s2.setNode (s2.nodeAt pos).next (fun n => { n with prev := (s2.nodeAt pos).prev })
  let s4 := s3.pushFree pos
  ({ s4 with count := s4.count - 1 }, (s4.nodeAt pos).value)

/-- at, lines 698-708: throw when the index is at or past count,
otherwise the value of the node at the walked position. -/
def atIdx (s : LS) (index : Nat) : Except Unit Nat :=
  if index ≥ s.count then Except.error ()
  else Except.ok ((s.nodeAt (s.getNodePos index)).value)

/-- Loop of has, lines 864-883: the guard is tested before the first
iteration with steps = 0 and pos = first, so it also governs entry. -/
def hasAux (s : LS) (v : Nat) : Nat → Nat → Nat → Bool → Bool
  | 0, _, _, found => found
  | fuel + 1, pos, steps, found =>
    if ¬ found ∧ steps > 0 ∧ pos ≠ s.first then
      s.hasAux v fuel (s.nodeAt s.first).next (steps + 1) ((s.nodeAt pos).value == v)
    else found

/-- has, lines 864-883: false for the empty list, else run the loop
from pos = first, steps = 0, found = false. -/
def hasVal (s : LS) (v fuel : Nat) : Bool :=
  if s.count ≤ 0 then false
  else s.hasAux v fuel s.first 0 false

/-- Loop of indexOf, lines 840-862: same guard (with ret still unset),
ret is only assigned inside the loop body. -/
def indexOfAux (s : LS) (v : Nat) : Nat → Nat → Nat → Nat → Nat
  | 0, _, _, ret => ret
  | fuel + 1, pos, steps, ret =>
    if ret = U32_MAX ∧ steps > 0 ∧ pos ≠ s.first then
      s.indexOfAux v fuel (s.nodeAt s.first).next (steps + 1)
        (if (s.nodeAt pos).value == v then pos else ret)
    else ret

/-- indexOf, lines 840-862: -1 for the empty list, else run the loop. -/
def indexOf (s : LS) (v fuel : Nat) : Nat :=
  if s.count ≤ 0 then U32_MAX
  else s.indexOfAux v fuel s.first 0 U32_MAX

/-- Default List constructor, lines 439-445: MIN_CAPACITY = 32 node
slots (allocator memory, uninitialised; modelled zeroed). -/
def mkDefault : LS :=
  { nodes := List.replicate 32 default
    first := 0
    count := 0
    firstFree := 0
    freeCount := 0
    capacity := 32 }

/-! Ring-invariant check for claim C6: the live ring and the free ring
partition the slots below the high-water mark count + freeCount, and the
next / prev pointers of the two rings are mutually consistent. -/

/-- Mutual consistency of ring pointers along a ring: following next from
a member p, the prev of the successor points back at p, and dually. -/
def ringConsistent (s : LS) (ring : List Nat) : Bool :=
  ring.all (fun p =>
    (s.nodeAt (s.nodeAt p).next).prev == p && (s.nodeAt (s.nodeAt p).prev).next == p)

/-- Ring closure: walking count steps from the start returns to it. -/
def ringClosed (s : LS) (start n : Nat) : Bool :=
  n == 0 || s.walkNext start n == start

/-- The ring invariant of section 3 of the spec, restricted to the slots
below the high-water mark: each such slot is in exactly one of the two
rings, both rings cycle properly and pointers are mutually consistent. -/
def ringOk (s : LS) : Bool :=
  let live := s.ringPositions s.first s.count
  let free := s.ringPositions s.firstFree s.freeCount
  live.Nodup && free.Nodup
    && live.all (fun p => p ∉ free)
    && (live ++ free).all (fun p => p < s.count + s.freeCount)
    && ringClosed s s.first s.count
    && ringClosed s s.firstFree s.freeCount
    && ringConsistent s live
    && ringConsistent s free

end LS

/-! ## Map (map.h)

Open-addressing hash map with Nat keys and Nat values.  KVPair is a
pair; the backing entry storage is a DynamicArray of pairs.  map.h has
several identifier slips that make the template ill-formed when
instantiated (the hash of a stored entry is taken by passing the whole
KVPair where a key is expected, remove names its parameter value, size
reads a member values that does not exist); the embedding reads the
entry key for hashing and the key parameter in remove, which is the
only reading under which those lines mean anything, and models size on
the pairs array.  Probe loops in the source can run forever on a table
with no empty and no matching bin, so they take fuel and return none
when it runs out. -/

structure MapSt where
  pairs : DynArr (Nat × Nat)
  hashFunc : Nat → Nat
  bins : List Nat
  binsInUse : Nat
  binCount : Nat

namespace MapSt

/-- hash, map.h lines 787-792. -/
def hash (m : MapSt) (k : Nat) : Nat :=
  m.hashFunc k

/-- wrap, lines 801-806: index AND (binCount - 1). -/
def wrap (m : MapSt) (index : Nat) : Nat :=
  index &&& (m.binCount - 1)

/-- isBinEmpty, lines 808-814. -/
def isBinEmpty (m : MapSt) (binIndex : Nat) : Bool :=
  m.bins.getD binIndex 0 == U32_MAX

/-- doesBinContain, lines 816-822: the bin is in range, non-empty, and
the hash of the stored entry equals the hash of the key (the source
passes the stored KVPair itself to the key hash; the embedding reads
its key field). -/
def doesBinContain (m : MapSt) (binIndex k : Nat) : Bool :=
  decide (binIndex < m.binCount) && !(m.isBinEmpty binIndex)
    && (m.hash (m.pairs.get (m.bins.getD binIndex 0)).1 == m.hash k)

/-- Loop of findBinForKey, lines 770-785: start at wrap(hash), and while
the bin is occupied by a non-matching hash move to
wrap(i + probe(++probes)) where probe is the identity, so the j-th step
adds an increment of j. -/
def findBinLoop (m : MapSt) (k : Nat) : Nat → Nat → Nat → Option Nat
  | _, _, 0 => none
  | i, probes, fuel + 1 =>
    if ¬ m.isBinEmpty i ∧ ¬ m.doesBinContain i k then
      m.findBinLoop k (m.wrap (i + (probes + 1))) (probes + 1) fuel
    else some i

/-- findBinForKey, lines 770-785. -/
def findBinForKey (m : MapSt) (k fuel : Nat) : Option Nat :=
  m.findBinLoop k (m.wrap (m.hash k)) 0 fuel

/-- Modelled from the spec (section 4.4): probe for the target bin
starting at hash(key) AND (bin_count - 1), then linear probing with
probe sequence i, i+1, i+2, ... (mod bin_count) until an empty bin or a
bin whose stored entry hash matches is found.  Stated for comparison
with findBinForKey; it is not code of the repository. -/
def findBinLinearSpec (m : MapSt) (k : Nat) : Nat → Nat → Option Nat
  | _, 0 => none
  | i, fuel + 1 =>
    if ¬ m.isBinEmpty i ∧ ¬ m.doesBinContain i k then
      m.findBinLinearSpec k ((i + 1) % m.binCount) fuel
    else some i

/-- Entry point of the spec-modelled linear probe. -/
def findBinLinearSpecStart (m : MapSt) (k fuel : Nat) : Option Nat :=
  m.findBinLinearSpec k (m.wrap (m.hash k)) fuel

/-- The probe positions actually visited by findBinForKey: position 0 is
wrap(hash), and position j+1 adds an increment of j+1 to position j. -/
def probePos (m : MapSt) (k : Nat) : Nat → Nat
  | 0 => m.wrap (m.hash k)
  | j + 1 => m.wrap (m.probePos k j + (j + 1))

/-- shouldGrow, lines 832-837: load factor percentage at or above 70. -/
def shouldGrow (m : MapSt) : Bool :=
  (m.binsInUse * 100) / m.binCount ≥ 70

/-- shouldShrink, lines 824-830: load factor percentage at or below 30
with binCount above the floor. -/
def shouldShrink (m : MapSt) : Bool :=
  (m.binsInUse * 100) / m.binCount ≤ 30 && m.binCount > 32

/-- Rehash loop of resize, lines 863-869: insert the bin index of every
stored pair (the source passes the pair to findBinForKey where a key is
expected; the embedding reads its key field). -/
def rehashLoop (m : MapSt) (i n fuel : Nat) : Option MapSt :=
  match n with
  | 0 => some m
  | n + 1 =>
    match m.findBinForKey (m.pairs.get i).1 fuel with
    | none => none
    | some pos => rehashLoop { m with bins := m.bins.set pos i } (i + 1) n fuel

/-- resize, lines 853-870: fresh zeroed bin array of the new size
(clearBins), then rehash every stored pair. -/
def resizeBins (m : MapSt) (newSize fuel : Nat) : Option MapSt :=
  rehashLoop
    { m with bins := List.replicate newSize U32_MAX, binCount := newSize }
    0 m.pairs.size fuel

/-- assign, lines 637-657: grow first when the load factor demands it;
probe for the bin; when empty, mark it used, store the entry index and
push the pair; when occupied the source writes
pairs[binIndex].value - indexing the entry array with the BIN index.
The operator[] of DynamicArray asserts index < size; an out-of-range
write is modelled as none. -/
def assign (m : MapSt) (k v fuel : Nat) : Option MapSt :=
  (if m.shouldGrow then m.resizeBins (m.binCount <<< 1) fuel else some m).bind fun m1 =>
  (m1.findBinForKey k fuel).bind fun binIndex =>
  if m1.isBinEmpty binIndex then
    some { m1 with
      binsInUse := m1.binsInUse + 1
      bins := m1.bins.set binIndex m1.pairs.size
      pairs := m1.pairs.push (k, v) }
  else
    if binIndex < m1.pairs.size then
      some { m1 with pairs := m1.pairs.setVal binIndex ((m1.pairs.get binIndex).1, v) }
    else none

/-- hasKey, lines 710-716: probe, then the bin index is not -1 and the
bin contains the key (hash comparison). -/
def hasKey (m : MapSt) (k fuel : Nat) : Option Bool :=
  (m.findBinForKey k fuel).map fun binIndex =>
    decide (binIndex ≠ U32_MAX) && m.doesBinContain binIndex k

/-- size, lines 739-744 (the source reads a nonexistent member?values;
the entry array is the only size there is). -/
def size (m : MapSt) : Nat :=
  m.pairs.size

/-- Bin-correction loop of remove, lines 697-704: scan n bins starting
at index i, decrementing every occupied bin whose stored index exceeds
the stored index of the removed bin (re-read on every iteration; that
bin itself never satisfies the condition, so the read is stable). -/
def correctBins (bins : List Nat) (binIndex i n : Nat) : List Nat :=
  match n with
  | 0 => bins
  | n + 1 =>
    let b := bins.getD i 0
    let bins1 :=
      if b ≠ U32_MAX ∧ b > bins.getD binIndex 0 then bins.set i (b - 1) else bins
    correctBins bins1 binIndex (i + 1) n

/-- remove, lines 681-708: shrink first when the load factor demands it;
probe for the bin of the key (the source says value, its only parameter
is key); when occupied: decrement binsInUse, remove the entry at the
stored index from the pairs array (which compacts it), run the
bin-correction scan, and mark the bin empty. -/
def remove (m : MapSt) (k fuel : Nat) : Option MapSt :=
  (if m.shouldShrink then m.resizeBins (m.binCount >>> 1) fuel else some m).bind fun m1 =>
  (m1.findBinForKey k fuel).bind fun binIndex =>
  if ¬ m1.isBinEmpty binIndex then
    let m2 := { m1 with binsInUse := m1.binsInUse - 1 }
    let rr := m2.pairs.removeAt (m2.bins.getD binIndex 0)
    rr.2.map fun _ =>
      let m3 := { m2 with pairs := rr.1 }
      let bins2 := correctBins m3.bins binIndex 0 m3.binCount
      { m3 with bins := bins2.set binIndex U32_MAX }
  else some m1

/-- Map default construction, lines 389-456: MIN_BINS = 32 bins, all
empty, a default-constructed pairs array. -/
def mkDefault (h : Nat → Nat) : MapSt :=
  { pairs := DynArr.mkDefault
    hashFunc := h
    bins := List.replicate 32 U32_MAX
    binsInUse := 0
    binCount := 32 }

/-- Fold assign over a list of key-value pairs (fuel fixed per step). -/
def assignAll (m : MapSt) (kvs : List (Nat × Nat)) (fuel : Nat) : Option MapSt :=
  kvs.foldlM (fun st kv => st.assign kv.1 kv.2 fuel) m

/-- Fold remove over a list of keys. -/
def removeAllKeys (m : MapSt) (ks : List Nat) (fuel : Nat) : Option MapSt :=
  ks.foldlM (fun st k => st.remove k fuel) m

end MapSt

/-! ## Set (set.h)

Open-addressing hash set of Nat values over a backing DynamicArray.
Same shape as the map, except the probe loop of findBinForValue
(set.h lines 688-702) updates the position with i = probe(++probes):
after the home bin the loop visits the absolute positions 1, 2, 3, ...
rather than offsets from the home bin. -/

structure SetSt where
  values : DynArr Nat
  hashFunc : Nat → Nat
  bins : List Nat
  binsInUse : Nat
  binCount : Nat

namespace SetSt

/-- hash, set.h lines 704-709. -/
def hash (s : SetSt) (v : Nat) : Nat :=
  s.hashFunc v

/-- wrap, lines 718-723. -/
def wrap (s : SetSt) (index : Nat) : Nat :=
  index &&& (s.binCount - 1)

/-- isBinEmpty, lines 725-731. -/
def isBinEmpty (s : SetSt) (binIndex : Nat) : Bool :=
  s.bins.getD binIndex 0 == U32_MAX

/-- doesBinContain, lines 733-739. -/
def doesBinContain (s : SetSt) (binIndex v : Nat) : Bool :=
  decide (binIndex < s.binCount) && !(s.isBinEmpty binIndex)
    && (s.hash (s.values.get (s.bins.getD binIndex 0)) == s.hash v)

/-- Loop of findBinForValue, lines 688-702: while the bin is occupied by
a non-matching hash the next position is probe(++probes) itself, the
absolute index probes+1. -/
def findBinLoop (s : SetSt) (v : Nat) : Nat → Nat → Nat → Option Nat
  | _, _, 0 => none
  | i, probes, fuel + 1 =>
    if ¬ s.isBinEmpty i ∧ ¬ s.doesBinContain i v then
      s.findBinLoop v (probes + 1) (probes + 1) fuel
    else some i

/-- findBinForValue, lines 688-702. -/
def findBinForValue (s : SetSt) (v fuel : Nat) : Option Nat :=
  s.findBinLoop v (s.wrap (s.hash v)) 0 fuel

/-- The probe positions actually visited by findBinForValue: the home
bin, then the absolute positions 1, 2, 3, ... . -/
def probePos (s : SetSt) (v : Nat) : Nat → Nat
  | 0 => s.wrap (s.hash v)
  | j + 1 => j + 1

/-- shouldGrow, lines 749-754. -/
def shouldGrow (s : SetSt) : Bool :=
  (s.binsInUse * 100) / s.binCount ≥ 70

/-- shouldShrink, lines 741-747. -/
def shouldShrink (s : SetSt) : Bool :=
  (s.binsInUse * 100) / s.binCount ≤ 30 && s.binCount > 32

/-- Rehash loop of resize, lines 779-785. -/
def rehashLoop (s : SetSt) (i n fuel : Nat) : Option SetSt :=
  match n with
  | 0 => some s
  | n + 1 =>
    match s.findBinForValue (s.values.get i) fuel with
    | none => none
    | some pos => rehashLoop { s with bins := s.bins.set pos i } (i + 1) n fuel

/-- resize, lines 770-786: fresh cleared bin array, then rehash every
stored value. -/
def resizeBins (s : SetSt) (newSize fuel : Nat) : Option SetSt :=
  rehashLoop
    { s with bins := List.replicate newSize U32_MAX, binCount := newSize }
    0 s.values.size fuel

/-- add, lines 580-612: grow first when the load factor demands it;
probe; when the bin is empty mark it used, store the entry index and
push the value; otherwise do nothing. -/
def add (s : SetSt) (v fuel : Nat) : Option SetSt :=
  (if s.shouldGrow then s.resizeBins (s.binCount <<< 1) fuel else some s).bind fun s1 =>
  (s1.findBinForValue v fuel).bind fun binIndex =>
  if s1.isBinEmpty binIndex then
    some { s1 with
      binsInUse := s1.binsInUse + 1
      bins := s1.bins.set binIndex s1.values.size
      values := s1.values.push v }
  else some s1

/-- remove, lines 614-640: shrink first when the load factor demands it;
probe; when the bin is occupied decrement binsInUse, remove the entry at
the stored index from the values array (compacting it), run the
bin-correction scan of lines 630-636, and mark the bin empty. -/
def remove (s : SetSt) (v fuel : Nat) : Option SetSt :=
  (if s.shouldShrink then s.resizeBins (s.binCount >>> 1) fuel else some s).bind fun s1 =>
  (s1.findBinForValue v fuel).bind fun binIndex =>
  if ¬ s1.isBinEmpty binIndex then
    let s2 := { s1 with binsInUse := s1.binsInUse - 1 }
    let rr := s2.values.removeAt (s2.bins.getD binIndex 0)
    rr.2.map fun _ =>
      let s3 := { s2 with values := rr.1 }
      let bins2 := MapSt.correctBins s3.bins binIndex 0 s3.binCount
      { s3 with bins := bins2.set binIndex U32_MAX }
  else some s1

/-- has, lines 642-648. -/
def hasVal (s : SetSt) (v fuel : Nat) : Option Bool :=
  (s.findBinForValue v fuel).map fun binIndex =>
    decide (binIndex ≠ U32_MAX) && s.doesBinContain binIndex v

/-- size, lines 673-678. -/
def size (s : SetSt) : Nat :=
  s.values.size

/-- Set default-shape construction, lines 385-392: MIN_BINS = 32 empty
bins over a default-constructed values array. -/
def mkDefault (h : Nat → Nat) : SetSt :=
  { values := DynArr.mkDefault
    hashFunc := h
    bins := List.replicate 32 U32_MAX
    binsInUse := 0
    binCount := 32 }

/-- Fold add over a list of values (fuel fixed per step). -/
def addAll (s : SetSt) (vs : List Nat) (fuel : Nat) : Option SetSt :=
  vs.foldlM (fun st v => st.add v fuel) s

/-- Fold remove over a list of values. -/
def removeAll (s : SetSt) (vs : List Nat) (fuel : Nat) : Option SetSt :=
  vs.foldlM (fun st v => st.remove v fuel) s

end SetSt

/-- Home bin of a value under hash function h at the minimum bin count
32: hash AND 31. -/
def homeOf (h : Nat → Nat) (v : Nat) : Nat :=
  h v &&& 31

/-- Home bin of a value at bin count bc: hash AND (bc - 1), as computed
by wrap in set.h lines 718-723 and map.h lines 801-806. -/
def homeOfB (h : Nat → Nat) (bc v : Nat) : Nat :=
  h v &&& (bc - 1)

/-- All values of the list occupy pairwise distinct home bins. -/
def HomesDistinct (h : Nat → Nat) (ws : List Nat) : Prop :=
  ws.Pairwise (fun a b => homeOf h a ≠ homeOf h b)

/-- Invariant of a Set whose live values are the list ws in
backing-array order: the bin count is 32 or 64 (the counts reachable
with at most 32 distinct home bins), every value sits in its home bin
holding its index into the backing array, every other bin is empty. -/
def SetInv (h : Nat → Nat) (st : SetSt) (ws : List Nat) : Prop :=
  st.hashFunc = h ∧ (st.binCount = 32 ∨ st.binCount = 64) ∧
  st.bins.length = st.binCount ∧
  st.binsInUse = ws.length ∧ ws.length ≤ 32 ∧
  DynArr.GoodDA st.values ws ∧
  (∀ j, j < ws.length →
    st.bins.getD (homeOfB h st.binCount (ws.getD j 0)) 0 = j) ∧
  (∀ b, b < st.binCount →
    (∀ j, j < ws.length → homeOfB h st.binCount (ws.getD j 0) ≠ b) →
    st.bins.getD b 0 = U32_MAX)

/-- The same invariant for a Map whose live entries are the pair list
ps: home bins are computed from the keys. -/
def MapInv (h : Nat → Nat) (m : MapSt) (ps : List (Nat × Nat)) : Prop :=
  m.hashFunc = h ∧ (m.binCount = 32 ∨ m.binCount = 64) ∧
  m.bins.length = m.binCount ∧
  m.binsInUse = ps.length ∧ ps.length ≤ 32 ∧
  DynArr.GoodDA m.pairs ps ∧
  (∀ j, j < ps.length →
    m.bins.getD (homeOfB h m.binCount (ps.getD j default).1) 0 = j) ∧
  (∀ b, b < m.binCount →
    (∀ j, j < ps.length → homeOfB h m.binCount (ps.getD j default).1 ≠ b) →
    m.bins.getD b 0 = U32_MAX)

/-- Erase the elements of rs from ws, one occurrence each, in order. -/
def eraseAll (ws rs : List Nat) : List Nat :=
  rs.foldl (fun w r => w.erase r) ws

/-- Erase the entry of key r from a pair list (the entry whose index
the key home bin stores under the invariant). -/
def eraseKey (ps : List (Nat × Nat)) (r : Nat) : List (Nat × Nat) :=
  ps.eraseIdx ((ps.map Prod.fst).indexOf r)

/-- Erase the entries of the keys rs from a pair list, in order. -/
def eraseAllKeys (ps : List (Nat × Nat)) (rs : List Nat) : List (Nat × Nat) :=
  rs.foldl eraseKey ps

/-! ## Buffer-ownership view of move construction (dynamic_array.h
477-509, fixed_array.h 520-532, list.h 516-559)

For claims about buffer transfer the plain-contents models above are too
coarse: they cannot distinguish handing over a pointer from allocating a
fresh block.  Here buffers carry an identity, and an allocator state
counts allocations and hands out fresh identities. -/

structure Alloc where
  nextId : Nat
  allocCount : Nat
  deriving Repr, DecidableEq

/-- One allocator acquisition: a fresh buffer identity. -/
def Alloc.acquire (a : Alloc) : Alloc × Nat :=
  ({ nextId := a.nextId + 1, allocCount := a.allocCount + 1 }, a.nextId)

structure Buf where
  id : Nat
  data : List Nat
  deriving Repr, DecidableEq

/-- DynamicArray with buffer identity. -/
structure DAO where
  buf : Option Buf
  first : Nat
  size : Nat
  capacity : Nat
  deriving Repr, DecidableEq

/-- DynamicArray move constructor, dynamic_array.h 477-509: the
destination copies first = 0, size and capacity, and when the source
buffer is non-null it ALLOCATES A FRESH BUFFER and element-moves into
it: a = capacity - (first + size) in uint32 (this underflows when the
contents wrap past the end), b = (first + size) mod capacity; if a is
at least size one contiguous move of size elements from offset first,
otherwise a elements from offset first followed by b elements from
offset 0.  The source is then zeroed: null buffer, first = size =
capacity = 0. -/
def daMoveCtor (al : Alloc) (src : DAO) : Alloc × DAO × DAO :=
  match src.buf with
  | none =>
    (al, { buf := none, first := 0, size := src.size, capacity := src.capacity },
      { buf := none, first := 0, size := 0, capacity := 0 })
  | some b =>
    let ar := al.acquire
    let a := u32sub src.capacity (src.first + src.size)
    let b2 := (src.first + src.size) % src.capacity
    let data :=
      if a ≥ src.size then
        (List.range src.capacity).map
          (fun j => if j < src.size then b.data.getD (src.first + j) 0 else 0)
      else
        (List.range src.capacity).map (fun j =>
          if j < a then b.data.getD (src.first + j) 0
          else if j < a + b2 then b.data.getD (j - a) 0 else 0)
    (ar.1,
      { buf := some { id := ar.2, data := data },
        first := 0, size := src.size, capacity := src.capacity },
      { buf := none, first := 0, size := 0, capacity := 0 })

/-- DynamicArray default constructor in the ownership view: one
allocation of MIN_CAPACITY slots. -/
def daoDefaultCtor (al : Alloc) : Alloc × DAO :=
  let ar := al.acquire
  (ar.1,
    { buf := some { id := ar.2, data := List.replicate 32 0 },
      first := 0, size := 0, capacity := 32 })

/-- FixedArray with buffer identity. -/
structure FAO where
  buf : Option Buf
  size : Nat
  capacity : Nat
  isDataExternal : Bool
  deriving Repr, DecidableEq

/-- FixedArray move constructor, fixed_array.h 520-532: the destination
takes the source buffer pointer itself (no allocation); the source is
left with null buffer, zero size and capacity, and the external flag
cleared. -/
def faMoveCtor (src : FAO) : FAO × FAO :=
  ({ buf := src.buf, size := src.size, capacity := src.capacity,
     isDataExternal := src.isDataExternal },
   { buf := none, size := 0, capacity := 0, isDataExternal := false })

/-- FixedArray default constructor in the ownership view: one
allocation of DEFAULT_CAPACITY slots. -/
def faoDefaultCtor (al : Alloc) : Alloc × FAO :=
  let ar := al.acquire
  (ar.1,
    { buf := some { id := ar.2, data := List.replicate 32 0 },
      size := 0, capacity := 32, isDataExternal := false })

/-- Node buffer with identity for the List ownership view. -/
structure NodeBuf where
  id : Nat
  data : List LNode
  deriving Repr, DecidableEq

/-- List with buffer identity. -/
structure LSO where
  buf : Option NodeBuf
  first : Nat
  count : Nat
  firstFree : Nat
  freeCount : Nat
  capacity : Nat
  deriving Repr, DecidableEq

/-- Copy loop of the List move constructor, list.h 539-544: node i gets
the value of logical element i of the source; the next and prev writes
of the loop body dereference the array pointer itself, so they hit node
0 on every iteration. -/
def lmLoop (view : LS) (count : Nat) (base : List LNode) (i n : Nat) : List LNode :=
  match n with
  | 0 => base
  | n + 1 =>
    let base1 := base.set i
      { base.getD i default with value := (view.nodeAt (view.getNodePos i)).value }
    let base2 := base1.set 0 { base1.getD 0 default with next := (i + 1) % count }
    let base3 := base2.set 0 { base2.getD 0 default with prev := i - 1 }
    lmLoop view count base3 (i + 1) n

/-- List move constructor, list.h 516-559: the destination computes a
minimal capacity from the source count (MIN_CAPACITY doubled while
short), ALLOCATES A FRESH NODE ARRAY, copies the live values in order
(with the slip of lmLoop), releases the source array and zeroes the
source fields. -/
def listMoveCtor (al : Alloc) (src : LSO) : Alloc × LSO × LSO :=
  let cap := DynArr.growCap 32 src.count
  let ar := al.acquire
  let data :=
    match src.buf with
    | some nb =>
      if src.count > 0 then
        let view : LS :=
          { nodes := nb.data, first := src.first, count := src.count,
            firstFree := src.firstFree, freeCount := src.freeCount,
            capacity := src.capacity }
        let base := List.replicate cap (default : LNode)
        let base1 := base.set 0
          { next := 1 % src.count, prev := src.count - 1,
            value := (view.nodeAt (view.getNodePos 0)).value }
        lmLoop view src.count base1 1 (src.count - 1)
      else List.replicate cap default
    | none => List.replicate cap default
  (ar.1,
    { buf := some { id := ar.2, data := data }, first := 0, count := src.count,
      firstFree := 0, freeCount := 0, capacity := cap },
    { buf := none, first := 0, count := 0, firstFree := 0, freeCount := 0,
      capacity := 0 })

/-- List default constructor in the ownership view. -/
def lsoDefaultCtor (al : Alloc) : Alloc × LSO :=
  let ar := al.acquire
  (ar.1,
    { buf := some { id := ar.2, data := List.replicate 32 default },
      first := 0, count := 0, firstFree := 0, freeCount := 0, capacity := 32 })

/-! ## Operation steps of DynamicArray (claim C8) -/

/-- One public mutating operation of DynamicArray, with the precondition
the source asserts or checks on the valid path. -/
inductive DynArr.OpStep : DynArr Nat → DynArr Nat → Prop
  | push (s : DynArr Nat) (v : Nat) : OpStep s (s.push v)
  | pushFront (s : DynArr Nat) (v : Nat) : OpStep s (s.pushFront v)
  | insertAt (s : DynArr Nat) (i v : Nat) (h : i ≤ s.size) : OpStep s (s.insertAt i v).1
  | pop (s : DynArr Nat) (h : 0 < s.size) : OpStep s s.pop.1
  | popFront (s : DynArr Nat) (h : 0 < s.size) : OpStep s s.popFront.1
  | removeAt (s : DynArr Nat) (i : Nat) (h : i < s.size) : OpStep s (s.removeAt i).1
  | clear (s : DynArr Nat) : OpStep s s.clear

/-- States reachable from any capacity constructor through operations. -/
inductive DynArr.Reachable : DynArr Nat → Prop
  | base (c : Nat) : Reachable (DynArr.mkCap c)
  | step (s t : DynArr Nat) : Reachable s → DynArr.OpStep s t → Reachable t

/-- The central factual assertion contradicted by claim C2: resizing to
a new capacity immediately yields a fully migrated single-buffer state,
with first reset to 0 and every logical element already at its final
slot of the new buffer. -/
def DynArr.resizeCopiesAllImmediately (s : DynArr Nat) (newCap : Nat) : Prop :=
  (s.resize newCap).first = 0 ∧ (s.resize newCap).capacity = newCap ∧
  (s.resize newCap).values.length = newCap ∧
  ∀ i, i < s.size →
    (s.resize newCap).values.getD i 0 = s.values.getD ((s.first + i) % s.capacity) 0

/-!
# Theorems
-/

/-- C10: for every List state, value and loop-fuel bound, has returns
false and indexOf returns the uint32 -1 sentinel, even when the value
is an element of the list - the search loops test steps greater than
zero before the first iteration, where steps is 0, so the loop body can
never run. -/
theorem c10_list_search_always_fails (s : LS) (v fuel : Nat) :
    s.hasVal v fuel = false ∧ s.indexOf v fuel = U32_MAX := by
  constructor
  · unfold LS.hasVal
    split
    · rfl
    · cases fuel <;> simp [LS.hasAux]
  · unfold LS.indexOf
    split
    · rfl
    · cases fuel <;> simp [LS.indexOfAux]

/-- C2 counterexample: on a concrete full array of 32 elements with
first = 5, resize to 64 immediately produces a fully migrated
single-buffer state - first is reset to 0 and every one of the 32
logical elements is already at its final slot of the new buffer; the
released old buffer and the migration cursor posited by the claim do
not exist in dynamic_array.h. -/
theorem c2_counterexample :
    DynArr.resizeCopiesAllImmediately
      { values := (List.range 32).map (fun i => i + 100),
        first := 5, size := 32, capacity := 32 } 64 := by
  refine ⟨rfl, rfl, by decide, by decide⟩

/-- C2 amended: whenever DynamicArray resizes (the new capacity is
never below the size on both the grow and the shrink path), the copy is
immediate and complete: the resized state has first 0, the requested
capacity, a buffer of exactly that length, and every logical element
already at its final slot - there is no two-buffer state and no
migration cursor. -/
theorem c2_resize_is_eager (s : DynArr Nat) (newCap : Nat)
    (hcap : s.size ≤ newCap) :
    DynArr.resizeCopiesAllImmediately s newCap := by
  refine ⟨rfl, rfl, by simp [DynArr.resize], ?_⟩
  intro i hi
  have hlt : i < newCap := lt_of_lt_of_le hi hcap
  simp [DynArr.resize, List.getD_eq_getElem?_getD, List.getElem?_map,
    List.getElem?_range, hlt, hi]

/-- Witness for the amended C2 at a concrete input. -/
theorem c2_resize_is_eager_witness :
    2 ≤ 4 ∧
    DynArr.resizeCopiesAllImmediately
      { values := [7, 8, 9], first := 0, size := 2, capacity := 3 } 4 :=
  ⟨by decide,
   c2_resize_is_eager { values := [7, 8, 9], first := 0, size := 2, capacity := 3 } 4
     (by decide)⟩

/-- C6: the ring invariant holds after pushing 10, 20, 30 onto a fresh
list and still holds after the first removeAt 0, but the second
removeAt 0 - whose pushFree takes the nonempty-free-ring branch -
breaks it: pushFree first writes prev of the firstFree node and then
reads that freshly written field back, so the freed slot ends with next
pointing at itself while its prev still points into the old live ring,
and firstFree is never updated. -/
theorem c6_ring_invariant_broken :
    LS.ringOk (((LS.mkDefault.push 10).push 20).push 30) = true
  ∧ LS.ringOk ((((LS.mkDefault.push 10).push 20).push 30).removeAt 0).1 = true
  ∧ LS.ringOk (((((LS.mkDefault.push 10).push 20).push 30).removeAt 0).1.removeAt 0).1
      = false := by
  refine ⟨by decide, by decide, by decide⟩

/-- C3 counterexample: a concrete map with hash = identity, two entries
of hashes 0 and 1 occupying bins 0 and 1 and all other bins empty.  For
key 64 (home bin 0, hash matching neither entry) findBinForKey probes
bins 0, 1 and then 3 - it skips the empty bin 2, because the probe
increment grows by one on every probe - while the linear probe sequence
of the claim stops at bin 2. -/
theorem c3_counterexample :
    MapSt.findBinForKey
      { pairs := { values := [(0, 11), (1, 12)] ++ List.replicate 30 (0, 0),
                   first := 0, size := 2, capacity := 32 }
        hashFunc := id
        bins := [0, 1] ++ List.replicate 30 U32_MAX
        binsInUse := 2, binCount := 32 } 64 10 = some 3
  ∧ MapSt.findBinLinearSpecStart
      { pairs := { values := [(0, 11), (1, 12)] ++ List.replicate 30 (0, 0),
                   first := 0, size := 2, capacity := 32 }
        hashFunc := id
        bins := [0, 1] ++ List.replicate 30 U32_MAX
        binsInUse := 2, binCount := 32 } 64 10 = some 2 := by
  refine ⟨by decide, by decide⟩

/-- C4: evaluating map.h on the failing input.  With hash = identity,
assigning keys 3, 2, 1, 0 builds entries [(3,10),(2,11),(1,12),(0,13)]
with hasKey 1 true and size 4; the claim and the documentation of
assign say a second assign(1, 99) updates the entry of key 1 in place,
but the code writes pairs[binIndex] - indexing the entry array with the
BIN index 1 - so the entry of key 2 becomes (2, 99) while the entry of
key 1 keeps value 12 (and with fewer than binIndex+1 entries the same
write trips the bounds assert of operator[]). -/
theorem c4_assign_updates_wrong_entry :
    (((((MapSt.mkDefault id).assign 3 10 40).bind fun m => m.assign 2 11 40).bind
        fun m => m.assign 1 12 40).bind fun m => m.assign 0 13 40).map
      (fun m => (m.hasKey 1 40, m.size, m.pairs.values.take 4))
      = some (some true, 4, [(3, 10), (2, 11), (1, 12), (0, 13)])
  ∧ ((((((MapSt.mkDefault id).assign 3 10 40).bind fun m => m.assign 2 11 40).bind
        fun m => m.assign 1 12 40).bind fun m => m.assign 0 13 40).bind
        fun m => m.assign 1 99 40).map
      (fun m => (m.size, m.pairs.values.take 4))
      = some (4, [(3, 10), (2, 99), (1, 12), (0, 13)]) := by
  refine ⟨by decide, by decide⟩

/-- C7 counterexample: moving from a concrete freshly constructed
DynamicArray performs a new element-storage allocation (the allocation
count rises from 1 to 2 and the destination holds a different buffer
identity), and the moved-from container - null buffer, zero size, zero
capacity - does not match a default-constructed one, which owns a
32-slot buffer. -/
theorem c7_counterexample :
    (daMoveCtor { nextId := 1, allocCount := 1 }
      { buf := some { id := 0, data := List.replicate 32 0 },
        first := 0, size := 0, capacity := 32 }).1.allocCount = 2
  ∧ (daMoveCtor { nextId := 1, allocCount := 1 }
      { buf := some { id := 0, data := List.replicate 32 0 },
        first := 0, size := 0, capacity := 32 }).2.1.buf
      ≠ some { id := 0, data := List.replicate 32 0 }
  ∧ (daMoveCtor { nextId := 1, allocCount := 1 }
      { buf := some { id := 0, data := List.replicate 32 0 },
        first := 0, size := 0, capacity := 32 }).2.2
      ≠ (daoDefaultCtor { nextId := 0, allocCount := 0 }).2 := by
  refine ⟨by decide, by decide, by decide⟩

/-- C9: for DynamicArray, FixedArray and List, at signals the
recoverable out-of-range error exactly when the index is at or past the
size and otherwise returns the element at the logical index (through
the same resolution as the unchecked accessor); the checked insertAt of
DynamicArray and FixedArray throws exactly when the index exceeds the
size, and on that path the container is returned unmodified.  (The
insertAt of List only asserts its index precondition; it has no checked
path.) -/
theorem c9_checked_access (d : DynArr Nat) (f : FxArr) (l : LS) (i v : Nat) :
    (d.atIdx i = Except.error () ↔ d.size ≤ i)
  ∧ (i < d.size → d.atIdx i = Except.ok (d.get i))
  ∧ ((d.insertAt i v).2 = true ↔ d.size < i)
  ∧ (d.size < i → (d.insertAt i v).1 = d)
  ∧ (f.atIdx i = Except.error () ↔ f.size ≤ i)
  ∧ (i < f.size → f.atIdx i = Except.ok (f.values.getD i 0))
  ∧ ((f.insertAt i v).2 = true ↔ f.size < i)
  ∧ (f.size < i → (f.insertAt i v).1 = f)
  ∧ (l.atIdx i = Except.error () ↔ l.count ≤ i)
  ∧ (i < l.count → l.atIdx i = Except.ok ((l.nodeAt (l.getNodePos i)).value)) := by
  refine ⟨?_, ?_, ?_, ?_, ?_, ?_, ?_, ?_, ?_, ?_⟩
  · unfold DynArr.atIdx
    split <;> simp <;> omega
  · intro h
    unfold DynArr.atIdx DynArr.get
    rw [if_neg (by omega)]
  · unfold DynArr.insertAt
    split <;> simp <;> omega
  · intro h
    unfold DynArr.insertAt
    rw [if_pos (by omega)]
  · unfold FxArr.atIdx
    split <;> simp <;> omega
  · intro h
    unfold FxArr.atIdx
    rw [if_neg (by omega)]
  · unfold FxArr.insertAt
    split <;> simp <;> omega
  · intro h
    unfold FxArr.insertAt
    rw [if_pos (by omega)]
  · unfold LS.atIdx
    split <;> simp <;> omega
  · intro h
    unfold LS.atIdx
    rw [if_neg (by omega)]

/-- Witness for C9 at concrete inputs: in-range reads return the stored
element and an out-of-range checked insert returns the container
unchanged. -/
theorem c9_checked_access_witness :
    (DynArr.mkDefault.push 7).atIdx 0 = Except.ok ((DynArr.mkDefault.push 7).get 0)
  ∧ ((DynArr.mkDefault.push 7).insertAt 5 9).1 = DynArr.mkDefault.push 7
  ∧ (FxArr.mkDefault.push 4).atIdx 0 = Except.ok ((FxArr.mkDefault.push 4).values.getD 0 0)
  ∧ ((FxArr.mkDefault.push 4).insertAt 3 9).1 = FxArr.mkDefault.push 4
  ∧ (LS.mkDefault.push 6).atIdx 0
      = Except.ok (((LS.mkDefault.push 6).nodeAt ((LS.mkDefault.push 6).getNodePos 0)).value) :=
  ⟨(c9_checked_access (DynArr.mkDefault.push 7) FxArr.mkDefault LS.mkDefault 0 9).2.1
      (by decide),
   (c9_checked_access (DynArr.mkDefault.push 7) FxArr.mkDefault LS.mkDefault 5 9).2.2.2.1
      (by decide),
   (c9_checked_access DynArr.mkDefault (FxArr.mkDefault.push 4) LS.mkDefault 0 9).2.2.2.2.2.1
      (by decide),
   (c9_checked_access DynArr.mkDefault (FxArr.mkDefault.push 4) LS.mkDefault 3 9).2.2.2.2.2.2.2.1
      (by decide),
   (c9_checked_access DynArr.mkDefault FxArr.mkDefault (LS.mkDefault.push 6) 0 9).2.2.2.2.2.2.2.2.2
      (by decide)⟩

/-- C7 amended: move construction of DynamicArray and List performs a
fresh element-storage allocation in the destination and does not
transfer the source buffer (the destination buffer identity is the
freshly issued one); only FixedArray transfers the buffer pointer.  In
all three, the moved-from container is zeroed - null buffer, zero size
and capacity - which is destructible but does not match any
default-constructed container, whose capacity is 32. -/
theorem c7_move_allocates_and_zeroes :
    (∀ (al : Alloc) (src : DAO) (b : Buf), src.buf = some b →
        (daMoveCtor al src).1.allocCount = al.allocCount + 1
      ∧ (daMoveCtor al src).2.1.buf.map Buf.id = some al.nextId
      ∧ (b.id < al.nextId → (daMoveCtor al src).2.1.buf ≠ some b)
      ∧ (daMoveCtor al src).2.2
          = { buf := none, first := 0, size := 0, capacity := 0 }
      ∧ ∀ al2, (daMoveCtor al src).2.2 ≠ (daoDefaultCtor al2).2)
  ∧ (∀ src : FAO,
        (faMoveCtor src).1.buf = src.buf
      ∧ (faMoveCtor src).2
          = { buf := none, size := 0, capacity := 0, isDataExternal := false }
      ∧ ∀ al2, (faMoveCtor src).2 ≠ (faoDefaultCtor al2).2)
  ∧ (∀ (al : Alloc) (src : LSO),
        (listMoveCtor al src).1.allocCount = al.allocCount + 1
      ∧ (listMoveCtor al src).2.2
          = { buf := none, first := 0, count := 0, firstFree := 0, freeCount := 0,
              capacity := 0 }
      ∧ ∀ al2, (listMoveCtor al src).2.2 ≠ (lsoDefaultCtor al2).2) := by
  refine ⟨?_, ?_, ?_⟩
  · intro al src b hb
    obtain ⟨buf, first, size, capacity⟩ := src
    cases hb
    refine ⟨rfl, rfl, ?_, rfl, ?_⟩
    · intro hid heq
      simp only [daMoveCtor, Alloc.acquire] at heq
      split at heq <;>
        · have := congrArg (fun o => (Option.map Buf.id o).getD 0) heq
          simp at this
          omega
    · intro al2 heq
      have := congrArg DAO.capacity heq
      simp [daMoveCtor, Alloc.acquire, daoDefaultCtor] at this
  · intro src
    refine ⟨rfl, rfl, ?_⟩
    intro al2 heq
    have := congrArg FAO.capacity heq
    simp [faMoveCtor, Alloc.acquire, faoDefaultCtor] at this
  · intro al src
    refine ⟨rfl, rfl, ?_⟩
    intro al2 heq
    have := congrArg LSO.capacity heq
    simp [listMoveCtor, Alloc.acquire, lsoDefaultCtor] at this

/-- On a state with first 0 and power-of-two capacity, wrap is the
identity below the capacity. -/
theorem DynArr.wrap_eq {α : Type} (s : DynArr α) (i : Nat) (hfirst : s.first = 0)
    (hcap : ∃ k, s.capacity = 2 ^ k) (hi : i < s.capacity) : s.wrap i = i := by
  obtain ⟨k, hk⟩ := hcap
  unfold DynArr.wrap
  rw [hfirst, Nat.zero_add, hk, Nat.and_pow_two_sub_one_eq_mod]
  exact Nat.mod_eq_of_lt (hk ▸ hi)

/-- The default-constructed DynamicArray holds the empty contents. -/
theorem DynArr.goodDA_mkDefault {α : Type} [Inhabited α] :
    DynArr.GoodDA (DynArr.mkDefault : DynArr α) [] := by
  refine ⟨rfl, rfl, by simp [mkDefault], by norm_num [mkDefault], ⟨5, rfl⟩,
    by simp [mkDefault], ?_⟩
  intro i hi
  simp at hi

/-- resize preserves the logical contents whenever the new capacity
admits them. -/
theorem DynArr.goodDA_resize {α : Type} [Inhabited α] (s : DynArr α) (vs : List α) (n k : Nat)
    (hg : GoodDA s vs) (hn : n = 2 ^ k) (h32 : 32 ≤ n) (hfit : vs.length ≤ n) :
    GoodDA (s.resize n) vs := by
  obtain ⟨hf, hs, hl, hc32, ⟨k0, hk0⟩, hfit0, hcont⟩ := hg
  refine ⟨rfl, hs, by simp [resize], h32, ⟨k, hn⟩, hfit, ?_⟩
  intro i hi
  have hin : i < n := lt_of_lt_of_le hi hfit
  have hicap : i < s.capacity := lt_of_lt_of_le hi hfit0
  have hmod : (s.first + i) % s.capacity = i := by
    rw [hf, Nat.zero_add]
    exact Nat.mod_eq_of_lt hicap
  have hsz : i < s.size := hs ▸ hi
  have hmap : ((List.range n).map
      (fun j => if j < s.size then s.values.getD ((s.first + j) % s.capacity) default
                else default)).getD i default
      = if i < s.size then s.values.getD ((s.first + i) % s.capacity) default
        else default := by
    rw [List.getD_eq_getElem?_getD, List.getElem?_map, List.getElem?_range hin]
    rfl
  show ((List.range n).map _).getD i default = _
  rw [hmap, if_pos hsz, hmod]
  exact hcont i hi

/-- push appends to the logical contents. -/
theorem DynArr.goodDA_push {α : Type} [Inhabited α] (s : DynArr α) (vs : List α) (v : α)
    (hg : GoodDA s vs) : GoodDA (s.push v) (vs ++ [v]) := by
  have hstep : ∃ s1, (if s.shouldGrow then s.grow else s) = s1 ∧ GoodDA s1 vs ∧
      vs.length < s1.capacity := by
    by_cases hgrow : s.shouldGrow
    · obtain ⟨hf, hs, hl, hc32, ⟨k, hk⟩, hfit, hcont⟩ := hg
      refine ⟨s.grow, by rw [if_pos hgrow], ?_, ?_⟩
      · unfold grow
        refine goodDA_resize s vs (s.capacity <<< 1) (k + 1)
          ⟨hf, hs, hl, hc32, ⟨k, hk⟩, hfit, hcont⟩ ?_ ?_ ?_
        · rw [Nat.shiftLeft_eq, hk, pow_one, ← pow_succ]
        · rw [Nat.shiftLeft_eq, pow_one]
          omega
        · rw [Nat.shiftLeft_eq, pow_one]
          omega
      · show vs.length < (s.resize (s.capacity <<< 1)).capacity
        show vs.length < s.capacity <<< 1
        rw [Nat.shiftLeft_eq, pow_one]
        omega
    · refine ⟨s, by rw [if_neg hgrow], hg, ?_⟩
      have h1 : ¬ s.size ≥ s.capacity := by
        simpa [shouldGrow] using hgrow
      have h2 : s.size = vs.length := hg.2.1
      omega
  obtain ⟨s1, heq, hg1, hroom⟩ := hstep
  obtain ⟨hf, hs, hl, hc32, hpow, hfit, hcont⟩ := hg1
  simp only [push, heq]
  have hlen : s1.size < s1.capacity := hs ▸ hroom
  have hwrap : DynArr.wrap { s1 with size := s1.size + 1 } (s1.size + 1 - 1)
      = s1.size := by
    have := DynArr.wrap_eq { s1 with size := s1.size + 1 } (s1.size + 1 - 1)
      hf hpow (by simpa using hlen)
    simpa using this
  refine ⟨hf, by simp [setVal, hs], by simp [setVal, hl], hc32, hpow,
    by simpa using hroom, ?_⟩
  intro i hi
  simp only [setVal, hwrap]
  rcases Nat.lt_or_ge i vs.length with hlt | hge
  · have hne : s1.size ≠ i := by omega
    have hr : (vs ++ [v]).getD i default = vs.getD i default := by
      rw [List.getD_eq_getElem?_getD, List.getElem?_append_left hlt,
        ← List.getD_eq_getElem?_getD]
    rw [hr, List.getD_eq_getElem?_getD, List.getElem?_set_ne hne,
      ← List.getD_eq_getElem?_getD]
    exact hcont i hlt
  · have hieq : i = s1.size := by
      simp at hi
      omega
    subst hieq
    have hr : (vs ++ [v]).getD s1.size default = v := by
      rw [hs, List.getD_eq_getElem?_getD, List.getElem?_append_right (le_refl _)]
      simp
    rw [hr, List.getD_eq_getElem?_getD, List.getElem?_set_self (by omega),
      Option.getD_some]

/-- pushAll appends all pushed values to the logical contents. -/
theorem DynArr.goodDA_pushAll {α : Type} [Inhabited α] (vs : List α) :
    ∀ (s : DynArr α) (ws : List α), GoodDA s ws →
      GoodDA (s.pushAll vs) (ws ++ vs) := by
  induction vs with
  | nil =>
    intro s ws h
    simpa [pushAll] using h
  | cons v vt ih =>
    intro s ws h
    have h1 := ih (s.push v) (ws ++ [v]) (goodDA_push s ws v h)
    rw [List.append_assoc] at h1
    simpa [pushAll] using h1

/-- C1: pushing any list of values into a default-constructed
DynamicArray (minimum capacity 32) yields size equal to the number of
pushes, and reading any logical index through operator[] returns the
pushed value of that position, across however many eager resize cycles
the pushes triggered; in particular pushing 0..1023 gives size 1024 and
array[i] = i for every i below 1024. -/
theorem c1_push_preserves_order (vs : List Nat) :
    ((DynArr.mkDefault : DynArr Nat).pushAll vs).size = vs.length
  ∧ (∀ i, i < vs.length →
      ((DynArr.mkDefault : DynArr Nat).pushAll vs).get i = vs.getD i 0)
  ∧ ((DynArr.mkDefault : DynArr Nat).pushAll (List.range 1024)).size = 1024
  ∧ (∀ i, i < 1024 →
      ((DynArr.mkDefault : DynArr Nat).pushAll (List.range 1024)).get i = i) := by
  have main : ∀ ws : List Nat,
      ((DynArr.mkDefault : DynArr Nat).pushAll ws).size = ws.length
    ∧ ∀ i, i < ws.length →
        ((DynArr.mkDefault : DynArr Nat).pushAll ws).get i = ws.getD i 0 := by
    intro ws
    have hg := DynArr.goodDA_pushAll ws DynArr.mkDefault [] DynArr.goodDA_mkDefault
    rw [List.nil_append] at hg
    obtain ⟨hf, hs, hl, h32, hpow, hfit, hcont⟩ := hg
    refine ⟨hs, ?_⟩
    intro i hi
    unfold DynArr.get
    rw [DynArr.wrap_eq _ _ hf hpow (lt_of_lt_of_le hi hfit)]
    exact hcont i hi
  refine ⟨(main vs).1, (main vs).2, ?_, ?_⟩
  · rw [(main (List.range 1024)).1, List.length_range]
  · intro i hi
    rw [(main (List.range 1024)).2 i (by simpa using hi),
      List.getD_eq_getElem?_getD, List.getElem?_range hi, Option.getD_some]

/-- Witness for C1 at a concrete input. -/
theorem c1_push_preserves_order_witness :
    ((DynArr.mkDefault : DynArr Nat).pushAll [4, 5, 6]).get 2 = [4, 5, 6].getD 2 0 :=
  (c1_push_preserves_order [4, 5, 6]).2.1 2 (by decide)

/-- The constructor capacity loop lands on a power of two at least the
starting capacity. -/
theorem DynArr.growCap_spec : ∀ cap target : Nat, 0 < cap →
    cap ≤ growCap cap target ∧
    ∀ k, cap = 2 ^ k → ∃ j, growCap cap target = 2 ^ j := by
  intro cap target
  induction cap, target using DynArr.growCap.induct with
  | case1 cap target h ih =>
    intro h0
    rw [growCap, dif_pos h]
    obtain ⟨ih1, ih2⟩ := ih (by omega)
    refine ⟨by omega, ?_⟩
    intro k hk
    exact ih2 (k + 1) (by rw [hk]; ring)
  | case2 cap target h =>
    intro h0
    rw [growCap, dif_neg h]
    exact ⟨le_refl _, fun k hk => ⟨k, hk⟩⟩

/-- The shiftForward loop never changes first, size, capacity or the
buffer length. -/
theorem DynArr.shiftForwardAux_parts {α : Type} [Inhabited α] (start n : Nat) : ∀ s : DynArr α,
    (shiftForwardAux s start n).first = s.first ∧
    (shiftForwardAux s start n).size = s.size ∧
    (shiftForwardAux s start n).capacity = s.capacity ∧
    (shiftForwardAux s start n).values.length = s.values.length := by
  induction n with
  | zero => intro s; exact ⟨rfl, rfl, rfl, rfl⟩
  | succ n ih =>
    intro s
    rw [shiftForwardAux]
    obtain ⟨h1, h2, h3, h4⟩ := ih (s.setVal (start + n + 1) (s.get (start + n)))
    exact ⟨h1, h2, h3, by rw [h4]; simp [setVal]⟩

/-- The shiftBackward loop never changes first, size, capacity or the
buffer length. -/
theorem DynArr.shiftBackwardAux_parts {α : Type} [Inhabited α] (n : Nat) : ∀ (s : DynArr α) (i : Nat),
    (shiftBackwardAux s i n).first = s.first ∧
    (shiftBackwardAux s i n).size = s.size ∧
    (shiftBackwardAux s i n).capacity = s.capacity ∧
    (shiftBackwardAux s i n).values.length = s.values.length := by
  induction n with
  | zero => intro s i; exact ⟨rfl, rfl, rfl, rfl⟩
  | succ n ih =>
    intro s i
    rw [shiftBackwardAux]
    obtain ⟨h1, h2, h3, h4⟩ := ih (s.setVal i (s.get (i + 1))) (i + 1)
    exact ⟨h1, h2, h3, by rw [h4]; simp [setVal]⟩

/-- Projections of shiftForward. -/
theorem DynArr.shiftForward_capacity {α : Type} [Inhabited α] (s : DynArr α) (i : Nat) :
    (s.shiftForward i).capacity = s.capacity :=
  (shiftForwardAux_parts i (s.size - i) s).2.2.1

theorem DynArr.shiftForward_size {α : Type} [Inhabited α] (s : DynArr α) (i : Nat) :
    (s.shiftForward i).size = s.size :=
  (shiftForwardAux_parts i (s.size - i) s).2.1

theorem DynArr.shiftForward_length {α : Type} [Inhabited α] (s : DynArr α) (i : Nat) :
    (s.shiftForward i).values.length = s.values.length :=
  (shiftForwardAux_parts i (s.size - i) s).2.2.2

/-- Projections of shiftBackward. -/
theorem DynArr.shiftBackward_capacity {α : Type} [Inhabited α] (s : DynArr α) (i : Nat) :
    (s.shiftBackward i).capacity = s.capacity :=
  (shiftBackwardAux_parts (s.size - 1 - i) s i).2.2.1

theorem DynArr.shiftBackward_size {α : Type} [Inhabited α] (s : DynArr α) (i : Nat) :
    (s.shiftBackward i).size = s.size :=
  (shiftBackwardAux_parts (s.size - 1 - i) s i).2.1

theorem DynArr.shiftBackward_length {α : Type} [Inhabited α] (s : DynArr α) (i : Nat) :
    (s.shiftBackward i).values.length = s.values.length :=
  (shiftBackwardAux_parts (s.size - 1 - i) s i).2.2.2

/-- The conditional grow of push, pushFront and insertAt preserves the
invariant, leaves room for one more element and keeps the size. -/
theorem DynArr.inv_condGrow (s : DynArr Nat) (h : Inv s) :
    Inv (if s.shouldGrow then s.grow else s)
  ∧ (if s.shouldGrow then s.grow else s).size
      < (if s.shouldGrow then s.grow else s).capacity
  ∧ (if s.shouldGrow then s.grow else s).size = s.size := by
  obtain ⟨h32, ⟨k, hk⟩, hsz, hlen⟩ := h
  by_cases hg : s.shouldGrow
  · have hge : s.size ≥ s.capacity := by simpa [shouldGrow] using hg
    rw [if_pos hg]
    have hcap2 : s.capacity <<< 1 = 2 * s.capacity := by
      rw [Nat.shiftLeft_eq, pow_one]
      ring
    refine ⟨⟨?_, ⟨k + 1, ?_⟩, ?_, ?_⟩, ?_, rfl⟩
    · show 32 ≤ s.capacity <<< 1
      omega
    · show s.capacity <<< 1 = 2 ^ (k + 1)
      rw [hcap2, hk, pow_succ]
      ring
    · show s.size ≤ s.capacity <<< 1
      omega
    · show ((List.range (s.capacity <<< 1)).map _).length = s.capacity <<< 1
      simp
    · show s.size < s.capacity <<< 1
      omega
  · have hlt : ¬ s.size ≥ s.capacity := by simpa [shouldGrow] using hg
    rw [if_neg hg]
    exact ⟨⟨h32, ⟨k, hk⟩, hsz, hlen⟩, by omega, rfl⟩

/-- The conditional shrink of pop, popFront and removeAt preserves the
invariant and keeps the size. -/
theorem DynArr.inv_condShrink (s : DynArr Nat) (h : Inv s) :
    Inv (if s.shouldShrink then s.shrink else s)
  ∧ (if s.shouldShrink then s.shrink else s).size = s.size := by
  obtain ⟨h32, ⟨k, hk⟩, hsz, hlen⟩ := h
  by_cases hg : s.shouldShrink
  · have hcond : s.size ≤ s.capacity >>> 2 ∧ s.capacity > 32 := by
      simpa [shouldShrink] using hg
    have h4 : s.capacity >>> 2 = s.capacity / 4 := by
      simp [Nat.shiftRight_succ, Nat.shiftRight_zero, Nat.div_div_eq_div_mul]
    have h2 : s.capacity >>> 1 = s.capacity / 2 := by
      simp [Nat.shiftRight_succ, Nat.shiftRight_zero]
    have hk6 : 6 ≤ k := by
      by_contra hlt
      have : s.capacity ≤ 32 := by
        rw [hk]
        calc (2 : Nat) ^ k ≤ 2 ^ 5 := Nat.pow_le_pow_right (by omega) (by omega)
        _ = 32 := by norm_num
      omega
    have hsplit : s.capacity = 2 * 2 ^ (k - 1) := by
      have h1 : 2 * 2 ^ (k - 1) = 2 ^ (k - 1 + 1) := (pow_succ' 2 (k - 1)).symm
      rw [hk, h1]
      congr 1
      omega
    have hhalf : s.capacity / 2 = 2 ^ (k - 1) := by
      rw [hsplit]
      omega
    have h32h : 32 ≤ s.capacity / 2 := by
      rw [hhalf]
      calc (32 : Nat) = 2 ^ 5 := by norm_num
      _ ≤ 2 ^ (k - 1) := Nat.pow_le_pow_right (by omega) (by omega)
    rw [if_pos hg]
    refine ⟨⟨?_, ⟨k - 1, ?_⟩, ?_, ?_⟩, rfl⟩
    · show 32 ≤ s.capacity >>> 1
      omega
    · show s.capacity >>> 1 = 2 ^ (k - 1)
      rw [h2, hhalf]
    · show s.size ≤ s.capacity >>> 1
      rw [h2]
      omega
    · show ((List.range (s.capacity >>> 1)).map _).length = s.capacity >>> 1
      simp
  · rw [if_neg hg]
    exact ⟨⟨h32, ⟨k, hk⟩, hsz, hlen⟩, rfl⟩

/-- Every operation step preserves the structural invariant. -/
theorem DynArr.inv_step (s t : DynArr Nat) (h : Inv s) (hstep : OpStep s t) :
    Inv t := by
  obtain ⟨h32, hpow, hsz, hlen⟩ := h
  cases hstep with
  | push v =>
    obtain ⟨⟨g32, gpow, gsz, glen⟩, groom, gsame⟩ :=
      inv_condGrow s ⟨h32, hpow, hsz, hlen⟩
    refine ⟨?_, ?_, ?_, ?_⟩ <;>
      simp only [push, setVal, List.length_set]
    · exact g32
    · exact gpow
    · omega
    · exact glen
  | pushFront v =>
    obtain ⟨⟨g32, gpow, gsz, glen⟩, groom, gsame⟩ :=
      inv_condGrow s ⟨h32, hpow, hsz, hlen⟩
    refine ⟨?_, ?_, ?_, ?_⟩ <;>
      simp only [pushFront, setVal, List.length_set]
    · exact g32
    · exact gpow
    · omega
    · exact glen
  | insertAt i v hi =>
    obtain ⟨⟨g32, gpow, gsz, glen⟩, groom, gsame⟩ :=
      inv_condGrow s ⟨h32, hpow, hsz, hlen⟩
    simp only [insertAt]
    rw [if_neg (by omega)]
    refine ⟨?_, ?_, ?_, ?_⟩ <;>
      simp only [setVal, List.length_set, shiftForward_capacity,
        shiftForward_size, shiftForward_length]
    · exact g32
    · exact gpow
    · omega
    · exact glen
  | pop hpos =>
    obtain ⟨⟨g32, gpow, gsz, glen⟩, gsame⟩ :=
      inv_condShrink s ⟨h32, hpow, hsz, hlen⟩
    refine ⟨?_, ?_, ?_, ?_⟩ <;> simp only [pop]
    · exact g32
    · exact gpow
    · omega
    · exact glen
  | popFront hpos =>
    obtain ⟨⟨g32, gpow, gsz, glen⟩, gsame⟩ :=
      inv_condShrink s ⟨h32, hpow, hsz, hlen⟩
    refine ⟨?_, ?_, ?_, ?_⟩ <;> simp only [popFront]
    · exact g32
    · exact gpow
    · omega
    · exact glen
  | removeAt i hi =>
    obtain ⟨⟨g32, gpow, gsz, glen⟩, gsame⟩ :=
      inv_condShrink s ⟨h32, hpow, hsz, hlen⟩
    simp only [removeAt]
    rw [if_neg (by omega)]
    refine ⟨?_, ?_, ?_, ?_⟩ <;>
      simp only [shiftBackward_capacity, shiftBackward_size, shiftBackward_length]
    · exact g32
    · exact gpow
    · omega
    · exact glen
  | clear =>
    exact ⟨h32, hpow, by simp [DynArr.clear], hlen⟩

/-- Every reachable DynamicArray state satisfies the invariant. -/
theorem DynArr.reachable_inv (s : DynArr Nat) (h : Reachable s) : Inv s := by
  induction h with
  | base c =>
    obtain ⟨hge, hpow⟩ := growCap_spec 32 c (by omega)
    exact ⟨hge, hpow 5 (by norm_num), by simp [mkCap], by simp [mkCap]⟩
  | step s t hr hstep ih =>
    exact inv_step s t ih hstep

/-- C8: in every reachable DynamicArray state the capacity is a power of
two at least the floor 32; a push doubles the capacity exactly when the
size equals the capacity beforehand, and pop, popFront and removeAt (on
their valid paths) halve the capacity exactly when the size is at most
a quarter of the capacity and the capacity exceeds the floor. -/
theorem c8_capacity_policy (s : DynArr Nat) (h : DynArr.Reachable s) (v i : Nat) :
    (32 ≤ s.capacity ∧ ∃ k, s.capacity = 2 ^ k)
  ∧ ((s.push v).capacity = 2 * s.capacity ↔ s.size = s.capacity)
  ∧ (s.size ≠ s.capacity → (s.push v).capacity = s.capacity)
  ∧ (0 < s.size →
      (s.pop.1.capacity = s.capacity / 2 ↔
        s.size ≤ s.capacity / 4 ∧ 32 < s.capacity))
  ∧ (0 < s.size → ¬(s.size ≤ s.capacity / 4 ∧ 32 < s.capacity) →
      s.pop.1.capacity = s.capacity)
  ∧ (0 < s.size →
      (s.popFront.1.capacity = s.capacity / 2 ↔
        s.size ≤ s.capacity / 4 ∧ 32 < s.capacity))
  ∧ (i < s.size →
      ((s.removeAt i).1.capacity = s.capacity / 2 ↔
        s.size ≤ s.capacity / 4 ∧ 32 < s.capacity)) := by
  obtain ⟨h32, ⟨k, hk⟩, hsz, hlen⟩ := DynArr.reachable_inv s h
  have hcap2 : s.capacity <<< 1 = 2 * s.capacity := by
    rw [Nat.shiftLeft_eq, pow_one]
    ring
  have h4 : s.capacity >>> 2 = s.capacity / 4 := by
    simp [Nat.shiftRight_succ, Nat.shiftRight_zero, Nat.div_div_eq_div_mul]
  have h2 : s.capacity >>> 1 = s.capacity / 2 := by
    simp [Nat.shiftRight_succ, Nat.shiftRight_zero]
  have hhalf : s.capacity / 2 < s.capacity := Nat.div_lt_self (by omega) (by omega)
  have hpushcap : (s.push v).capacity
      = if s.shouldGrow then s.capacity <<< 1 else s.capacity := by
    simp only [DynArr.push, DynArr.setVal]
    by_cases hg : s.shouldGrow
    · rw [if_pos hg, if_pos hg]
      rfl
    · rw [if_neg hg, if_neg hg]
  have hpopcap : s.pop.1.capacity
      = if s.shouldShrink then s.capacity >>> 1 else s.capacity := by
    simp only [DynArr.pop]
    by_cases hg : s.shouldShrink
    · rw [if_pos hg, if_pos hg]
      rfl
    · rw [if_neg hg, if_neg hg]
  have hpfcap : s.popFront.1.capacity
      = if s.shouldShrink then s.capacity >>> 1 else s.capacity := by
    simp only [DynArr.popFront]
    by_cases hg : s.shouldShrink
    · rw [if_pos hg, if_pos hg]
      rfl
    · rw [if_neg hg, if_neg hg]
  have hgrowIff : s.shouldGrow = true ↔ s.size = s.capacity := by
    simp [DynArr.shouldGrow]
    omega
  have hshrinkIff : s.shouldShrink = true ↔
      s.size ≤ s.capacity / 4 ∧ 32 < s.capacity := by
    simp [DynArr.shouldShrink, h4]
  refine ⟨⟨h32, ⟨k, hk⟩⟩, ?_, ?_, ?_, ?_, ?_, ?_⟩
  · rw [hpushcap]
    by_cases hg : s.shouldGrow
    · rw [if_pos hg, hcap2]
      simp [hgrowIff.mp hg]
    · rw [if_neg hg]
      constructor
      · intro habs
        omega
      · intro heq
        exact absurd (hgrowIff.mpr heq) hg
  · intro hne
    rw [hpushcap, if_neg (fun hg => hne (hgrowIff.mp hg))]
  · intro _
    rw [hpopcap]
    by_cases hg : s.shouldShrink
    · rw [if_pos hg, h2]
      simp [hshrinkIff.mp hg]
    · rw [if_neg hg]
      constructor
      · intro habs
        omega
      · intro hc
        exact absurd (hshrinkIff.mpr hc) hg
  · intro _ hnc
    rw [hpopcap, if_neg (fun hg => hnc (hshrinkIff.mp hg))]
  · intro _
    rw [hpfcap]
    by_cases hg : s.shouldShrink
    · rw [if_pos hg, h2]
      simp [hshrinkIff.mp hg]
    · rw [if_neg hg]
      constructor
      · intro habs
        omega
      · intro hc
        exact absurd (hshrinkIff.mpr hc) hg
  · intro hi
    have hracap : (s.removeAt i).1.capacity
        = if s.shouldShrink then s.capacity >>> 1 else s.capacity := by
      simp only [DynArr.removeAt]
      rw [if_neg (by omega)]
      simp only [DynArr.shiftBackward_capacity]
      by_cases hg : s.shouldShrink
      · rw [if_pos hg, if_pos hg]
        rfl
      · rw [if_neg hg, if_neg hg]
    rw [hracap]
    by_cases hg : s.shouldShrink
    · rw [if_pos hg, h2]
      simp [hshrinkIff.mp hg]
    · rw [if_neg hg]
      constructor
      · intro habs
        omega
      · intro hc
        exact absurd (hshrinkIff.mpr hc) hg

/-- Witness for C8 at a concrete reachable state. -/
theorem c8_capacity_policy_witness :
    (((DynArr.mkCap 32 : DynArr Nat).push 5).push 6).capacity
      = ((DynArr.mkCap 32 : DynArr Nat).push 5).capacity := by
  have hg : DynArr.growCap 32 32 = 32 := by
    rw [DynArr.growCap, dif_neg (by omega)]
  refine (c8_capacity_policy ((DynArr.mkCap 32 : DynArr Nat).push 5)
    (DynArr.Reachable.step _ _ (DynArr.Reachable.base 32)
      (DynArr.OpStep.push _ 5)) 6 0).2.2.1 ?_
  simp [DynArr.mkCap, hg, DynArr.push, DynArr.setVal, DynArr.shouldGrow,
    DynArr.grow]

/-- Probe-loop characterization for the Map: starting the loop at probe
position j with probe counter j, if the next n positions are occupied
with non-matching hashes and position j+n stops the loop, the loop
returns position j+n of the probe sequence. -/
theorem MapSt.findBinLoop_probes (m : MapSt) (key : Nat) :
    ∀ n fuel j : Nat,
      (∀ t, t < n → ¬ m.isBinEmpty (m.probePos key (j + t))
        ∧ ¬ m.doesBinContain (m.probePos key (j + t)) key) →
      (m.isBinEmpty (m.probePos key (j + n))
        ∨ m.doesBinContain (m.probePos key (j + n)) key) →
      n < fuel →
      m.findBinLoop key (m.probePos key j) j fuel = some (m.probePos key (j + n)) := by
  intro n
  induction n with
  | zero =>
    intro fuel j hocc hstop hfuel
    match fuel, hfuel with
    | fuel + 1, _ =>
      rw [findBinLoop, if_neg ?_]
      · rw [Nat.add_zero]
      · rw [Nat.add_zero] at hstop
        rcases hstop with hs | hs
        · exact fun hc => hc.1 hs
        · exact fun hc => hc.2 hs
  | succ n ih =>
    intro fuel j hocc hstop hfuel
    match fuel, hfuel with
    | fuel + 1, hf =>
      rw [findBinLoop, if_pos ?_]
      · have hshift : ∀ t, t < n → ¬ m.isBinEmpty (m.probePos key (j + 1 + t))
            ∧ ¬ m.doesBinContain (m.probePos key (j + 1 + t)) key := by
          intro t ht
          have := hocc (t + 1) (by omega)
          rwa [show j + (t + 1) = j + 1 + t by omega] at this
        have hstop1 : m.isBinEmpty (m.probePos key (j + 1 + n))
            ∨ m.doesBinContain (m.probePos key (j + 1 + n)) key := by
          rwa [show j + (n + 1) = j + 1 + n by omega] at hstop
        rw [show j + (n + 1) = j + 1 + n by omega]
        exact ih fuel (j + 1) hshift hstop1 (by omega)
      · have := hocc 0 (by omega)
        rw [Nat.add_zero] at this
        exact this

/-- Probe-loop characterization for the Set: same shape, but the probe
position after the home bin is the absolute index of the probe counter. -/
theorem SetSt.findBinLoop_probesAbs (s : SetSt) (v : Nat) :
    ∀ n fuel j : Nat,
      (∀ t, t < n → ¬ s.isBinEmpty (s.probePos v (j + t))
        ∧ ¬ s.doesBinContain (s.probePos v (j + t)) v) →
      (s.isBinEmpty (s.probePos v (j + n))
        ∨ s.doesBinContain (s.probePos v (j + n)) v) →
      n < fuel →
      s.findBinLoop v (s.probePos v j) j fuel = some (s.probePos v (j + n)) := by
  intro n
  induction n with
  | zero =>
    intro fuel j hocc hstop hfuel
    match fuel, hfuel with
    | fuel + 1, _ =>
      rw [findBinLoop, if_neg ?_]
      · rw [Nat.add_zero]
      · rw [Nat.add_zero] at hstop
        rcases hstop with hs | hs
        · exact fun hc => hc.1 hs
        · exact fun hc => hc.2 hs
  | succ n ih =>
    intro fuel j hocc hstop hfuel
    match fuel, hfuel with
    | fuel + 1, hf =>
      rw [findBinLoop, if_pos ?_]
      · have hshift : ∀ t, t < n → ¬ s.isBinEmpty (s.probePos v (j + 1 + t))
            ∧ ¬ s.doesBinContain (s.probePos v (j + 1 + t)) v := by
          intro t ht
          have := hocc (t + 1) (by omega)
          rwa [show j + (t + 1) = j + 1 + t by omega] at this
        have hstop1 : s.isBinEmpty (s.probePos v (j + 1 + n))
            ∨ s.doesBinContain (s.probePos v (j + 1 + n)) v := by
          rwa [show j + (n + 1) = j + 1 + n by omega] at hstop
        rw [show j + (n + 1) = j + 1 + n by omega]
        exact ih fuel (j + 1) hshift hstop1 (by omega)
      · have := hocc 0 (by omega)
        rw [Nat.add_zero] at this
        exact this

/-- C3 amended: both hash tables probe from the wrapped hash and stop
at the first bin that is empty or stores a hash-matching entry, but not
along the linear sequence: findBinForKey of the Map visits the
positions probePos, whose step grows by one on every probe (offsets
from the home bin are the triangular numbers), and findBinForValue of
the Set visits the home bin and then the absolute positions 1, 2, 3,
... regardless of the hash. -/
theorem c3_probe_sequences :
    (∀ (m : MapSt) (key n fuel : Nat),
      (∀ t, t < n → ¬ m.isBinEmpty (m.probePos key t)
        ∧ ¬ m.doesBinContain (m.probePos key t) key) →
      (m.isBinEmpty (m.probePos key n) ∨ m.doesBinContain (m.probePos key n) key) →
      n < fuel →
      m.findBinForKey key fuel = some (m.probePos key n))
  ∧ (∀ (s : SetSt) (v n fuel : Nat),
      (∀ t, t < n → ¬ s.isBinEmpty (s.probePos v t)
        ∧ ¬ s.doesBinContain (s.probePos v t) v) →
      (s.isBinEmpty (s.probePos v n) ∨ s.doesBinContain (s.probePos v n) v) →
      n < fuel →
      s.findBinForValue v fuel = some (s.probePos v n)) := by
  constructor
  · intro m key n fuel hocc hstop hfuel
    have := MapSt.findBinLoop_probes m key n fuel 0
      (by simpa using hocc) (by simpa using hstop) hfuel
    simpa [MapSt.findBinForKey] using this
  · intro s v n fuel hocc hstop hfuel
    have := SetSt.findBinLoop_probesAbs s v n fuel 0
      (by simpa using hocc) (by simpa using hstop) hfuel
    simpa [SetSt.findBinForValue] using this

/-- Witness for the amended C3 at concrete inputs: the counterexample
map returns bin 3 = probe position 2 for key 64, and an empty set
returns the home bin for value 5. -/
theorem c3_probe_sequences_witness :
    MapSt.findBinForKey
      { pairs := { values := [(0, 11), (1, 12)] ++ List.replicate 30 (0, 0),
                   first := 0, size := 2, capacity := 32 }
        hashFunc := id
        bins := [0, 1] ++ List.replicate 30 U32_MAX
        binsInUse := 2, binCount := 32 } 64 10
      = some (MapSt.probePos
          { pairs := { values := [(0, 11), (1, 12)] ++ List.replicate 30 (0, 0),
                       first := 0, size := 2, capacity := 32 }
            hashFunc := id
            bins := [0, 1] ++ List.replicate 30 U32_MAX
            binsInUse := 2, binCount := 32 } 64 2)
  ∧ SetSt.findBinForValue (SetSt.mkDefault id) 5 1
      = some (SetSt.probePos (SetSt.mkDefault id) 5 0) :=
  ⟨c3_probe_sequences.1
      { pairs := { values := [(0, 11), (1, 12)] ++ List.replicate 30 (0, 0),
                   first := 0, size := 2, capacity := 32 }
        hashFunc := id
        bins := [0, 1] ++ List.replicate 30 U32_MAX
        binsInUse := 2, binCount := 32 } 64 2 10
      (by decide) (by decide) (by decide),
   c3_probe_sequences.2 (SetSt.mkDefault id) 5 0 1
      (by decide) (by decide) (by decide)⟩

/-- Witness for the amended C7 at a concrete input. -/
theorem c7_move_allocates_and_zeroes_witness :
    (daMoveCtor { nextId := 1, allocCount := 1 }
      { buf := some { id := 0, data := List.replicate 32 0 },
        first := 0, size := 0, capacity := 32 }).2.1.buf
      ≠ some { id := 0, data := List.replicate 32 0 } :=
  ((c7_move_allocates_and_zeroes.1 { nextId := 1, allocCount := 1 }
    { buf := some { id := 0, data := List.replicate 32 0 },
      first := 0, size := 0, capacity := 32 }
    { id := 0, data := List.replicate 32 0 } rfl).2.2.1) (by decide)

/-- getD of eraseIdx below the removed index. -/
theorem getD_eraseIdx_of_lt (l : List Nat) (j m : Nat) (h : m < j) :
    (l.eraseIdx j).getD m 0 = l.getD m 0 := by
  rw [List.getD_eq_getElem?_getD, List.getElem?_eraseIdx_of_lt l j m h,
    ← List.getD_eq_getElem?_getD]

/-- getD of eraseIdx at or above the removed index. -/
theorem getD_eraseIdx_of_ge (l : List Nat) (j m : Nat) (h : j ≤ m) :
    (l.eraseIdx j).getD m 0 = l.getD (m + 1) 0 := by
  rw [List.getD_eq_getElem?_getD, List.getElem?_eraseIdx_of_ge l j m h,
    ← List.getD_eq_getElem?_getD]

/-- getD of eraseIdx below the removed index, for any element type. -/
theorem getD_eraseIdx_of_lt' {α : Type} [Inhabited α] (l : List α) (j m : Nat)
    (h : m < j) : (l.eraseIdx j).getD m default = l.getD m default := by
  rw [List.getD_eq_getElem?_getD, List.getElem?_eraseIdx_of_lt l j m h,
    ← List.getD_eq_getElem?_getD]

/-- getD of eraseIdx at or above the removed index, for any element
type. -/
theorem getD_eraseIdx_of_ge' {α : Type} [Inhabited α] (l : List α) (j m : Nat)
    (h : j ≤ m) : (l.eraseIdx j).getD m default = l.getD (m + 1) default := by
  rw [List.getD_eq_getElem?_getD, List.getElem?_eraseIdx_of_ge l j m h,
    ← List.getD_eq_getElem?_getD]

/-- Halving a power-of-two capacity above the floor stays a power of
two at least the floor. -/
theorem pow2_half (cap k : Nat) (hk : cap = 2 ^ k) (hbig : 32 < cap) :
    cap / 2 = 2 ^ (k - 1) ∧ 32 ≤ cap / 2 := by
  have hk6 : 6 ≤ k := by
    by_contra hlt
    have : cap ≤ 32 := by
      rw [hk]
      calc (2 : Nat) ^ k ≤ 2 ^ 5 := Nat.pow_le_pow_right (by omega) (by omega)
      _ = 32 := by norm_num
    omega
  have hsplit : cap = 2 * 2 ^ (k - 1) := by
    have h1 : 2 * 2 ^ (k - 1) = 2 ^ (k - 1 + 1) := (pow_succ' 2 (k - 1)).symm
    rw [hk, h1]
    congr 1
    omega
  have hhalf : cap / 2 = 2 ^ (k - 1) := by
    rw [hsplit]
    omega
  refine ⟨hhalf, ?_⟩
  rw [hhalf]
  calc (32 : Nat) = 2 ^ 5 := by norm_num
  _ ≤ 2 ^ (k - 1) := Nat.pow_le_pow_right (by omega) (by omega)

/-- Projections of shiftForward and shiftBackward on first. -/
theorem DynArr.shiftBackward_first {α : Type} [Inhabited α] (s : DynArr α) (i : Nat) :
    (s.shiftBackward i).first = s.first :=
  (shiftBackwardAux_parts (s.size - 1 - i) s i).1

/-- The conditional shrink of pop, popFront and removeAt preserves the
logical contents. -/
theorem DynArr.goodDA_condShrink {α : Type} [Inhabited α] (s : DynArr α) (vs : List α)
    (hg : GoodDA s vs) : GoodDA (if s.shouldShrink then s.shrink else s) vs := by
  by_cases hs : s.shouldShrink
  · rw [if_pos hs]
    obtain ⟨hf, hsz, hl, h32, ⟨k, hk⟩, hfit, hcont⟩ := hg
    have hcond : s.size ≤ s.capacity >>> 2 ∧ s.capacity > 32 := by
      simpa [shouldShrink] using hs
    have h2 : s.capacity >>> 1 = s.capacity / 2 := by
      simp [Nat.shiftRight_succ, Nat.shiftRight_zero]
    have h4 : s.capacity >>> 2 = s.capacity / 4 := by
      simp [Nat.shiftRight_succ, Nat.shiftRight_zero, Nat.div_div_eq_div_mul]
    obtain ⟨hhalf, h32h⟩ := pow2_half s.capacity k hk hcond.2
    refine goodDA_resize s vs (s.capacity >>> 1) (k - 1)
      ⟨hf, hsz, hl, h32, ⟨k, hk⟩, hfit, hcont⟩ (by rw [h2, hhalf]) ?_ ?_
    · rw [h2]
      exact h32h
    · rw [h2]
      have : s.size ≤ s.capacity / 4 := by
        rw [← h4]
        exact hcond.1
      have hq : s.capacity / 4 ≤ s.capacity / 2 :=
        Nat.div_le_div_left (by omega) (by omega)
      omega
  · rw [if_neg hs]
    exact hg

/-- Pointwise characterization of the shiftBackward loop on a first-0
power-of-two state: positions in the shifted window take the next
element, everything else is untouched. -/
theorem DynArr.shiftBackwardAux_getD {α : Type} [Inhabited α] :
    ∀ (n : Nat) (s : DynArr α) (i : Nat), s.first = 0 →
      (∃ k, s.capacity = 2 ^ k) → s.values.length = s.capacity →
      i + n < s.capacity →
      ∀ m, (shiftBackwardAux s i n).values.getD m default
        = if i ≤ m ∧ m < i + n then s.values.getD (m + 1) default
          else s.values.getD m default := by
  intro n
  induction n with
  | zero =>
    intro s i hf hpow hlen hcap m
    rw [shiftBackwardAux, if_neg (by omega)]
  | succ n ih =>
    intro s i hf hpow hlen hcap m
    rw [shiftBackwardAux]
    have hwi : s.wrap i = i := wrap_eq s i hf hpow (by omega)
    have hwi1 : s.wrap (i + 1) = i + 1 := wrap_eq s (i + 1) hf hpow (by omega)
    have hs1v : (s.setVal i (s.get (i + 1))).values
        = s.values.set i (s.values.getD (i + 1) default) := by
      simp [setVal, get, hwi, hwi1]
    have hres := ih (s.setVal i (s.get (i + 1))) (i + 1) hf hpow
      (by rw [hs1v]; simpa using hlen)
      (by show i + 1 + n < s.capacity; omega) m
    rw [hres, hs1v]
    by_cases hm : i + 1 ≤ m ∧ m < i + 1 + n
    · rw [if_pos hm, if_pos (by omega)]
      rw [List.getD_eq_getElem?_getD, List.getElem?_set_ne (by omega),
        ← List.getD_eq_getElem?_getD]
    · rw [if_neg hm]
      by_cases hmi : m = i
      · subst hmi
        rw [if_pos (by omega), List.getD_eq_getElem?_getD,
          List.getElem?_set_self (by omega), Option.getD_some]
      · rw [if_neg (by omega), List.getD_eq_getElem?_getD,
          List.getElem?_set_ne (by omega), ← List.getD_eq_getElem?_getD]

/-- removeAt on a good state returns the element at the index and
leaves the contents with that index erased. -/
theorem DynArr.goodDA_removeAt {α : Type} [Inhabited α] (s : DynArr α) (vs : List α) (j : Nat)
    (hg : GoodDA s vs) (hj : j < vs.length) :
    (s.removeAt j).2 = some (vs.getD j default) ∧
    GoodDA (s.removeAt j).1 (vs.eraseIdx j) := by
  have hsz0 : s.size = vs.length := hg.2.1
  have hg1 := goodDA_condShrink s vs hg
  obtain ⟨hf, hsz, hl, h32, hpow, hfit, hcont⟩ := hg1
  simp only [removeAt]
  rw [if_neg (by omega)]
  have hsbn : j + ((if s.shouldShrink then s.shrink else s).size - 1 - j)
      < (if s.shouldShrink then s.shrink else s).capacity := by
    omega
  constructor
  · show some ((if s.shouldShrink then s.shrink else s).get j) = _
    unfold get
    rw [wrap_eq _ j hf hpow (by omega)]
    exact congrArg some (hcont j hj)
  · have hchar := shiftBackwardAux_getD
      ((if s.shouldShrink then s.shrink else s).size - 1 - j)
      (if s.shouldShrink then s.shrink else s) j hf hpow hl hsbn
    refine ⟨?_, ?_, ?_, ?_, ?_, ?_, ?_⟩
    · show (DynArr.shiftBackward _ j).first = 0
      rw [shiftBackward_first]
      exact hf
    · show (DynArr.shiftBackward _ j).size - 1 = (vs.eraseIdx j).length
      rw [shiftBackward_size, hsz, List.length_eraseIdx_of_lt hj]
    · show (DynArr.shiftBackward _ j).values.length
        = (DynArr.shiftBackward _ j).capacity
      rw [shiftBackward_length, shiftBackward_capacity]
      exact hl
    · show 32 ≤ (DynArr.shiftBackward _ j).capacity
      rw [shiftBackward_capacity]
      exact h32
    · show ∃ k, (DynArr.shiftBackward _ j).capacity = 2 ^ k
      rw [shiftBackward_capacity]
      exact hpow
    · show (vs.eraseIdx j).length ≤ (DynArr.shiftBackward _ j).capacity
      rw [shiftBackward_capacity, List.length_eraseIdx_of_lt hj]
      omega
    · intro m hm
      rw [List.length_eraseIdx_of_lt hj] at hm
      show (DynArr.shiftBackward _ j).values.getD m default = _
      rw [DynArr.shiftBackward, hchar m]
      rcases Nat.lt_or_ge m j with hmj | hmj
      · rw [if_neg (by omega), hcont m (by omega), getD_eraseIdx_of_lt' vs j m hmj]
      · rw [if_pos (by omega), hcont (m + 1) (by omega),
          getD_eraseIdx_of_ge' vs j m hmj]


/-- Reading a good state at an in-range logical index gives the
element of the contents list. -/
theorem DynArr.goodDA_get {α : Type} [Inhabited α] (s : DynArr α) (vs : List α)
    (hg : GoodDA s vs) (j : Nat) (hj : j < vs.length) :
    s.get j = vs.getD j default := by
  obtain ⟨hf, hs, hl, h32, hpow, hfit, hcont⟩ := hg
  unfold get
  rw [wrap_eq s j hf hpow (by omega)]
  exact hcont j hj

/-- The home bin is below the bin count 32. -/
theorem homeOf_lt (h : Nat → Nat) (v : Nat) : homeOf h v < 32 :=
  lt_of_le_of_lt Nat.and_le_right (by omega)

/-- The bin-correction loop keeps the bin-array length. -/
theorem MapSt.correctBins_length : ∀ (n i : Nat) (bins : List Nat) (bI : Nat),
    (MapSt.correctBins bins bI i n).length = bins.length := by
  intro n
  induction n with
  | zero => intro i bins bI; rfl
  | succ n ih =>
    intro i bins bI
    simp only [MapSt.correctBins]
    rw [ih]
    by_cases hc : bins.getD i 0 ≠ U32_MAX ∧ bins.getD i 0 > bins.getD bI 0
    · rw [if_pos hc]
      simp
    · rw [if_neg hc]

/-- Pointwise characterization of the bin-correction loop: every bin in
the scanned window that is occupied with an index above the removed
bin index is decremented, everything else is untouched; the removed
bin entry itself is stable throughout the scan. -/
theorem MapSt.correctBins_getD :
    ∀ (n i : Nat) (bins : List Nat) (bI m : Nat),
      (MapSt.correctBins bins bI i n).getD m 0
        = if i ≤ m ∧ m < i + n ∧ bins.getD m 0 ≠ U32_MAX
             ∧ bins.getD m 0 > bins.getD bI 0
          then bins.getD m 0 - 1 else bins.getD m 0 := by
  intro n
  induction n with
  | zero =>
    intro i bins bI m
    rw [MapSt.correctBins, if_neg (by omega)]
  | succ n ih =>
    intro i bins bI m
    simp only [MapSt.correctBins]
    by_cases hcond : bins.getD i 0 ≠ U32_MAX ∧ bins.getD i 0 > bins.getD bI 0
    · rw [if_pos hcond]
      have hirange : i < bins.length := by
        by_contra hge
        have h0 : bins.getD i 0 = 0 := by
          rw [List.getD_eq_getElem?_getD, List.getElem?_eq_none (by omega),
            Option.getD_none]
        omega
      have hbI : (bins.set i (bins.getD i 0 - 1)).getD bI 0 = bins.getD bI 0 := by
        have hne : i ≠ bI := by
          intro he
          rw [he] at hcond
          omega
        rw [List.getD_eq_getElem?_getD, List.getElem?_set_ne hne,
          ← List.getD_eq_getElem?_getD]
      rw [ih (i + 1) (bins.set i (bins.getD i 0 - 1)) bI m, hbI]
      by_cases hm1 : m = i
      · subst hm1
        rw [if_neg (by omega), List.getD_eq_getElem?_getD,
          List.getElem?_set_self hirange, Option.getD_some,
          if_pos ⟨by omega, by omega, hcond.1, hcond.2⟩]
      · have hset : (bins.set i (bins.getD i 0 - 1)).getD m 0 = bins.getD m 0 := by
          rw [List.getD_eq_getElem?_getD, List.getElem?_set_ne (by omega),
            ← List.getD_eq_getElem?_getD]
        rw [hset]
        by_cases h2 : i ≤ m ∧ m < i + (n + 1) ∧ bins.getD m 0 ≠ U32_MAX
            ∧ bins.getD m 0 > bins.getD bI 0
        · rw [if_pos ⟨by omega, by omega, h2.2.2.1, h2.2.2.2⟩, if_pos h2]
        · rw [if_neg ?_, if_neg h2]
          intro hc
          exact h2 ⟨by omega, by omega, hc.2.2.1, hc.2.2.2⟩
    · rw [if_neg hcond]
      rw [ih (i + 1) bins bI m]
      by_cases hm1 : m = i
      · subst hm1
        rw [if_neg (by omega), if_neg ?_]
        intro hc
        exact hcond ⟨hc.2.2.1, hc.2.2.2⟩
      · by_cases h2 : i ≤ m ∧ m < i + (n + 1) ∧ bins.getD m 0 ≠ U32_MAX
            ∧ bins.getD m 0 > bins.getD bI 0
        · rw [if_pos ⟨by omega, by omega, h2.2.2.1, h2.2.2.2⟩, if_pos h2]
        · rw [if_neg ?_, if_neg h2]
          intro hc
          exact h2 ⟨by omega, by omega, hc.2.2.1, hc.2.2.2⟩

/-- getD through an append, left side. -/
theorem getD_append_left (l1 l2 : List Nat) (j : Nat) (h : j < l1.length) :
    (l1 ++ l2).getD j 0 = l1.getD j 0 := by
  rw [List.getD_eq_getElem?_getD, List.getElem?_append_left h,
    ← List.getD_eq_getElem?_getD]

/-- getD of a one-element append at the old length. -/
theorem getD_append_self (l1 : List Nat) (v : Nat) :
    (l1 ++ [v]).getD l1.length 0 = v := by
  rw [List.getD_eq_getElem?_getD, List.getElem?_append_right (le_refl _)]
  simp

/-- Distinct home bins at distinct indices, from the pairwise form. -/
theorem homesNe_of_distinct (h : Nat → Nat) (ws : List Nat)
    (hdist : HomesDistinct h ws) :
    ∀ t1 t2, t1 < ws.length → t2 < ws.length → t1 ≠ t2 →
      homeOf h (ws.getD t1 0) ≠ homeOf h (ws.getD t2 0) := by
  have hpair := List.pairwise_iff_getElem.mp hdist
  intro t1 t2 h1 h2 hne12
  have g1 : ws.getD t1 0 = ws[t1] := by
    rw [List.getD_eq_getElem?_getD, List.getElem?_eq_getElem h1]
    rfl
  have g2 : ws.getD t2 0 = ws[t2] := by
    rw [List.getD_eq_getElem?_getD, List.getElem?_eq_getElem h2]
    rfl
  rw [g1, g2]
  rcases Nat.lt_or_ge t1 t2 with hlt | hge
  · exact hpair t1 t2 h1 h2 hlt
  · exact (hpair t2 t1 h2 h1 (by omega)).symm

/-- Membership in eraseAll over a nodup base list: exactly the base
elements not erased. -/
theorem eraseAll_mem : ∀ (rs ws : List Nat), ws.Nodup →
    ∀ v, v ∈ eraseAll ws rs ↔ (v ∈ ws ∧ v ∉ rs) := by
  intro rs
  induction rs with
  | nil =>
    intro ws hnd v
    simp [eraseAll]
  | cons r rs ih =>
    intro ws hnd v
    have hstep : eraseAll ws (r :: rs) = eraseAll (ws.erase r) rs := rfl
    rw [hstep, ih (ws.erase r) (hnd.erase r) v, hnd.mem_erase_iff]
    simp only [List.mem_cons]
    constructor
    · rintro ⟨⟨hvr, hvw⟩, hvrs⟩
      exact ⟨hvw, fun hc => hc.elim hvr hvrs⟩
    · rintro ⟨hvw, hnrs⟩
      exact ⟨⟨fun he => hnrs (Or.inl he), hvw⟩, fun hc => hnrs (Or.inr hc)⟩

/-- Length of eraseAll for a nodup removal list drawn from a nodup
base list. -/
theorem eraseAll_length : ∀ (rs ws : List Nat), (∀ r ∈ rs, r ∈ ws) →
    rs.Nodup → ws.Nodup →
    (eraseAll ws rs).length = ws.length - rs.length := by
  intro rs
  induction rs with
  | nil =>
    intro ws _ _ _
    simp [eraseAll]
  | cons r rs ih =>
    intro ws hsub hrnd hwnd
    have hstep : eraseAll ws (r :: rs) = eraseAll (ws.erase r) rs := rfl
    have hrw : r ∈ ws := hsub r (List.mem_cons_self r rs)
    have hrnotin : r ∉ rs := (List.nodup_cons.mp hrnd).1
    have hsub2 : ∀ x ∈ rs, x ∈ ws.erase r := by
      intro x hx
      rw [hwnd.mem_erase_iff]
      exact ⟨fun he => hrnotin (he ▸ hx), hsub x (List.mem_cons_of_mem r hx)⟩
    rw [hstep, ih (ws.erase r) hsub2 (List.nodup_cons.mp hrnd).2 (hwnd.erase r),
      List.length_erase_of_mem hrw]
    simp only [List.length_cons]
    omega

set_option maxRecDepth 100000 in
/-- C5 counterexample: with the identity hash, insert 0 and 32 into a
Set (both map to home bin 0 at the minimum bin count 32, so 32 lands in
bin 1 by probing) and remove 0.  remove marks the home bin 0 empty and
the correction scan even rewires bin 1 to the compacted entry, but the
probe chain is broken: has(32) now stops at the empty home bin 0 and
returns false although 32 was never removed, and removing both values
leaves size 1 instead of 0 because remove(32) no longer finds its bin.
This falsifies the claim that after each removal every not-yet-removed
key is still found and that removing every key leaves size 0. -/
theorem c5_counterexample :
    ((SetSt.addAll (SetSt.mkDefault id) [0, 32] 40).bind
        (fun st0 => SetSt.remove st0 0 40)).map
        (fun st1 => (st1.hasVal 32 40, st1.size))
      = some (some false, 1)
  ∧ ((SetSt.addAll (SetSt.mkDefault id) [0, 32] 40).bind
        (fun st0 => SetSt.removeAll st0 [0, 32] 40)).map
        (fun st1 => st1.size)
      = some 1 := by
  constructor
  · decide
  · decide

/-- homeOfB at a power-of-two bin count is the hash modulo that count. -/
theorem homeOfB_eq_mod (h : Nat → Nat) (v k : Nat) :
    homeOfB h (2 ^ k) v = h v % 2 ^ k := by
  unfold homeOfB
  rw [Nat.and_pow_two_sub_one_eq_mod]

/-- homeOf is homeOfB at 32 read through the modulus. -/
theorem homeOf_eq_mod (h : Nat → Nat) (v : Nat) : homeOf h v = h v % 32 := by
  have := homeOfB_eq_mod h v 5
  norm_num at this
  exact this

/-- The home bin is below the bin count, for the reachable bin counts. -/
theorem homeOfB_lt_of (h : Nat → Nat) (bc v : Nat)
    (hbc : bc = 32 ∨ bc = 64) : homeOfB h bc v < bc := by
  rcases hbc with hbc | hbc <;> subst hbc
  · have h5 := homeOfB_eq_mod h v 5
    norm_num at h5
    rw [h5]
    omega
  · have h6 := homeOfB_eq_mod h v 6
    norm_num at h6
    rw [h6]
    omega

/-- Distinct home bins at the minimum bin count stay distinct at any
reachable bin count: the low five bits already differ. -/
theorem homeOfB_ne_of (h : Nat → Nat) (bc a b : Nat)
    (hbc : bc = 32 ∨ bc = 64) (hne : homeOf h a ≠ homeOf h b) :
    homeOfB h bc a ≠ homeOfB h bc b := by
  rcases hbc with hbc | hbc <;> subst hbc
  · exact hne
  · have h6a := homeOfB_eq_mod h a 6
    have h6b := homeOfB_eq_mod h b 6
    norm_num at h6a h6b
    rw [h6a, h6b]
    intro hc
    apply hne
    rw [homeOf_eq_mod, homeOf_eq_mod,
      ← Nat.mod_mod_of_dvd (h a) (by norm_num : (32 : Nat) ∣ 64),
      ← Nat.mod_mod_of_dvd (h b) (by norm_num : (32 : Nat) ∣ 64), hc]

/-- At most 32 values can occupy pairwise-distinct home bins. -/
theorem homesDistinct_length_le (h : Nat → Nat) (ws : List Nat)
    (hdist : HomesDistinct h ws) : ws.length ≤ 32 := by
  have hnd : (ws.map (homeOf h)).Nodup := List.pairwise_map.mpr hdist
  have hcard : (ws.map (homeOf h)).toFinset.card = ws.length := by
    rw [List.toFinset_card_of_nodup hnd, List.length_map]
  have hsub : (ws.map (homeOf h)).toFinset ⊆ Finset.range 32 := by
    intro x hx
    rw [List.mem_toFinset] at hx
    obtain ⟨a, _, rfl⟩ := List.mem_map.mp hx
    exact Finset.mem_range.mpr (homeOf_lt h a)
  have hle := Finset.card_le_card hsub
  rw [hcard, Finset.card_range] at hle
  exact hle

/-- Wrap of the hash is the home bin at the current bin count. -/
theorem SetSt.wrap_hash_eq (st : SetSt) (h : Nat → Nat) (v : Nat)
    (hh : st.hashFunc = h) :
    st.wrap (st.hash v) = homeOfB h st.binCount v := by
  unfold SetSt.wrap SetSt.hash homeOfB
  rw [hh]

/-- Under the invariant, the home bin of the j-th live value stores j,
is not empty, and contains the value by hash comparison. -/
theorem SetSt.inv_member_bin (h : Nat → Nat) (st : SetSt) (ws : List Nat)
    (j : Nat) (hinv : SetInv h st ws) (hj : j < ws.length) :
    st.bins.getD (homeOfB h st.binCount (ws.getD j 0)) 0 = j
  ∧ st.isBinEmpty (homeOfB h st.binCount (ws.getD j 0)) = false
  ∧ st.doesBinContain (homeOfB h st.binCount (ws.getD j 0)) (ws.getD j 0)
      = true := by
  obtain ⟨hh, hbc, hbl, hbu, hlen, hgood, hidx, hemp⟩ := hinv
  have hbin := hidx j hj
  have hne : st.isBinEmpty (homeOfB h st.binCount (ws.getD j 0)) = false := by
    unfold isBinEmpty
    rw [hbin]
    simp [U32_MAX]
    omega
  refine ⟨hbin, hne, ?_⟩
  have hget : st.values.get j = ws.getD j 0 := DynArr.goodDA_get _ _ hgood j hj
  unfold doesBinContain
  rw [hbin, hget, hne]
  simp [SetSt.hash, homeOfB_lt_of h st.binCount _ hbc]

/-- Under the invariant, a value whose home bin differs from every live
home bin finds that bin empty. -/
theorem SetSt.inv_foreign_bin (h : Nat → Nat) (st : SetSt) (ws : List Nat)
    (v : Nat) (hinv : SetInv h st ws)
    (hfor : ∀ t, t < ws.length → homeOf h (ws.getD t 0) ≠ homeOf h v) :
    st.bins.getD (homeOfB h st.binCount v) 0 = U32_MAX
  ∧ st.isBinEmpty (homeOfB h st.binCount v) = true := by
  obtain ⟨hh, hbc, hbl, hbu, hlen, hgood, hidx, hemp⟩ := hinv
  have hmax := hemp (homeOfB h st.binCount v) (homeOfB_lt_of h st.binCount v hbc)
    (fun t ht => homeOfB_ne_of h st.binCount _ _ hbc (hfor t ht))
  refine ⟨hmax, ?_⟩
  unfold isBinEmpty
  rw [hmax]
  simp

/-- The probe loop of the Set stops at the home bin of a live value. -/
theorem SetSt.find_member (h : Nat → Nat) (st : SetSt) (ws : List Nat)
    (j fuel : Nat) (hinv : SetInv h st ws) (hj : j < ws.length) :
    st.findBinForValue (ws.getD j 0) (fuel + 1)
      = some (homeOfB h st.binCount (ws.getD j 0)) := by
  obtain ⟨hbin, hne, hcont⟩ := inv_member_bin h st ws j hinv hj
  unfold findBinForValue
  rw [wrap_hash_eq st h (ws.getD j 0) hinv.1, findBinLoop, if_neg ?_]
  intro hc
  exact hc.2 hcont

/-- The probe loop of the Set stops at the empty home bin of a foreign
value. -/
theorem SetSt.find_foreign (h : Nat → Nat) (st : SetSt) (ws : List Nat)
    (v fuel : Nat) (hinv : SetInv h st ws)
    (hfor : ∀ t, t < ws.length → homeOf h (ws.getD t 0) ≠ homeOf h v) :
    st.findBinForValue v (fuel + 1) = some (homeOfB h st.binCount v) := by
  obtain ⟨hbin, hemp⟩ := inv_foreign_bin h st ws v hinv hfor
  unfold findBinForValue
  rw [wrap_hash_eq st h v hinv.1, findBinLoop, if_neg ?_]
  intro hc
  exact hc.1 hemp

/-- has returns true for a live value under the invariant. -/
theorem SetSt.has_member (h : Nat → Nat) (st : SetSt) (ws : List Nat)
    (j fuel : Nat) (hinv : SetInv h st ws) (hj : j < ws.length) :
    st.hasVal (ws.getD j 0) (fuel + 1) = some true := by
  obtain ⟨hbin, hne, hcont⟩ := inv_member_bin h st ws j hinv hj
  unfold hasVal
  rw [find_member h st ws j fuel hinv hj, Option.map_some']
  have hval : homeOfB h st.binCount (ws.getD j 0) ≠ U32_MAX := by
    have hlt := homeOfB_lt_of h st.binCount (ws.getD j 0) hinv.2.1
    have hb64 : st.binCount ≤ 64 := by
      rcases hinv.2.1 with hbc | hbc <;> omega
    unfold U32_MAX
    omega
  rw [hcont, Bool.and_true, decide_eq_true hval]

/-- has returns false for a value foreign to every live home bin. -/
theorem SetSt.has_foreign (h : Nat → Nat) (st : SetSt) (ws : List Nat)
    (v fuel : Nat) (hinv : SetInv h st ws)
    (hfor : ∀ t, t < ws.length → homeOf h (ws.getD t 0) ≠ homeOf h v) :
    st.hasVal v (fuel + 1) = some false := by
  obtain ⟨hbin, hemp⟩ := inv_foreign_bin h st ws v hinv hfor
  unfold hasVal
  rw [find_foreign h st ws v fuel hinv hfor, Option.map_some']
  have hcont : st.doesBinContain (homeOfB h st.binCount v) v = false := by
    unfold doesBinContain
    rw [hemp]
    simp
  rw [hcont, Bool.and_false]

/-- The rehash loop of Set::resize under pairwise-distinct home bins:
each probe finds its empty home bin directly and records the entry
index there, extending the partially built bin array until every live
value sits in its home bin. -/
theorem SetSt.rehashLoop_build (h : Nat → Nat) (ws : List Nat)
    (hdist : HomesDistinct h ws) :
    ∀ (n t : Nat) (st : SetSt) (fuel : Nat),
    st.hashFunc = h → (st.binCount = 32 ∨ st.binCount = 64) →
    st.bins.length = st.binCount →
    DynArr.GoodDA st.values ws →
    t + n = ws.length →
    (∀ j, j < t → st.bins.getD (homeOfB h st.binCount (ws.getD j 0)) 0 = j) →
    (∀ b, b < st.binCount →
      (∀ j, j < t → homeOfB h st.binCount (ws.getD j 0) ≠ b) →
      st.bins.getD b 0 = U32_MAX) →
    ∃ st1, st.rehashLoop t n (fuel + 1) = some st1 ∧
      st1.values = st.values ∧ st1.hashFunc = st.hashFunc ∧
      st1.binCount = st.binCount ∧ st1.binsInUse = st.binsInUse ∧
      st1.bins.length = st.binCount ∧
      (∀ j, j < ws.length →
        st1.bins.getD (homeOfB h st.binCount (ws.getD j 0)) 0 = j) ∧
      (∀ b, b < st.binCount →
        (∀ j, j < ws.length → homeOfB h st.binCount (ws.getD j 0) ≠ b) →
        st1.bins.getD b 0 = U32_MAX) := by
  intro n
  induction n with
  | zero =>
    intro t st fuel hh hbc hbl hgood ht hidx hemp
    refine ⟨st, rfl, rfl, rfl, rfl, rfl, hbl, ?_, ?_⟩
    · intro j hj
      exact hidx j (by omega)
    · intro b hb hnone
      exact hemp b hb (fun j hj => hnone j (by omega))
  | succ n ih =>
    intro t st fuel hh hbc hbl hgood ht hidx hemp
    have hget : st.values.get t = ws.getD t 0 :=
      DynArr.goodDA_get _ _ hgood t (by omega)
    have hhome : st.bins.getD (homeOfB h st.binCount (ws.getD t 0)) 0
        = U32_MAX := by
      apply hemp _ (homeOfB_lt_of h st.binCount _ hbc)
      intro j hj
      exact homeOfB_ne_of h st.binCount _ _ hbc
        (homesNe_of_distinct h ws hdist j t (by omega) (by omega) (by omega))
    have hfind : st.findBinForValue (st.values.get t) (fuel + 1)
        = some (homeOfB h st.binCount (ws.getD t 0)) := by
      rw [hget]
      unfold findBinForValue
      rw [wrap_hash_eq st h _ hh, findBinLoop, if_neg ?_]
      intro hc
      apply hc.1
      unfold isBinEmpty
      rw [hhome]
      simp
    have hstep : st.rehashLoop t (n + 1) (fuel + 1)
        = SetSt.rehashLoop
            { st with
              bins := st.bins.set (homeOfB h st.binCount (ws.getD t 0)) t }
            (t + 1) n (fuel + 1) := by
      rw [rehashLoop, hfind]
    have hidx2 : ∀ j, j < t + 1 →
        (st.bins.set (homeOfB h st.binCount (ws.getD t 0)) t).getD
          (homeOfB h st.binCount (ws.getD j 0)) 0 = j := by
      intro j hj
      rcases Nat.lt_or_ge j t with hjt | hjt
      · rw [List.getD_eq_getElem?_getD,
          List.getElem?_set_ne (homeOfB_ne_of h st.binCount _ _ hbc
            (homesNe_of_distinct h ws hdist t j (by omega) (by omega)
              (by omega))),
          ← List.getD_eq_getElem?_getD]
        exact hidx j hjt
      · have hjeq : j = t := by omega
        rw [hjeq, List.getD_eq_getElem?_getD,
          List.getElem?_set_self (by
            rw [hbl]
            exact homeOfB_lt_of h st.binCount _ hbc),
          Option.getD_some]
    have hemp2 : ∀ b, b < st.binCount →
        (∀ j, j < t + 1 → homeOfB h st.binCount (ws.getD j 0) ≠ b) →
        (st.bins.set (homeOfB h st.binCount (ws.getD t 0)) t).getD b 0
          = U32_MAX := by
      intro b hb hnone
      rw [List.getD_eq_getElem?_getD,
        List.getElem?_set_ne (hnone t (by omega)),
        ← List.getD_eq_getElem?_getD]
      exact hemp b hb (fun j hj => hnone j (by omega))
    obtain ⟨st1, hrec, hvals, hhf, hbc1, hbu1, hbl1, hidx1, hemp1⟩ :=
      ih (t + 1)
        { st with
          bins := st.bins.set (homeOfB h st.binCount (ws.getD t 0)) t }
        fuel hh hbc (by simp [List.length_set, hbl]) hgood (by omega)
        hidx2 hemp2
    exact ⟨st1, by rw [hstep]; exact hrec, hvals, hhf, hbc1, hbu1, hbl1,
      hidx1, hemp1⟩

/-- resize of the Set bins under pairwise-distinct home bins rebuilds
the full invariant at the new bin count. -/
theorem SetSt.resizeBins_inv (h : Nat → Nat) (st : SetSt) (ws : List Nat)
    (newSize fuel : Nat) (hinv : SetInv h st ws) (hdist : HomesDistinct h ws)
    (hns : newSize = 32 ∨ newSize = 64) :
    ∃ st1, st.resizeBins newSize (fuel + 1) = some st1 ∧ SetInv h st1 ws ∧
      st1.binCount = newSize := by
  obtain ⟨hh, hbc, hbl, hbu, hlen, hgood, hidx, hemp⟩ := hinv
  have hsz : st.values.size = ws.length := hgood.2.1
  obtain ⟨st1, hloop, hvals, hhf, hbc1, hbu1, hbl1, hidx1, hemp1⟩ :=
    rehashLoop_build h ws hdist ws.length 0
      { st with bins := List.replicate newSize U32_MAX, binCount := newSize }
      fuel hh hns (by simp) hgood (by omega)
      (by intro j hj; omega)
      (by
        intro b hb hnone
        show (List.replicate newSize U32_MAX).getD b 0 = U32_MAX
        rw [List.getD_eq_getElem?_getD, List.getElem?_replicate, if_pos hb,
          Option.getD_some])
  refine ⟨st1, ?_, ⟨hhf.trans hh, ?_, ?_, ?_, hlen, ?_, ?_, ?_⟩, hbc1⟩
  · unfold resizeBins
    rw [hsz]
    exact hloop
  · rw [hbc1]
    exact hns
  · rw [hbl1, hbc1]
  · rw [hbu1]
    exact hbu
  · rw [hvals]
    exact hgood
  · intro j hj
    rw [hbc1]
    exact hidx1 j hj
  · intro b hb hnone
    rw [hbc1] at hb hnone
    exact hemp1 b hb hnone

/-- The empty set state satisfies the invariant for the empty list. -/
theorem SetSt.setInv_mkDefault (h : Nat → Nat) :
    SetInv h (SetSt.mkDefault h) [] := by
  refine ⟨rfl, Or.inl rfl, by simp [mkDefault], rfl, by simp,
    DynArr.goodDA_mkDefault, ?_, ?_⟩
  · intro j hj
    simp at hj
  · intro b hb hnone
    show (List.replicate 32 U32_MAX).getD b 0 = U32_MAX
    rw [List.getD_eq_getElem?_getD, List.getElem?_replicate,
      if_pos (show b < 32 from hb), Option.getD_some]

/-- The insertion body of add on a fresh-home value under the
invariant: the probe stops at the empty home bin, which then records
the new entry index, and the value is pushed. -/
theorem SetSt.insert_fresh (h : Nat → Nat) (st : SetSt) (ws : List Nat)
    (v fuel : Nat) (hinv : SetInv h st ws) (hlen1 : ws.length + 1 ≤ 32)
    (hfor : ∀ t, t < ws.length → homeOf h (ws.getD t 0) ≠ homeOf h v) :
    ∃ st1,
      (st.findBinForValue v (fuel + 1)).bind (fun binIndex =>
        if st.isBinEmpty binIndex then
          some { st with
            binsInUse := st.binsInUse + 1
            bins := st.bins.set binIndex st.values.size
            values := st.values.push v }
        else some st) = some st1
      ∧ SetInv h st1 (ws ++ [v]) := by
  obtain ⟨hh, hbc, hbl, hbu, hlen, hgood, hidx, hemp⟩ := hinv
  obtain ⟨hbinv, hempv⟩ :=
    inv_foreign_bin h st ws v ⟨hh, hbc, hbl, hbu, hlen, hgood, hidx, hemp⟩ hfor
  have hfind :=
    find_foreign h st ws v fuel ⟨hh, hbc, hbl, hbu, hlen, hgood, hidx, hemp⟩ hfor
  have hsize : st.values.size = ws.length := hgood.2.1
  refine ⟨{ st with
      binsInUse := st.binsInUse + 1
      bins := st.bins.set (homeOfB h st.binCount v) st.values.size
      values := st.values.push v }, ?_, ?_⟩
  · rw [hfind]
    show (if st.isBinEmpty (homeOfB h st.binCount v) = true then _
      else some st) = _
    rw [if_pos hempv]
  · refine ⟨hh, hbc, ?_, ?_, ?_, ?_, ?_, ?_⟩
    · show (st.bins.set (homeOfB h st.binCount v) st.values.size).length
        = st.binCount
      rw [List.length_set]
      exact hbl
    · show st.binsInUse + 1 = (ws ++ [v]).length
      rw [hbu]
      simp
    · show (ws ++ [v]).length ≤ 32
      simp only [List.length_append, List.length_cons, List.length_nil]
      omega
    · exact DynArr.goodDA_push st.values ws v hgood
    · intro j hj
      rw [List.length_append, List.length_cons, List.length_nil] at hj
      rcases Nat.lt_or_ge j ws.length with hlt | hge
      · show (st.bins.set (homeOfB h st.binCount v) st.values.size).getD
          (homeOfB h st.binCount ((ws ++ [v]).getD j 0)) 0 = j
        rw [getD_append_left ws [v] j hlt,
          List.getD_eq_getElem?_getD,
          List.getElem?_set_ne
            (Ne.symm (homeOfB_ne_of h st.binCount _ _ hbc (hfor j hlt))),
          ← List.getD_eq_getElem?_getD]
        exact hidx j hlt
      · have hje : j = ws.length := by omega
        rw [hje]
        show (st.bins.set (homeOfB h st.binCount v) st.values.size).getD
          (homeOfB h st.binCount ((ws ++ [v]).getD ws.length 0)) 0 = ws.length
        rw [getD_append_self ws v, List.getD_eq_getElem?_getD,
          List.getElem?_set_self (by
            rw [hbl]
            exact homeOfB_lt_of h st.binCount v hbc),
          Option.getD_some, hsize]
    · intro b hbb hnone
      have hlen1a : (ws ++ [v]).length = ws.length + 1 := by simp
      have hbv : homeOfB h st.binCount v ≠ b := by
        have := hnone ws.length (by omega)
        rwa [getD_append_self ws v] at this
      have hold : ∀ t, t < ws.length →
          homeOfB h st.binCount (ws.getD t 0) ≠ b := by
        intro t ht
        have := hnone t (by omega)
        rwa [getD_append_left ws [v] t ht] at this
      show (st.bins.set (homeOfB h st.binCount v) st.values.size).getD b 0
        = U32_MAX
      rw [List.getD_eq_getElem?_getD, List.getElem?_set_ne hbv,
        ← List.getD_eq_getElem?_getD]
      exact hemp b hbb hold

/-- add of a fresh-home value under the invariant: the grow path (taken
exactly when the load factor is at or past 70 percent, which forces bin
count 32) rehashes into 64 bins first, and in either case the value is
inserted at its empty home bin. -/
theorem SetSt.add_fresh (h : Nat → Nat) (st : SetSt) (ws : List Nat)
    (v fuel : Nat) (hinv : SetInv h st ws) (hdist : HomesDistinct h ws)
    (hlen1 : ws.length + 1 ≤ 32)
    (hfor : ∀ t, t < ws.length → homeOf h (ws.getD t 0) ≠ homeOf h v) :
    ∃ st1, st.add v (fuel + 1) = some st1 ∧ SetInv h st1 (ws ++ [v]) := by
  by_cases hg : st.shouldGrow = true
  · have hbc32 : st.binCount = 32 := by
      rcases hinv.2.1 with hbc | hbc
      · exact hbc
      · exfalso
        have hbu := hinv.2.2.2.1
        have hlen := hinv.2.2.2.2.1
        unfold shouldGrow at hg
        rw [hbc, hbu] at hg
        simp only [ge_iff_le, decide_eq_true_eq] at hg
        omega
    have hnew : st.binCount <<< 1 = 64 := by
      rw [hbc32]
      decide
    obtain ⟨st2, hres, hinv2, hbc2⟩ := resizeBins_inv h st ws
      (st.binCount <<< 1) fuel hinv hdist (Or.inr hnew)
    obtain ⟨st1, heq, hinv1⟩ := insert_fresh h st2 ws v fuel hinv2 hlen1 hfor
    refine ⟨st1, ?_, hinv1⟩
    unfold add
    rw [if_pos hg, hres]
    exact heq
  · obtain ⟨st1, heq, hinv1⟩ := insert_fresh h st ws v fuel hinv hlen1 hfor
    refine ⟨st1, ?_, hinv1⟩
    unfold add
    rw [if_neg hg]
    exact heq

/-- The removal body of remove on a live value under the invariant:
the probe stops at the home bin, the entry is removed from the backing
array (compacting it), the correction scan rewires every later bin
index, and the home bin is marked empty. -/
theorem SetSt.removeStep_member (h : Nat → Nat) (st : SetSt) (ws : List Nat)
    (j fuel : Nat) (hinv : SetInv h st ws) (hdist : HomesDistinct h ws)
    (hj : j < ws.length) :
    ∃ st1,
      ((st.findBinForValue (ws.getD j 0) (fuel + 1)).bind fun binIndex =>
        if ¬ st.isBinEmpty binIndex then
          let s2 := { st with binsInUse := st.binsInUse - 1 }
          let rr := s2.values.removeAt (s2.bins.getD binIndex 0)
          rr.2.map fun _ =>
            let s3 := { s2 with values := rr.1 }
            let bins2 := MapSt.correctBins s3.bins binIndex 0 s3.binCount
            { s3 with bins := bins2.set binIndex U32_MAX }
        else some st) = some st1
      ∧ SetInv h st1 (ws.eraseIdx j) := by
  obtain ⟨hh, hbc, hbl, hbu, hlen, hgood, hidx, hemp⟩ := hinv
  obtain ⟨hbin, hne, hcontain⟩ :=
    inv_member_bin h st ws j ⟨hh, hbc, hbl, hbu, hlen, hgood, hidx, hemp⟩ hj
  have hfind :=
    find_member h st ws j fuel ⟨hh, hbc, hbl, hbu, hlen, hgood, hidx, hemp⟩ hj
  have helem : (st.values.removeAt j).2 = some (ws.getD j 0) :=
    (DynArr.goodDA_removeAt st.values ws j hgood hj).1
  have hgood2 : DynArr.GoodDA (st.values.removeAt j).1 (ws.eraseIdx j) :=
    (DynArr.goodDA_removeAt st.values ws j hgood hj).2
  have homesNe := homesNe_of_distinct h ws hdist
  have hjmax : j ≠ U32_MAX := by
    unfold U32_MAX
    omega
  refine ⟨{ st with
      binsInUse := st.binsInUse - 1
      values := (st.values.removeAt j).1
      bins := (MapSt.correctBins st.bins
          (homeOfB h st.binCount (ws.getD j 0)) 0 st.binCount).set
        (homeOfB h st.binCount (ws.getD j 0)) U32_MAX }, ?_, ?_⟩
  · rw [hfind]
    show (if ¬ st.isBinEmpty (homeOfB h st.binCount (ws.getD j 0)) = true
      then _ else _) = _
    rw [if_pos (by rw [hne]; exact Bool.false_ne_true)]
    show (((st.values.removeAt
        (st.bins.getD (homeOfB h st.binCount (ws.getD j 0)) 0)).2).map _) = _
    rw [hbin, helem, Option.map_some']
  · refine ⟨hh, hbc, ?_, ?_, ?_, hgood2, ?_, ?_⟩
    · show ((MapSt.correctBins st.bins
          (homeOfB h st.binCount (ws.getD j 0)) 0 st.binCount).set
        (homeOfB h st.binCount (ws.getD j 0)) U32_MAX).length = st.binCount
      rw [List.length_set, MapSt.correctBins_length]
      exact hbl
    · show st.binsInUse - 1 = (ws.eraseIdx j).length
      rw [hbu, List.length_eraseIdx_of_lt hj]
    · show (ws.eraseIdx j).length ≤ 32
      rw [List.length_eraseIdx_of_lt hj]
      omega
    · intro m hm
      rw [List.length_eraseIdx_of_lt hj] at hm
      rcases Nat.lt_or_ge m j with hmj | hmj
      · have hw : (ws.eraseIdx j).getD m 0 = ws.getD m 0 :=
          getD_eraseIdx_of_lt ws j m hmj
        show ((MapSt.correctBins st.bins
            (homeOfB h st.binCount (ws.getD j 0)) 0 st.binCount).set
          (homeOfB h st.binCount (ws.getD j 0)) U32_MAX).getD
          (homeOfB h st.binCount ((ws.eraseIdx j).getD m 0)) 0 = m
        rw [hw]
        have hne2 : homeOfB h st.binCount (ws.getD j 0)
            ≠ homeOfB h st.binCount (ws.getD m 0) :=
          homeOfB_ne_of h st.binCount _ _ hbc
            (homesNe j m hj (by omega) (by omega))
        rw [List.getD_eq_getElem?_getD, List.getElem?_set_ne hne2,
          ← List.getD_eq_getElem?_getD, MapSt.correctBins_getD]
        rw [hidx m (by omega), hbin]
        rw [if_neg (by omega)]
      · have hw : (ws.eraseIdx j).getD m 0 = ws.getD (m + 1) 0 :=
          getD_eraseIdx_of_ge ws j m hmj
        show ((MapSt.correctBins st.bins
            (homeOfB h st.binCount (ws.getD j 0)) 0 st.binCount).set
          (homeOfB h st.binCount (ws.getD j 0)) U32_MAX).getD
          (homeOfB h st.binCount ((ws.eraseIdx j).getD m 0)) 0 = m
        rw [hw]
        have hne2 : homeOfB h st.binCount (ws.getD j 0)
            ≠ homeOfB h st.binCount (ws.getD (m + 1) 0) :=
          homeOfB_ne_of h st.binCount _ _ hbc
            (homesNe j (m + 1) hj (by omega) (by omega))
        rw [List.getD_eq_getElem?_getD, List.getElem?_set_ne hne2,
          ← List.getD_eq_getElem?_getD, MapSt.correctBins_getD]
        rw [hidx (m + 1) (by omega), hbin]
        have hmmax : m + 1 ≠ U32_MAX := by
          unfold U32_MAX
          omega
        have hhlt := homeOfB_lt_of h st.binCount (ws.getD (m + 1) 0) hbc
        rw [if_pos ⟨by omega, by omega, hmmax, by omega⟩]
        omega
    · intro b hbb hnone
      by_cases hbj : b = homeOfB h st.binCount (ws.getD j 0)
      · rw [hbj]
        show ((MapSt.correctBins st.bins
            (homeOfB h st.binCount (ws.getD j 0)) 0 st.binCount).set
          (homeOfB h st.binCount (ws.getD j 0)) U32_MAX).getD
          (homeOfB h st.binCount (ws.getD j 0)) 0 = U32_MAX
        rw [List.getD_eq_getElem?_getD,
          List.getElem?_set_self (by
            rw [MapSt.correctBins_length, hbl]
            exact homeOfB_lt_of h st.binCount _ hbc),
          Option.getD_some]
      · have hold : ∀ t, t < ws.length →
            homeOfB h st.binCount (ws.getD t 0) ≠ b := by
          intro t ht
          rcases Nat.lt_trichotomy t j with hlt | heq | hgt
          · have := hnone t (by rw [List.length_eraseIdx_of_lt hj]; omega)
            rwa [getD_eraseIdx_of_lt ws j t hlt] at this
          · rw [heq]
            exact fun he => hbj (he.symm)
          · have ht1 : t - 1 < (ws.eraseIdx j).length := by
              rw [List.length_eraseIdx_of_lt hj]
              omega
            have := hnone (t - 1) ht1
            rw [getD_eraseIdx_of_ge ws j (t - 1) (by omega),
              show t - 1 + 1 = t by omega] at this
            exact this
        show ((MapSt.correctBins st.bins
            (homeOfB h st.binCount (ws.getD j 0)) 0 st.binCount).set
          (homeOfB h st.binCount (ws.getD j 0)) U32_MAX).getD b 0 = U32_MAX
        rw [List.getD_eq_getElem?_getD,
          List.getElem?_set_ne (fun he => hbj he.symm),
          ← List.getD_eq_getElem?_getD, MapSt.correctBins_getD]
        rw [hemp b hbb hold]
        rw [if_neg (by
          intro hc
          exact hc.2.2.1 rfl)]

/-- remove of a live value under the invariant: the shrink path (taken
exactly when the load factor is at or below 30 percent with bin count
above the floor, which forces bin count 64) rehashes into 32 bins
first, and in either case the value is removed from its home bin with
the correction scan keeping every other bin consistent. -/
theorem SetSt.remove_member (h : Nat → Nat) (st : SetSt) (ws : List Nat)
    (j fuel : Nat) (hinv : SetInv h st ws) (hdist : HomesDistinct h ws)
    (hj : j < ws.length) :
    ∃ st1, st.remove (ws.getD j 0) (fuel + 1) = some st1
      ∧ SetInv h st1 (ws.eraseIdx j) := by
  by_cases hs : st.shouldShrink = true
  · have hbc64 : st.binCount = 64 := by
      rcases hinv.2.1 with hbc | hbc
      · exfalso
        unfold shouldShrink at hs
        rw [hbc] at hs
        simp at hs
      · exact hbc
    have hnew : st.binCount >>> 1 = 32 := by
      rw [hbc64]
      decide
    obtain ⟨st2, hres, hinv2, hbc2⟩ := resizeBins_inv h st ws
      (st.binCount >>> 1) fuel hinv hdist (Or.inl hnew)
    obtain ⟨st1, heq, hinv1⟩ := removeStep_member h st2 ws j fuel hinv2 hdist hj
    refine ⟨st1, ?_, hinv1⟩
    unfold remove
    rw [if_pos hs, hres]
    exact heq
  · obtain ⟨st1, heq, hinv1⟩ := removeStep_member h st ws j fuel hinv hdist hj
    refine ⟨st1, ?_, hinv1⟩
    unfold remove
    rw [if_neg hs]
    exact heq

/-- Folding add over values with pairwise-distinct home bins (also
distinct from the live contents) succeeds and extends the invariant
state by the appended values, growing the bin array on the way
whenever the load factor demands it. -/
theorem SetSt.addAll_fresh (h : Nat → Nat) :
    ∀ (vs : List Nat) (st : SetSt) (ws : List Nat) (fuel : Nat),
    SetInv h st ws → HomesDistinct h (ws ++ vs) →
    ∃ st1, st.addAll vs (fuel + 1) = some st1 ∧ SetInv h st1 (ws ++ vs) := by
  intro vs
  induction vs with
  | nil =>
    intro st ws fuel hinv hdist
    refine ⟨st, rfl, ?_⟩
    rw [List.append_nil]
    exact hinv
  | cons v vs ih =>
    intro st ws fuel hinv hdist
    have hdistw : HomesDistinct h ws :=
      List.Pairwise.sublist (List.sublist_append_left ws (v :: vs)) hdist
    have hdistw1 : HomesDistinct h (ws ++ [v]) :=
      List.Pairwise.sublist
        (List.Sublist.append_left ((List.nil_sublist vs).cons₂ v) ws) hdist
    have hlen1 : ws.length + 1 ≤ 32 := by
      have := homesDistinct_length_le h (ws ++ [v]) hdistw1
      simp only [List.length_append, List.length_cons, List.length_nil] at this
      omega
    have hfor : ∀ t, t < ws.length → homeOf h (ws.getD t 0) ≠ homeOf h v := by
      intro t ht
      have hg : ws.getD t 0 = ws[t] := by
        rw [List.getD_eq_getElem?_getD, List.getElem?_eq_getElem ht]
        rfl
      have hmem : ws.getD t 0 ∈ ws := by
        rw [hg]
        exact List.getElem_mem ht
      have hp := List.pairwise_append.mp hdist
      exact hp.2.2 (ws.getD t 0) hmem v (List.mem_cons_self v vs)
    obtain ⟨st2, hadd, hinv2⟩ := add_fresh h st ws v fuel hinv hdistw hlen1 hfor
    have hdist2 : HomesDistinct h ((ws ++ [v]) ++ vs) := by
      rw [List.append_assoc, List.singleton_append]
      exact hdist
    obtain ⟨st1, hrec, hinv1⟩ := ih st2 (ws ++ [v]) fuel hinv2 hdist2
    refine ⟨st1, ?_, ?_⟩
    · have hstep : st.addAll (v :: vs) (fuel + 1)
          = (st.add v (fuel + 1)).bind
              (fun s2 => SetSt.addAll s2 vs (fuel + 1)) := rfl
      rw [hstep, hadd]
      exact hrec
    · rw [List.append_assoc, List.singleton_append] at hinv1
      exact hinv1

/-- Folding remove over a nodup list of live values succeeds stepwise
and leaves the invariant state of the erased contents, shrinking the
bin array on the way whenever the load factor demands it. -/
theorem SetSt.removeAll_distinct (h : Nat → Nat) :
    ∀ (rs : List Nat) (st : SetSt) (ws : List Nat) (fuel : Nat),
    SetInv h st ws → HomesDistinct h ws → ws.Nodup → rs.Nodup →
    (∀ r ∈ rs, r ∈ ws) →
    ∃ st1, st.removeAll rs (fuel + 1) = some st1
      ∧ SetInv h st1 (eraseAll ws rs) := by
  intro rs
  induction rs with
  | nil =>
    intro st ws fuel hinv _ _ _ _
    exact ⟨st, rfl, hinv⟩
  | cons r rs ih =>
    intro st ws fuel hinv hdist hwnd hrnd hsub
    have hrw : r ∈ ws := hsub r (List.mem_cons_self r rs)
    have hjlt : ws.indexOf r < ws.length := List.indexOf_lt_length.mpr hrw
    have hjget : ws.getD (ws.indexOf r) 0 = r := by
      rw [List.getD_eq_getElem?_getD, List.getElem?_eq_getElem hjlt]
      exact List.getElem_indexOf hjlt
    obtain ⟨strec, hrem0, hinv2⟩ :=
      remove_member h st ws (ws.indexOf r) fuel hinv hdist hjlt
    rw [hjget] at hrem0
    rw [List.eraseIdx_indexOf_eq_erase] at hinv2
    have herased : HomesDistinct h (ws.erase r) :=
      List.Pairwise.sublist (List.erase_sublist r ws) hdist
    have hrnotin : r ∉ rs := (List.nodup_cons.mp hrnd).1
    have hsub2 : ∀ x ∈ rs, x ∈ ws.erase r := by
      intro x hx
      rw [hwnd.mem_erase_iff]
      exact ⟨fun he => hrnotin (he ▸ hx), hsub x (List.mem_cons_of_mem r hx)⟩
    obtain ⟨st1, hrec, hinv1⟩ := ih strec (ws.erase r) fuel hinv2 herased
      (hwnd.erase r) (List.nodup_cons.mp hrnd).2 hsub2
    refine ⟨st1, ?_, ?_⟩
    · have hstep : st.removeAll (r :: rs) (fuel + 1)
          = (st.remove r (fuel + 1)).bind
              (fun s2 => SetSt.removeAll s2 rs (fuel + 1)) := rfl
      rw [hstep, hrem0]
      exact hrec
    · have hstep2 : eraseAll ws (r :: rs) = eraseAll (ws.erase r) rs := rfl
      rw [hstep2]
      exact hinv1

/-- getD through an append, left side, for any element type. -/
theorem getD_append_left' {α : Type} [Inhabited α] (l1 l2 : List α) (j : Nat)
    (h : j < l1.length) : (l1 ++ l2).getD j default = l1.getD j default := by
  rw [List.getD_eq_getElem?_getD, List.getElem?_append_left h,
    ← List.getD_eq_getElem?_getD]

/-- getD of a one-element append at the old length, for any element
type. -/
theorem getD_append_self' {α : Type} [Inhabited α] (l1 : List α) (v : α) :
    (l1 ++ [v]).getD l1.length default = v := by
  rw [List.getD_eq_getElem?_getD, List.getElem?_append_right (le_refl _)]
  simp

/-- Mapping the key projection commutes with eraseIdx. -/
theorem map_fst_eraseIdx : ∀ (ps : List (Nat × Nat)) (j : Nat),
    (ps.eraseIdx j).map Prod.fst = (ps.map Prod.fst).eraseIdx j := by
  intro ps
  induction ps with
  | nil =>
    intro j
    rfl
  | cons p ps ih =>
    intro j
    cases j with
    | zero => rfl
    | succ j =>
      show p.1 :: (ps.eraseIdx j).map Prod.fst
        = p.1 :: (ps.map Prod.fst).eraseIdx j
      rw [ih j]

/-- The keys of eraseKey are the erase of the key. -/
theorem map_fst_eraseKey (ps : List (Nat × Nat)) (r : Nat) :
    (eraseKey ps r).map Prod.fst = (ps.map Prod.fst).erase r := by
  unfold eraseKey
  rw [map_fst_eraseIdx, List.eraseIdx_indexOf_eq_erase]

/-- The keys of eraseAllKeys are the eraseAll of the keys. -/
theorem map_fst_eraseAllKeys : ∀ (rs : List Nat) (ps : List (Nat × Nat)),
    (eraseAllKeys ps rs).map Prod.fst = eraseAll (ps.map Prod.fst) rs := by
  intro rs
  induction rs with
  | nil =>
    intro ps
    rfl
  | cons r rs ih =>
    intro ps
    have h1 : eraseAllKeys ps (r :: rs) = eraseAllKeys (eraseKey ps r) rs := rfl
    have h2 : eraseAll (ps.map Prod.fst) (r :: rs)
        = eraseAll ((ps.map Prod.fst).erase r) rs := rfl
    rw [h1, h2, ih (eraseKey ps r), map_fst_eraseKey]

/-- The key of the t-th pair is the t-th key. -/
theorem getD_fst_eq (ps : List (Nat × Nat)) (t : Nat) (ht : t < ps.length) :
    (ps.getD t default).1 = (ps.map Prod.fst).getD t 0 := by
  have h1l : ps.getD t default = ps[t] := by
    rw [List.getD_eq_getElem?_getD, List.getElem?_eq_getElem ht]
    rfl
  have h2l : (ps.map Prod.fst).getD t 0 = ps[t].1 := by
    rw [List.getD_eq_getElem?_getD,
      List.getElem?_eq_getElem (show t < (ps.map Prod.fst).length by
        simpa using ht)]
    simp
  rw [h1l, h2l]

/-- Distinct home bins of the keys at distinct entry indices. -/
theorem keysNe_of_distinct (h : Nat → Nat) (ps : List (Nat × Nat))
    (hdist : HomesDistinct h (ps.map Prod.fst)) :
    ∀ t1 t2, t1 < ps.length → t2 < ps.length → t1 ≠ t2 →
      homeOf h (ps.getD t1 default).1 ≠ homeOf h (ps.getD t2 default).1 := by
  intro t1 t2 h1 h2 hne
  rw [getD_fst_eq ps t1 h1, getD_fst_eq ps t2 h2]
  exact homesNe_of_distinct h (ps.map Prod.fst) hdist t1 t2
    (by simpa using h1) (by simpa using h2) hne

/-- Wrap of the key hash is the home bin at the current bin count. -/
theorem MapSt.wrap_hash_eqK (m : MapSt) (h : Nat → Nat) (k : Nat)
    (hh : m.hashFunc = h) :
    m.wrap (m.hash k) = homeOfB h m.binCount k := by
  unfold MapSt.wrap MapSt.hash homeOfB
  rw [hh]

/-- Under the invariant, the home bin of the j-th entry key stores j,
is not empty, and contains the key by hash comparison. -/
theorem MapSt.inv_member_binK (h : Nat → Nat) (m : MapSt)
    (ps : List (Nat × Nat)) (j : Nat) (hinv : MapInv h m ps)
    (hj : j < ps.length) :
    m.bins.getD (homeOfB h m.binCount (ps.getD j default).1) 0 = j
  ∧ m.isBinEmpty (homeOfB h m.binCount (ps.getD j default).1) = false
  ∧ m.doesBinContain (homeOfB h m.binCount (ps.getD j default).1)
      (ps.getD j default).1 = true := by
  obtain ⟨hh, hbc, hbl, hbu, hlen, hgood, hidx, hemp⟩ := hinv
  have hbin := hidx j hj
  have hne : m.isBinEmpty (homeOfB h m.binCount (ps.getD j default).1)
      = false := by
    unfold isBinEmpty
    rw [hbin]
    simp [U32_MAX]
    omega
  refine ⟨hbin, hne, ?_⟩
  have hget : m.pairs.get j = ps.getD j default :=
    DynArr.goodDA_get _ _ hgood j hj
  unfold doesBinContain
  rw [hbin, hget, hne]
  simp [MapSt.hash, homeOfB_lt_of h m.binCount _ hbc]

/-- Under the invariant, a key whose home bin differs from every live
key home bin finds that bin empty. -/
theorem MapSt.inv_foreign_binK (h : Nat → Nat) (m : MapSt)
    (ps : List (Nat × Nat)) (k : Nat) (hinv : MapInv h m ps)
    (hfor : ∀ t, t < ps.length →
      homeOf h (ps.getD t default).1 ≠ homeOf h k) :
    m.bins.getD (homeOfB h m.binCount k) 0 = U32_MAX
  ∧ m.isBinEmpty (homeOfB h m.binCount k) = true := by
  obtain ⟨hh, hbc, hbl, hbu, hlen, hgood, hidx, hemp⟩ := hinv
  have hmax := hemp (homeOfB h m.binCount k) (homeOfB_lt_of h m.binCount k hbc)
    (fun t ht => homeOfB_ne_of h m.binCount _ _ hbc (hfor t ht))
  refine ⟨hmax, ?_⟩
  unfold isBinEmpty
  rw [hmax]
  simp

/-- The probe loop of the Map stops at the home bin of a live key. -/
theorem MapSt.find_memberK (h : Nat → Nat) (m : MapSt)
    (ps : List (Nat × Nat)) (j fuel : Nat) (hinv : MapInv h m ps)
    (hj : j < ps.length) :
    m.findBinForKey (ps.getD j default).1 (fuel + 1)
      = some (homeOfB h m.binCount (ps.getD j default).1) := by
  obtain ⟨hbin, hne, hcont⟩ := inv_member_binK h m ps j hinv hj
  unfold findBinForKey
  rw [wrap_hash_eqK m h (ps.getD j default).1 hinv.1, findBinLoop, if_neg ?_]
  intro hc
  exact hc.2 hcont

/-- The probe loop of the Map stops at the empty home bin of a foreign
key. -/
theorem MapSt.find_foreignK (h : Nat → Nat) (m : MapSt)
    (ps : List (Nat × Nat)) (k fuel : Nat) (hinv : MapInv h m ps)
    (hfor : ∀ t, t < ps.length →
      homeOf h (ps.getD t default).1 ≠ homeOf h k) :
    m.findBinForKey k (fuel + 1) = some (homeOfB h m.binCount k) := by
  obtain ⟨hbin, hemp⟩ := inv_foreign_binK h m ps k hinv hfor
  unfold findBinForKey
  rw [wrap_hash_eqK m h k hinv.1, findBinLoop, if_neg ?_]
  intro hc
  exact hc.1 hemp

/-- hasKey returns true for a live key under the invariant. -/
theorem MapSt.hasKey_member (h : Nat → Nat) (m : MapSt)
    (ps : List (Nat × Nat)) (j fuel : Nat) (hinv : MapInv h m ps)
    (hj : j < ps.length) :
    m.hasKey (ps.getD j default).1 (fuel + 1) = some true := by
  obtain ⟨hbin, hne, hcont⟩ := inv_member_binK h m ps j hinv hj
  unfold hasKey
  rw [find_memberK h m ps j fuel hinv hj, Option.map_some']
  have hval : homeOfB h m.binCount (ps.getD j default).1 ≠ U32_MAX := by
    have hlt := homeOfB_lt_of h m.binCount (ps.getD j default).1 hinv.2.1
    have hb64 : m.binCount ≤ 64 := by
      rcases hinv.2.1 with hbc | hbc <;> omega
    unfold U32_MAX
    omega
  rw [hcont, Bool.and_true, decide_eq_true hval]

/-- hasKey returns false for a key foreign to every live key home
bin. -/
theorem MapSt.hasKey_foreign (h : Nat → Nat) (m : MapSt)
    (ps : List (Nat × Nat)) (k fuel : Nat) (hinv : MapInv h m ps)
    (hfor : ∀ t, t < ps.length →
      homeOf h (ps.getD t default).1 ≠ homeOf h k) :
    m.hasKey k (fuel + 1) = some false := by
  obtain ⟨hbin, hemp⟩ := inv_foreign_binK h m ps k hinv hfor
  unfold hasKey
  rw [find_foreignK h m ps k fuel hinv hfor, Option.map_some']
  have hcont : m.doesBinContain (homeOfB h m.binCount k) k = false := by
    unfold doesBinContain
    rw [hemp]
    simp
  rw [hcont, Bool.and_false]

/-- The rehash loop of Map::resize under pairwise-distinct key home
bins: each probe finds its empty home bin directly and records the
entry index there. -/
theorem MapSt.rehashLoop_buildK (h : Nat → Nat) (ps : List (Nat × Nat))
    (hdist : HomesDistinct h (ps.map Prod.fst)) :
    ∀ (n t : Nat) (m : MapSt) (fuel : Nat),
    m.hashFunc = h → (m.binCount = 32 ∨ m.binCount = 64) →
    m.bins.length = m.binCount →
    DynArr.GoodDA m.pairs ps →
    t + n = ps.length →
    (∀ j, j < t →
      m.bins.getD (homeOfB h m.binCount (ps.getD j default).1) 0 = j) →
    (∀ b, b < m.binCount →
      (∀ j, j < t → homeOfB h m.binCount (ps.getD j default).1 ≠ b) →
      m.bins.getD b 0 = U32_MAX) →
    ∃ m1, m.rehashLoop t n (fuel + 1) = some m1 ∧
      m1.pairs = m.pairs ∧ m1.hashFunc = m.hashFunc ∧
      m1.binCount = m.binCount ∧ m1.binsInUse = m.binsInUse ∧
      m1.bins.length = m.binCount ∧
      (∀ j, j < ps.length →
        m1.bins.getD (homeOfB h m.binCount (ps.getD j default).1) 0 = j) ∧
      (∀ b, b < m.binCount →
        (∀ j, j < ps.length → homeOfB h m.binCount (ps.getD j default).1 ≠ b) →
        m1.bins.getD b 0 = U32_MAX) := by
  intro n
  induction n with
  | zero =>
    intro t m fuel hh hbc hbl hgood ht hidx hemp
    refine ⟨m, rfl, rfl, rfl, rfl, rfl, hbl, ?_, ?_⟩
    · intro j hj
      exact hidx j (by omega)
    · intro b hb hnone
      exact hemp b hb (fun j hj => hnone j (by omega))
  | succ n ih =>
    intro t m fuel hh hbc hbl hgood ht hidx hemp
    have hget : m.pairs.get t = ps.getD t default :=
      DynArr.goodDA_get _ _ hgood t (by omega)
    have hhome : m.bins.getD (homeOfB h m.binCount (ps.getD t default).1) 0
        = U32_MAX := by
      apply hemp _ (homeOfB_lt_of h m.binCount _ hbc)
      intro j hj
      exact homeOfB_ne_of h m.binCount _ _ hbc
        (keysNe_of_distinct h ps hdist j t (by omega) (by omega) (by omega))
    have hfind : m.findBinForKey (m.pairs.get t).1 (fuel + 1)
        = some (homeOfB h m.binCount (ps.getD t default).1) := by
      rw [hget]
      unfold findBinForKey
      rw [wrap_hash_eqK m h _ hh, findBinLoop, if_neg ?_]
      intro hc
      apply hc.1
      unfold isBinEmpty
      rw [hhome]
      simp
    have hstep : m.rehashLoop t (n + 1) (fuel + 1)
        = MapSt.rehashLoop
            { m with
              bins := m.bins.set
                (homeOfB h m.binCount (ps.getD t default).1) t }
            (t + 1) n (fuel + 1) := by
      rw [rehashLoop, hfind]
    have hidx2 : ∀ j, j < t + 1 →
        (m.bins.set (homeOfB h m.binCount (ps.getD t default).1) t).getD
          (homeOfB h m.binCount (ps.getD j default).1) 0 = j := by
      intro j hj
      rcases Nat.lt_or_ge j t with hjt | hjt
      · rw [List.getD_eq_getElem?_getD,
          List.getElem?_set_ne (homeOfB_ne_of h m.binCount _ _ hbc
            (keysNe_of_distinct h ps hdist t j (by omega) (by omega)
              (by omega))),
          ← List.getD_eq_getElem?_getD]
        exact hidx j hjt
      · have hjeq : j = t := by omega
        rw [hjeq, List.getD_eq_getElem?_getD,
          List.getElem?_set_self (by
            rw [hbl]
            exact homeOfB_lt_of h m.binCount _ hbc),
          Option.getD_some]
    have hemp2 : ∀ b, b < m.binCount →
        (∀ j, j < t + 1 → homeOfB h m.binCount (ps.getD j default).1 ≠ b) →
        (m.bins.set (homeOfB h m.binCount (ps.getD t default).1) t).getD b 0
          = U32_MAX := by
      intro b hb hnone
      rw [List.getD_eq_getElem?_getD,
        List.getElem?_set_ne (hnone t (by omega)),
        ← List.getD_eq_getElem?_getD]
      exact hemp b hb (fun j hj => hnone j (by omega))
    obtain ⟨m1, hrec, hvals, hhf, hbc1, hbu1, hbl1, hidx1, hemp1⟩ :=
      ih (t + 1)
        { m with
          bins := m.bins.set (homeOfB h m.binCount (ps.getD t default).1) t }
        fuel hh hbc (by simp [List.length_set, hbl]) hgood (by omega)
        hidx2 hemp2
    exact ⟨m1, by rw [hstep]; exact hrec, hvals, hhf, hbc1, hbu1, hbl1,
      hidx1, hemp1⟩

/-- resize of the Map bins under pairwise-distinct key home bins
rebuilds the full invariant at the new bin count. -/
theorem MapSt.resizeBins_invK (h : Nat → Nat) (m : MapSt)
    (ps : List (Nat × Nat)) (newSize fuel : Nat) (hinv : MapInv h m ps)
    (hdist : HomesDistinct h (ps.map Prod.fst))
    (hns : newSize = 32 ∨ newSize = 64) :
    ∃ m1, m.resizeBins newSize (fuel + 1) = some m1 ∧ MapInv h m1 ps ∧
      m1.binCount = newSize := by
  obtain ⟨hh, hbc, hbl, hbu, hlen, hgood, hidx, hemp⟩ := hinv
  have hsz : m.pairs.size = ps.length := hgood.2.1
  obtain ⟨m1, hloop, hvals, hhf, hbc1, hbu1, hbl1, hidx1, hemp1⟩ :=
    rehashLoop_buildK h ps hdist ps.length 0
      { m with bins := List.replicate newSize U32_MAX, binCount := newSize }
      fuel hh hns (by simp) hgood (by omega)
      (by intro j hj; omega)
      (by
        intro b hb hnone
        show (List.replicate newSize U32_MAX).getD b 0 = U32_MAX
        rw [List.getD_eq_getElem?_getD, List.getElem?_replicate, if_pos hb,
          Option.getD_some])
  refine ⟨m1, ?_, ⟨hhf.trans hh, ?_, ?_, ?_, hlen, ?_, ?_, ?_⟩, hbc1⟩
  · unfold resizeBins
    rw [hsz]
    exact hloop
  · rw [hbc1]
    exact hns
  · rw [hbl1, hbc1]
  · rw [hbu1]
    exact hbu
  · rw [hvals]
    exact hgood
  · intro j hj
    rw [hbc1]
    exact hidx1 j hj
  · intro b hb hnone
    rw [hbc1] at hb hnone
    exact hemp1 b hb hnone

/-- The empty map state satisfies the invariant for the empty list. -/
theorem MapSt.mapInv_mkDefault (h : Nat → Nat) :
    MapInv h (MapSt.mkDefault h) [] := by
  refine ⟨rfl, Or.inl rfl, by simp [mkDefault], rfl, by simp,
    DynArr.goodDA_mkDefault, ?_, ?_⟩
  · intro j hj
    simp at hj
  · intro b hb hnone
    show (List.replicate 32 U32_MAX).getD b 0 = U32_MAX
    rw [List.getD_eq_getElem?_getD, List.getElem?_replicate,
      if_pos (show b < 32 from hb), Option.getD_some]

/-- The insertion body of assign on a fresh-home key under the
invariant: the probe stops at the empty home bin, which then records
the new entry index, and the pair is pushed; the occupied branch with
its bin-index slip is never reached. -/
theorem MapSt.insert_freshK (h : Nat → Nat) (m : MapSt)
    (ps : List (Nat × Nat)) (k v fuel : Nat) (hinv : MapInv h m ps)
    (hlen1 : ps.length + 1 ≤ 32)
    (hfor : ∀ t, t < ps.length →
      homeOf h (ps.getD t default).1 ≠ homeOf h k) :
    ∃ m1,
      ((m.findBinForKey k (fuel + 1)).bind fun binIndex =>
        if m.isBinEmpty binIndex then
          some { m with
            binsInUse := m.binsInUse + 1
            bins := m.bins.set binIndex m.pairs.size
            pairs := m.pairs.push (k, v) }
        else
          if binIndex < m.pairs.size then
            some { m with
              pairs := m.pairs.setVal binIndex ((m.pairs.get binIndex).1, v) }
          else none) = some m1
      ∧ MapInv h m1 (ps ++ [(k, v)]) := by
  obtain ⟨hh, hbc, hbl, hbu, hlen, hgood, hidx, hemp⟩ := hinv
  obtain ⟨hbinv, hempv⟩ :=
    inv_foreign_binK h m ps k ⟨hh, hbc, hbl, hbu, hlen, hgood, hidx, hemp⟩ hfor
  have hfind :=
    find_foreignK h m ps k fuel ⟨hh, hbc, hbl, hbu, hlen, hgood, hidx, hemp⟩ hfor
  have hsize : m.pairs.size = ps.length := hgood.2.1
  refine ⟨{ m with
      binsInUse := m.binsInUse + 1
      bins := m.bins.set (homeOfB h m.binCount k) m.pairs.size
      pairs := m.pairs.push (k, v) }, ?_, ?_⟩
  · rw [hfind]
    show (if m.isBinEmpty (homeOfB h m.binCount k) = true then _ else _) = _
    rw [if_pos hempv]
  · refine ⟨hh, hbc, ?_, ?_, ?_, ?_, ?_, ?_⟩
    · show (m.bins.set (homeOfB h m.binCount k) m.pairs.size).length
        = m.binCount
      rw [List.length_set]
      exact hbl
    · show m.binsInUse + 1 = (ps ++ [(k, v)]).length
      rw [hbu]
      simp
    · show (ps ++ [(k, v)]).length ≤ 32
      simp only [List.length_append, List.length_cons, List.length_nil]
      omega
    · exact DynArr.goodDA_push m.pairs ps (k, v) hgood
    · intro j hj
      rw [List.length_append, List.length_cons, List.length_nil] at hj
      rcases Nat.lt_or_ge j ps.length with hlt | hge
      · show (m.bins.set (homeOfB h m.binCount k) m.pairs.size).getD
          (homeOfB h m.binCount ((ps ++ [(k, v)]).getD j default).1) 0 = j
        rw [getD_append_left' ps [(k, v)] j hlt,
          List.getD_eq_getElem?_getD,
          List.getElem?_set_ne
            (Ne.symm (homeOfB_ne_of h m.binCount _ _ hbc (hfor j hlt))),
          ← List.getD_eq_getElem?_getD]
        exact hidx j hlt
      · have hje : j = ps.length := by omega
        rw [hje]
        have hsz2 : ((ps ++ [(k, v)]).getD ps.length default).1 = k := by
          rw [getD_append_self' ps (k, v)]
        show (m.bins.set (homeOfB h m.binCount k) m.pairs.size).getD
          (homeOfB h m.binCount ((ps ++ [(k, v)]).getD ps.length default).1) 0
          = ps.length
        rw [hsz2, List.getD_eq_getElem?_getD,
          List.getElem?_set_self (by
            rw [hbl]
            exact homeOfB_lt_of h m.binCount k hbc),
          Option.getD_some, hsize]
    · intro b hbb hnone
      have hlen1a : (ps ++ [(k, v)]).length = ps.length + 1 := by simp
      have hbv : homeOfB h m.binCount k ≠ b := by
        have hx := hnone ps.length (by omega)
        rw [getD_append_self' ps (k, v)] at hx
        exact hx
      have hold : ∀ t, t < ps.length →
          homeOfB h m.binCount (ps.getD t default).1 ≠ b := by
        intro t ht
        have hx := hnone t (by omega)
        rwa [getD_append_left' ps [(k, v)] t ht] at hx
      show (m.bins.set (homeOfB h m.binCount k) m.pairs.size).getD b 0
        = U32_MAX
      rw [List.getD_eq_getElem?_getD, List.getElem?_set_ne hbv,
        ← List.getD_eq_getElem?_getD]
      exact hemp b hbb hold

/-- assign of a fresh-home key under the invariant: the grow path
(which forces bin count 32) rehashes into 64 bins first, and in either
case the pair is inserted at its empty home bin. -/
theorem MapSt.assign_fresh (h : Nat → Nat) (m : MapSt)
    (ps : List (Nat × Nat)) (k v fuel : Nat) (hinv : MapInv h m ps)
    (hdist : HomesDistinct h (ps.map Prod.fst)) (hlen1 : ps.length + 1 ≤ 32)
    (hfor : ∀ t, t < ps.length →
      homeOf h (ps.getD t default).1 ≠ homeOf h k) :
    ∃ m1, m.assign k v (fuel + 1) = some m1 ∧ MapInv h m1 (ps ++ [(k, v)]) := by
  by_cases hg : m.shouldGrow = true
  · have hbc32 : m.binCount = 32 := by
      rcases hinv.2.1 with hbc | hbc
      · exact hbc
      · exfalso
        have hbu := hinv.2.2.2.1
        have hlen := hinv.2.2.2.2.1
        unfold shouldGrow at hg
        rw [hbc, hbu] at hg
        simp only [ge_iff_le, decide_eq_true_eq] at hg
        omega
    have hnew : m.binCount <<< 1 = 64 := by
      rw [hbc32]
      decide
    obtain ⟨m2, hres, hinv2, hbc2⟩ := resizeBins_invK h m ps
      (m.binCount <<< 1) fuel hinv hdist (Or.inr hnew)
    obtain ⟨m1, heq, hinv1⟩ := insert_freshK h m2 ps k v fuel hinv2 hlen1 hfor
    refine ⟨m1, ?_, hinv1⟩
    unfold assign
    rw [if_pos hg, hres]
    exact heq
  · obtain ⟨m1, heq, hinv1⟩ := insert_freshK h m ps k v fuel hinv hlen1 hfor
    refine ⟨m1, ?_, hinv1⟩
    unfold assign
    rw [if_neg hg]
    exact heq

/-- The removal body of Map::remove on a live key under the invariant:
the probe stops at the home bin, the entry is removed from the backing
array (compacting it), the correction scan rewires every later bin
index, and the home bin is marked empty. -/
theorem MapSt.removeStep_memberK (h : Nat → Nat) (m : MapSt)
    (ps : List (Nat × Nat)) (j fuel : Nat) (hinv : MapInv h m ps)
    (hdist : HomesDistinct h (ps.map Prod.fst)) (hj : j < ps.length) :
    ∃ m1,
      ((m.findBinForKey (ps.getD j default).1 (fuel + 1)).bind fun binIndex =>
        if ¬ m.isBinEmpty binIndex then
          let m2 := { m with binsInUse := m.binsInUse - 1 }
          let rr := m2.pairs.removeAt (m2.bins.getD binIndex 0)
          rr.2.map fun _ =>
            let m3 := { m2 with pairs := rr.1 }
            let bins2 := MapSt.correctBins m3.bins binIndex 0 m3.binCount
            { m3 with bins := bins2.set binIndex U32_MAX }
        else some m) = some m1
      ∧ MapInv h m1 (ps.eraseIdx j) := by
  obtain ⟨hh, hbc, hbl, hbu, hlen, hgood, hidx, hemp⟩ := hinv
  obtain ⟨hbin, hne, hcontain⟩ :=
    inv_member_binK h m ps j ⟨hh, hbc, hbl, hbu, hlen, hgood, hidx, hemp⟩ hj
  have hfind :=
    find_memberK h m ps j fuel ⟨hh, hbc, hbl, hbu, hlen, hgood, hidx, hemp⟩ hj
  have helem : (m.pairs.removeAt j).2 = some (ps.getD j default) :=
    (DynArr.goodDA_removeAt m.pairs ps j hgood hj).1
  have hgood2 : DynArr.GoodDA (m.pairs.removeAt j).1 (ps.eraseIdx j) :=
    (DynArr.goodDA_removeAt m.pairs ps j hgood hj).2
  have keysNe := keysNe_of_distinct h ps hdist
  have hjmax : j ≠ U32_MAX := by
    unfold U32_MAX
    omega
  refine ⟨{ m with
      binsInUse := m.binsInUse - 1
      pairs := (m.pairs.removeAt j).1
      bins := (MapSt.correctBins m.bins
          (homeOfB h m.binCount (ps.getD j default).1) 0 m.binCount).set
        (homeOfB h m.binCount (ps.getD j default).1) U32_MAX }, ?_, ?_⟩
  · rw [hfind]
    show (if ¬ m.isBinEmpty (homeOfB h m.binCount (ps.getD j default).1) = true
      then _ else _) = _
    rw [if_pos (by rw [hne]; exact Bool.false_ne_true)]
    show (((m.pairs.removeAt
        (m.bins.getD (homeOfB h m.binCount (ps.getD j default).1) 0)).2).map _)
      = _
    rw [hbin, helem, Option.map_some']
  · refine ⟨hh, hbc, ?_, ?_, ?_, hgood2, ?_, ?_⟩
    · show ((MapSt.correctBins m.bins
          (homeOfB h m.binCount (ps.getD j default).1) 0 m.binCount).set
        (homeOfB h m.binCount (ps.getD j default).1) U32_MAX).length
        = m.binCount
      rw [List.length_set, MapSt.correctBins_length]
      exact hbl
    · show m.binsInUse - 1 = (ps.eraseIdx j).length
      rw [hbu, List.length_eraseIdx_of_lt hj]
    · show (ps.eraseIdx j).length ≤ 32
      rw [List.length_eraseIdx_of_lt hj]
      omega
    · intro t hm
      rw [List.length_eraseIdx_of_lt hj] at hm
      rcases Nat.lt_or_ge t j with hmj | hmj
      · have hw : (ps.eraseIdx j).getD t default = ps.getD t default :=
          getD_eraseIdx_of_lt' ps j t hmj
        show ((MapSt.correctBins m.bins
            (homeOfB h m.binCount (ps.getD j default).1) 0 m.binCount).set
          (homeOfB h m.binCount (ps.getD j default).1) U32_MAX).getD
          (homeOfB h m.binCount ((ps.eraseIdx j).getD t default).1) 0 = t
        rw [hw]
        have hne2 : homeOfB h m.binCount (ps.getD j default).1
            ≠ homeOfB h m.binCount (ps.getD t default).1 :=
          homeOfB_ne_of h m.binCount _ _ hbc
            (keysNe j t hj (by omega) (by omega))
        rw [List.getD_eq_getElem?_getD, List.getElem?_set_ne hne2,
          ← List.getD_eq_getElem?_getD, MapSt.correctBins_getD]
        rw [hidx t (by omega), hbin]
        rw [if_neg (by omega)]
      · have hw : (ps.eraseIdx j).getD t default = ps.getD (t + 1) default :=
          getD_eraseIdx_of_ge' ps j t hmj
        show ((MapSt.correctBins m.bins
            (homeOfB h m.binCount (ps.getD j default).1) 0 m.binCount).set
          (homeOfB h m.binCount (ps.getD j default).1) U32_MAX).getD
          (homeOfB h m.binCount ((ps.eraseIdx j).getD t default).1) 0 = t
        rw [hw]
        have hne2 : homeOfB h m.binCount (ps.getD j default).1
            ≠ homeOfB h m.binCount (ps.getD (t + 1) default).1 :=
          homeOfB_ne_of h m.binCount _ _ hbc
            (keysNe j (t + 1) hj (by omega) (by omega))
        rw [List.getD_eq_getElem?_getD, List.getElem?_set_ne hne2,
          ← List.getD_eq_getElem?_getD, MapSt.correctBins_getD]
        rw [hidx (t + 1) (by omega), hbin]
        have hmmax : t + 1 ≠ U32_MAX := by
          unfold U32_MAX
          omega
        have hhlt := homeOfB_lt_of h m.binCount (ps.getD (t + 1) default).1 hbc
        rw [if_pos ⟨by omega, by omega, hmmax, by omega⟩]
        omega
    · intro b hbb hnone
      by_cases hbj : b = homeOfB h m.binCount (ps.getD j default).1
      · rw [hbj]
        show ((MapSt.correctBins m.bins
            (homeOfB h m.binCount (ps.getD j default).1) 0 m.binCount).set
          (homeOfB h m.binCount (ps.getD j default).1) U32_MAX).getD
          (homeOfB h m.binCount (ps.getD j default).1) 0 = U32_MAX
        rw [List.getD_eq_getElem?_getD,
          List.getElem?_set_self (by
            rw [MapSt.correctBins_length, hbl]
            exact homeOfB_lt_of h m.binCount _ hbc),
          Option.getD_some]
      · have hold : ∀ t, t < ps.length →
            homeOfB h m.binCount (ps.getD t default).1 ≠ b := by
          intro t ht
          rcases Nat.lt_trichotomy t j with hlt | heq | hgt
          · have hx := hnone t (by rw [List.length_eraseIdx_of_lt hj]; omega)
            rwa [getD_eraseIdx_of_lt' ps j t hlt] at hx
          · rw [heq]
            exact fun he => hbj (he.symm)
          · have ht1 : t - 1 < (ps.eraseIdx j).length := by
              rw [List.length_eraseIdx_of_lt hj]
              omega
            have hx := hnone (t - 1) ht1
            rw [getD_eraseIdx_of_ge' ps j (t - 1) (by omega),
              show t - 1 + 1 = t by omega] at hx
            exact hx
        show ((MapSt.correctBins m.bins
            (homeOfB h m.binCount (ps.getD j default).1) 0 m.binCount).set
          (homeOfB h m.binCount (ps.getD j default).1) U32_MAX).getD b 0
          = U32_MAX
        rw [List.getD_eq_getElem?_getD,
          List.getElem?_set_ne (fun he => hbj he.symm),
          ← List.getD_eq_getElem?_getD, MapSt.correctBins_getD]
        rw [hemp b hbb hold]
        rw [if_neg (by
          intro hc
          exact hc.2.2.1 rfl)]

/-- Map::remove of a live key under the invariant: the shrink path
(which forces bin count 64) rehashes into 32 bins first, and in either
case the entry is removed from its home bin with the correction scan
keeping every other bin consistent. -/
theorem MapSt.remove_memberK (h : Nat → Nat) (m : MapSt)
    (ps : List (Nat × Nat)) (j fuel : Nat) (hinv : MapInv h m ps)
    (hdist : HomesDistinct h (ps.map Prod.fst)) (hj : j < ps.length) :
    ∃ m1, m.remove (ps.getD j default).1 (fuel + 1) = some m1
      ∧ MapInv h m1 (ps.eraseIdx j) := by
  by_cases hs : m.shouldShrink = true
  · have hbc64 : m.binCount = 64 := by
      rcases hinv.2.1 with hbc | hbc
      · exfalso
        unfold shouldShrink at hs
        rw [hbc] at hs
        simp at hs
      · exact hbc
    have hnew : m.binCount >>> 1 = 32 := by
      rw [hbc64]
      decide
    obtain ⟨m2, hres, hinv2, hbc2⟩ := resizeBins_invK h m ps
      (m.binCount >>> 1) fuel hinv hdist (Or.inl hnew)
    obtain ⟨m1, heq, hinv1⟩ := removeStep_memberK h m2 ps j fuel hinv2 hdist hj
    refine ⟨m1, ?_, hinv1⟩
    unfold remove
    rw [if_pos hs, hres]
    exact heq
  · obtain ⟨m1, heq, hinv1⟩ := removeStep_memberK h m ps j fuel hinv hdist hj
    refine ⟨m1, ?_, hinv1⟩
    unfold remove
    rw [if_neg hs]
    exact heq

/-- Folding assign over pairs whose keys have pairwise-distinct home
bins (also distinct from the live keys) succeeds and extends the
invariant state by the appended pairs, growing the bin array whenever
the load factor demands it. -/
theorem MapSt.assignAll_fresh (h : Nat → Nat) :
    ∀ (kvs : List (Nat × Nat)) (m : MapSt) (ps : List (Nat × Nat))
      (fuel : Nat),
    MapInv h m ps → HomesDistinct h ((ps ++ kvs).map Prod.fst) →
    ∃ m1, m.assignAll kvs (fuel + 1) = some m1 ∧ MapInv h m1 (ps ++ kvs) := by
  intro kvs
  induction kvs with
  | nil =>
    intro m ps fuel hinv hdist
    refine ⟨m, rfl, ?_⟩
    rw [List.append_nil]
    exact hinv
  | cons kv kvs ih =>
    intro m ps fuel hinv hdist
    rw [List.map_append, List.map_cons] at hdist
    have hdistw : HomesDistinct h (ps.map Prod.fst) :=
      List.Pairwise.sublist (List.sublist_append_left _ _) hdist
    have hdistw1 : HomesDistinct h ((ps ++ [kv]).map Prod.fst) := by
      rw [List.map_append, List.map_cons, List.map_nil]
      exact List.Pairwise.sublist
        (List.Sublist.append_left ((List.nil_sublist _).cons₂ kv.1) _) hdist
    have hlen1 : ps.length + 1 ≤ 32 := by
      have hx := homesDistinct_length_le h ((ps ++ [kv]).map Prod.fst) hdistw1
      simp only [List.length_map, List.length_append, List.length_cons,
        List.length_nil] at hx
      omega
    have hfor : ∀ t, t < ps.length →
        homeOf h (ps.getD t default).1 ≠ homeOf h kv.1 := by
      intro t ht
      rw [getD_fst_eq ps t ht]
      have htm : t < (ps.map Prod.fst).length := by simpa using ht
      have hg : (ps.map Prod.fst).getD t 0 = (ps.map Prod.fst)[t] := by
        rw [List.getD_eq_getElem?_getD, List.getElem?_eq_getElem htm]
        rfl
      have hmem : (ps.map Prod.fst).getD t 0 ∈ ps.map Prod.fst := by
        rw [hg]
        exact List.getElem_mem htm
      have hp := List.pairwise_append.mp hdist
      exact hp.2.2 _ hmem kv.1 (List.mem_cons_self _ _)
    obtain ⟨m2, hadd, hinv2⟩ :=
      assign_fresh h m ps kv.1 kv.2 fuel hinv hdistw hlen1 hfor
    have hinv2a : MapInv h m2 (ps ++ [kv]) := hinv2
    have hdist2 : HomesDistinct h (((ps ++ [kv]) ++ kvs).map Prod.fst) := by
      rw [List.append_assoc, List.singleton_append, List.map_append,
        List.map_cons]
      exact hdist
    obtain ⟨m1, hrec, hinv1⟩ := ih m2 (ps ++ [kv]) fuel hinv2a hdist2
    refine ⟨m1, ?_, ?_⟩
    · have hstep : m.assignAll (kv :: kvs) (fuel + 1)
          = (m.assign kv.1 kv.2 (fuel + 1)).bind
              (fun m2 => MapSt.assignAll m2 kvs (fuel + 1)) := rfl
      rw [hstep, hadd]
      exact hrec
    · rw [List.append_assoc, List.singleton_append] at hinv1
      exact hinv1

/-- Folding Map::remove over a nodup list of live keys succeeds
stepwise and leaves the invariant state of the erased entries,
shrinking the bin array whenever the load factor demands it. -/
theorem MapSt.removeAllKeys_distinct (h : Nat → Nat) :
    ∀ (rs : List Nat) (m : MapSt) (ps : List (Nat × Nat)) (fuel : Nat),
    MapInv h m ps → HomesDistinct h (ps.map Prod.fst) →
    (ps.map Prod.fst).Nodup → rs.Nodup →
    (∀ r ∈ rs, r ∈ ps.map Prod.fst) →
    ∃ m1, m.removeAllKeys rs (fuel + 1) = some m1
      ∧ MapInv h m1 (eraseAllKeys ps rs) := by
  intro rs
  induction rs with
  | nil =>
    intro m ps fuel hinv _ _ _ _
    exact ⟨m, rfl, hinv⟩
  | cons r rs ih =>
    intro m ps fuel hinv hdist hknd hrnd hsub
    have hrw : r ∈ ps.map Prod.fst := hsub r (List.mem_cons_self r rs)
    have hjlt0 : (ps.map Prod.fst).indexOf r < (ps.map Prod.fst).length :=
      List.indexOf_lt_length.mpr hrw
    have hjlt : (ps.map Prod.fst).indexOf r < ps.length := by
      simpa using hjlt0
    have hjget : (ps.getD ((ps.map Prod.fst).indexOf r) default).1 = r := by
      rw [getD_fst_eq ps _ hjlt, List.getD_eq_getElem?_getD,
        List.getElem?_eq_getElem hjlt0]
      exact List.getElem_indexOf hjlt0
    obtain ⟨mrec, hrem0, hinv2⟩ :=
      remove_memberK h m ps ((ps.map Prod.fst).indexOf r) fuel hinv hdist hjlt
    rw [hjget] at hrem0
    have hinv2a : MapInv h mrec (eraseKey ps r) := hinv2
    have hkeys : (eraseKey ps r).map Prod.fst = (ps.map Prod.fst).erase r :=
      map_fst_eraseKey ps r
    have herased : HomesDistinct h ((eraseKey ps r).map Prod.fst) := by
      rw [hkeys]
      exact List.Pairwise.sublist (List.erase_sublist r _) hdist
    have hknd2 : ((eraseKey ps r).map Prod.fst).Nodup := by
      rw [hkeys]
      exact hknd.erase r
    have hrnotin : r ∉ rs := (List.nodup_cons.mp hrnd).1
    have hsub2 : ∀ x ∈ rs, x ∈ (eraseKey ps r).map Prod.fst := by
      intro x hx
      rw [hkeys, hknd.mem_erase_iff]
      exact ⟨fun he => hrnotin (he ▸ hx), hsub x (List.mem_cons_of_mem r hx)⟩
    obtain ⟨m1, hrec, hinv1⟩ := ih mrec (eraseKey ps r) fuel hinv2a herased
      hknd2 (List.nodup_cons.mp hrnd).2 hsub2
    refine ⟨m1, ?_, ?_⟩
    · have hstep : m.removeAllKeys (r :: rs) (fuel + 1)
          = (m.remove r (fuel + 1)).bind
              (fun m2 => MapSt.removeAllKeys m2 rs (fuel + 1)) := rfl
      rw [hstep, hrem0]
      exact hrec
    · have hstep2 : eraseAllKeys ps (r :: rs)
          = eraseAllKeys (eraseKey ps r) rs := rfl
      rw [hstep2]
      exact hinv1

/-- C5: Over a Set, and likewise a Map, whose inserted values (keys)
occupy pairwise-distinct home bins, removal in any order keeps the
bins consistent with the compacted backing array: the inserts all
succeed (growing and rehashing the bins when the load factor reaches
70 percent), and after removing any k of the removal list (the shrink
rehash firing when the load factor falls to 30 percent) the size is
the insert count minus k and has/hasKey finds exactly the
not-yet-removed values - never false for a value not yet removed, and
size 0 once every value is removed.  The linear bin-correction scan of
remove is what keeps the surviving home bins pointing at the compacted
entries.  Without the distinct-home restriction the claim fails; see
the counterexample. -/
theorem c5_remove_consistency (h : Nat → Nat) (fuel : Nat) :
    (∀ (vs rs : List Nat),
      HomesDistinct h vs → vs.Nodup → rs.Nodup → (∀ r ∈ rs, r ∈ vs) →
      ∃ st0, SetSt.addAll (SetSt.mkDefault h) vs (fuel + 1) = some st0 ∧
        ∀ k, k ≤ rs.length →
          ∃ st1, SetSt.removeAll st0 (rs.take k) (fuel + 1) = some st1 ∧
            st1.size = vs.length - k ∧
            ∀ v ∈ vs, st1.hasVal v (fuel + 1)
              = some (decide (v ∉ rs.take k)))
  ∧ (∀ (kvs : List (Nat × Nat)) (rs : List Nat),
      HomesDistinct h (kvs.map Prod.fst) → (kvs.map Prod.fst).Nodup →
      rs.Nodup → (∀ r ∈ rs, r ∈ kvs.map Prod.fst) →
      ∃ m0, MapSt.assignAll (MapSt.mkDefault h) kvs (fuel + 1) = some m0 ∧
        ∀ k, k ≤ rs.length →
          ∃ m1, MapSt.removeAllKeys m0 (rs.take k) (fuel + 1) = some m1 ∧
            m1.size = kvs.length - k ∧
            ∀ p ∈ kvs, m1.hasKey p.1 (fuel + 1)
              = some (decide (p.1 ∉ rs.take k))) := by
  constructor
  · intro vs rs hdist hvnd hrnd hsub
    obtain ⟨st0, hadd, hinv0⟩ := SetSt.addAll_fresh h vs (SetSt.mkDefault h)
      [] fuel (SetSt.setInv_mkDefault h) (by simpa using hdist)
    rw [List.nil_append] at hinv0
    refine ⟨st0, hadd, ?_⟩
    intro k hk
    have hknd : (rs.take k).Nodup :=
      List.Nodup.sublist (List.take_sublist k rs) hrnd
    have hksub : ∀ r ∈ rs.take k, r ∈ vs :=
      fun r hr => hsub r (List.mem_of_mem_take hr)
    obtain ⟨st1, hrem, hinv1⟩ := SetSt.removeAll_distinct h (rs.take k) st0 vs
      fuel hinv0 hdist hvnd hknd hksub
    have hgood := hinv1.2.2.2.2.2.1
    refine ⟨st1, hrem, ?_, ?_⟩
    · show st1.values.size = vs.length - k
      rw [hgood.2.1, eraseAll_length (rs.take k) vs hksub hknd hvnd,
        List.length_take]
      omega
    · intro v hv
      have hsymm : Symmetric (fun a b => homeOf h a ≠ homeOf h b) :=
        fun _ _ hxy => hxy.symm
      by_cases hvr : v ∈ rs.take k
      · have hnot : v ∉ eraseAll vs (rs.take k) := by
          rw [eraseAll_mem (rs.take k) vs hvnd v]
          rintro ⟨_, hc⟩
          exact hc hvr
        have hfor : ∀ t, t < (eraseAll vs (rs.take k)).length →
            homeOf h ((eraseAll vs (rs.take k)).getD t 0) ≠ homeOf h v := by
          intro t ht
          have hg : (eraseAll vs (rs.take k)).getD t 0
              = (eraseAll vs (rs.take k))[t] := by
            rw [List.getD_eq_getElem?_getD, List.getElem?_eq_getElem ht]
            rfl
          have hmem0 : (eraseAll vs (rs.take k)).getD t 0
              ∈ eraseAll vs (rs.take k) := by
            rw [hg]
            exact List.getElem_mem ht
          have hmemv : (eraseAll vs (rs.take k)).getD t 0 ∈ vs :=
            ((eraseAll_mem (rs.take k) vs hvnd _).mp hmem0).1
          have hne0 : (eraseAll vs (rs.take k)).getD t 0 ≠ v :=
            fun he => hnot (he ▸ hmem0)
          exact List.Pairwise.forall hsymm hdist hmemv hv hne0
        rw [SetSt.has_foreign h st1 (eraseAll vs (rs.take k)) v fuel hinv1
            hfor,
          decide_eq_false (fun hc => hc hvr)]
      · have hin : v ∈ eraseAll vs (rs.take k) :=
          (eraseAll_mem (rs.take k) vs hvnd v).mpr ⟨hv, hvr⟩
        obtain ⟨j, hj, hje⟩ := List.mem_iff_getElem.mp hin
        have hgd : (eraseAll vs (rs.take k)).getD j 0 = v := by
          rw [List.getD_eq_getElem?_getD, List.getElem?_eq_getElem hj]
          exact hje
        have hmem := SetSt.has_member h st1 (eraseAll vs (rs.take k)) j fuel
          hinv1 hj
        rw [hgd] at hmem
        rw [hmem, decide_eq_true hvr]
  · intro kvs rs hdist hknd hrnd hsub
    obtain ⟨m0, hadd, hinv0⟩ := MapSt.assignAll_fresh h kvs (MapSt.mkDefault h)
      [] fuel (MapSt.mapInv_mkDefault h) (by simpa using hdist)
    rw [List.nil_append] at hinv0
    refine ⟨m0, hadd, ?_⟩
    intro k hk
    have hknd2 : (rs.take k).Nodup :=
      List.Nodup.sublist (List.take_sublist k rs) hrnd
    have hksub : ∀ r ∈ rs.take k, r ∈ kvs.map Prod.fst :=
      fun r hr => hsub r (List.mem_of_mem_take hr)
    obtain ⟨m1, hrem, hinv1⟩ := MapSt.removeAllKeys_distinct h (rs.take k) m0
      kvs fuel hinv0 hdist hknd hknd2 hksub
    have hgood := hinv1.2.2.2.2.2.1
    have hkeys : (eraseAllKeys kvs (rs.take k)).map Prod.fst
        = eraseAll (kvs.map Prod.fst) (rs.take k) := map_fst_eraseAllKeys _ _
    have hlenE : (eraseAllKeys kvs (rs.take k)).length = kvs.length - k := by
      have h1 : ((eraseAllKeys kvs (rs.take k)).map Prod.fst).length
          = (eraseAll (kvs.map Prod.fst) (rs.take k)).length := by
        rw [hkeys]
      rw [List.length_map] at h1
      rw [h1, eraseAll_length (rs.take k) (kvs.map Prod.fst) hksub hknd2 hknd,
        List.length_map, List.length_take]
      omega
    refine ⟨m1, hrem, ?_, ?_⟩
    · show m1.pairs.size = kvs.length - k
      rw [hgood.2.1, hlenE]
    · intro p hp
      have hsymm : Symmetric (fun a b => homeOf h a ≠ homeOf h b) :=
        fun _ _ hxy => hxy.symm
      have hpk : p.1 ∈ kvs.map Prod.fst := List.mem_map_of_mem Prod.fst hp
      by_cases hvr : p.1 ∈ rs.take k
      · have hnot : p.1 ∉ (eraseAllKeys kvs (rs.take k)).map Prod.fst := by
          rw [hkeys, eraseAll_mem (rs.take k) (kvs.map Prod.fst) hknd p.1]
          rintro ⟨_, hc⟩
          exact hc hvr
        have hfor : ∀ t, t < (eraseAllKeys kvs (rs.take k)).length →
            homeOf h ((eraseAllKeys kvs (rs.take k)).getD t default).1
              ≠ homeOf h p.1 := by
          intro t ht
          rw [getD_fst_eq _ t ht]
          have htm : t < ((eraseAllKeys kvs (rs.take k)).map Prod.fst).length := by
            simpa using ht
          have hg : ((eraseAllKeys kvs (rs.take k)).map Prod.fst).getD t 0
              = ((eraseAllKeys kvs (rs.take k)).map Prod.fst)[t] := by
            rw [List.getD_eq_getElem?_getD, List.getElem?_eq_getElem htm]
            rfl
          have hmem0 : ((eraseAllKeys kvs (rs.take k)).map Prod.fst).getD t 0
              ∈ (eraseAllKeys kvs (rs.take k)).map Prod.fst := by
            rw [hg]
            exact List.getElem_mem htm
          have hsubE : ∀ x, x ∈ (eraseAllKeys kvs (rs.take k)).map Prod.fst →
              x ∈ kvs.map Prod.fst := by
            intro x hx
            rw [hkeys] at hx
            exact ((eraseAll_mem (rs.take k) (kvs.map Prod.fst) hknd x).mp hx).1
          have hmemv : ((eraseAllKeys kvs (rs.take k)).map Prod.fst).getD t 0
              ∈ kvs.map Prod.fst := hsubE _ hmem0
          have hne0 : ((eraseAllKeys kvs (rs.take k)).map Prod.fst).getD t 0
              ≠ p.1 := fun he => hnot (he ▸ hmem0)
          exact List.Pairwise.forall hsymm hdist hmemv hpk hne0
        rw [MapSt.hasKey_foreign h m1 (eraseAllKeys kvs (rs.take k)) p.1 fuel
            hinv1 hfor,
          decide_eq_false (fun hc => hc hvr)]
      · have hin : p.1 ∈ (eraseAllKeys kvs (rs.take k)).map Prod.fst := by
          rw [hkeys]
          exact (eraseAll_mem (rs.take k) (kvs.map Prod.fst) hknd p.1).mpr
            ⟨hpk, hvr⟩
        obtain ⟨j, hj, hje⟩ := List.mem_iff_getElem.mp hin
        have hjl : j < (eraseAllKeys kvs (rs.take k)).length := by
          simpa using hj
        have hgd : ((eraseAllKeys kvs (rs.take k)).getD j default).1 = p.1 := by
          rw [getD_fst_eq _ j hjl, List.getD_eq_getElem?_getD,
            List.getElem?_eq_getElem hj]
          exact hje
        have hmem := MapSt.hasKey_member h m1 (eraseAllKeys kvs (rs.take k)) j
          fuel hinv1 hjl
        rw [hgd] at hmem
        rw [hmem, decide_eq_true hvr]

/-- Witness for C5 at concrete inputs: Set values 0 and 1 and Map pairs
(0, 5), (1, 6) under the identity hash occupy distinct home bins;
removing value (key) 1 leaves size 1 with lookup true for 0 and false
for 1. -/
theorem c5_remove_consistency_witness :
    (∃ st0, SetSt.addAll (SetSt.mkDefault id) [0, 1] 5 = some st0 ∧
      ∀ k, k ≤ [1].length →
        ∃ st1, SetSt.removeAll st0 ([1].take k) 5 = some st1 ∧
          st1.size = [0, 1].length - k ∧
          ∀ v ∈ [0, 1], st1.hasVal v 5 = some (decide (v ∉ [1].take k)))
  ∧ (∃ m0, MapSt.assignAll (MapSt.mkDefault id) [(0, 5), (1, 6)] 5 = some m0 ∧
      ∀ k, k ≤ [1].length →
        ∃ m1, MapSt.removeAllKeys m0 ([1].take k) 5 = some m1 ∧
          m1.size = [(0, 5), (1, 6)].length - k ∧
          ∀ p ∈ [(0, 5), (1, 6)], m1.hasKey p.1 5
            = some (decide (p.1 ∉ [1].take k))) :=
  ⟨(c5_remove_consistency id 4).1 [0, 1] [1]
    (by
      have hp : List.Pairwise
          (fun a b => homeOf id a ≠ homeOf id b) [0, 1] := by
        decide
      exact hp)
    (by decide) (by decide) (by decide),
   (c5_remove_consistency id 4).2 [(0, 5), (1, 6)] [1]
    (by
      have hp : List.Pairwise
          (fun a b => homeOf id a ≠ homeOf id b)
          ([(0, 5), (1, 6)].map Prod.fst) := by
        decide
      exact hp)
    (by decide) (by decide) (by decide)⟩

end Tron
